import Mathlib

/-!
Verification of the request-validation, redaction, rate-limiting and CORS
logic of the `chat` Azure Function (api/chat/index.js).

The JavaScript source is shallowly embedded: JS values that can appear in a
message field are modelled by `JVal` (with JS falsiness), the three
PHI-redaction regex replacements are implemented as character-list scanners
that follow the semantics of JavaScript `String.replace` with a global
regex (left-to-right scan, word boundaries `\b` over `[A-Za-z0-9_]`,
greedy quantifiers with backtracking), the in-memory rate-limit store is a
function from client ids to optional per-client records, and the CORS
wildcard test is a small regex engine applied to the pattern obtained by
`allowedOrigin.replace('*', '.*')` exactly as `new RegExp(p).test(o)` does
(unanchored search, `.` matching any character).
-/

namespace Mentora

/-- JS word character, the class `[A-Za-z0-9_]` used by `\b` and `\w`. -/
def isWordChar (c : Char) : Bool :=
  c.isAlpha || c.isDigit || c == '_'

/-- Word-boundary condition after a match fragment: the next character
(if any) is not a word character.  Used for the trailing `\b` of the
SSN and long-id patterns, whose last matched character is a digit. -/
def afterBoundary : List Char → Bool
  | [] => true
  | c :: _ => !isWordChar c

theorem length_dropWhile_le (p : Char → Bool) :
    ∀ l : List Char, (l.dropWhile p).length ≤ l.length
  | [] => by simp
  | c :: cs => by
    rw [List.dropWhile_cons]
    split
    · exact Nat.le_succ_of_le (length_dropWhile_le p cs)
    · simp

/-! ### Redaction rule 1: `/\b\d{3}-\d{2}-\d{4}\b/g → "[REDACTED-SSN]"` -/

def SSN_TOKEN : List Char := "[REDACTED-SSN]".data

/-- Try to match `\d{3}-\d{2}-\d{4}\b` at the head of the list; returns the
matched fragment and the remainder. The leading `\b` is checked by the
caller (the character before the head must not be a word character, since
the first matched character is a digit). -/
def ssnTry : List Char → Option (List Char × List Char)
  | d1 :: d2 :: d3 :: h1 :: d4 :: d5 :: h2 :: d6 :: d7 :: d8 :: d9 :: rest =>
    if d1.isDigit && d2.isDigit && d3.isDigit && h1 == '-' && d4.isDigit && d5.isDigit
        && h2 == '-' && d6.isDigit && d7.isDigit && d8.isDigit && d9.isDigit
        && afterBoundary rest
    then some ([d1, d2, d3, h1, d4, d5, h2, d6, d7, d8, d9], rest)
    else none
  | _ => none

theorem ssnTry_length {l m r : List Char} (h : ssnTry l = some (m, r)) :
    r.length + 11 = l.length := by
  unfold ssnTry at h
  split at h
  · split at h
    · cases h
      simp
    · exact absurd h (by simp)
  · exact absurd h (by simp)

/-- Left-to-right global-replace scanner for the SSN pattern.  The boolean
argument records whether the previous character of the original string is
a word character (`false` at the start of the string). -/
def ssnAux : Bool → List Char → List Char
  | _, [] => []
  | prevW, c :: cs =>
    if prevW then c :: ssnAux (isWordChar c) cs
    else
      match h : ssnTry (c :: cs) with
      | some (_, rest) => SSN_TOKEN ++ ssnAux true rest
      | none => c :: ssnAux (isWordChar c) cs
termination_by _ l => l.length
decreasing_by
  all_goals simp_wf
  all_goals first
    | omega
    | (have h9 := ssnTry_length h; simp at h9; omega)

/-! ### Redaction rule 2: `/\b\d{10,16}\b/g → "[REDACTED-ID]"` -/

def ID_TOKEN : List Char := "[REDACTED-ID]".data

theorem dropWhile_cons_digit_length {c : Char} {cs : List Char} (h : c.isDigit = true) :
    ((c :: cs).dropWhile Char.isDigit).length < (c :: cs).length := by
  rw [List.dropWhile_cons]
  simp only [h, if_true]
  have := length_dropWhile_le Char.isDigit cs
  simp only [List.length_cons]
  omega

/-- Left-to-right global-replace scanner for `\b\d{10,16}\b`.  At a position
preceded by a non-word character and starting with a digit, the regex
engine takes the maximal digit run greedily; shrinking the run always
leaves a digit (a word character) adjacent, so the trailing `\b` forces the
full run: the run matches exactly when its length is between 10 and 16 and
the character after it is not a word character.  No match can start inside
a digit run (the leading `\b` fails there). -/
def idAux : Bool → List Char → List Char
  | _, [] => []
  | prevW, c :: cs =>
    if h : prevW || !c.isDigit then c :: idAux (isWordChar c) cs
    else
      if 10 ≤ ((c :: cs).takeWhile Char.isDigit).length
          && ((c :: cs).takeWhile Char.isDigit).length ≤ 16
          && afterBoundary ((c :: cs).dropWhile Char.isDigit)
      then ID_TOKEN ++ idAux true ((c :: cs).dropWhile Char.isDigit)
      else (c :: cs).takeWhile Char.isDigit ++ idAux true ((c :: cs).dropWhile Char.isDigit)
termination_by _ l => l.length
decreasing_by
  all_goals simp_wf
  all_goals first
    | omega
    | (have hd : c.isDigit = true := by
        revert h
        cases hc : c.isDigit <;> simp [hc]
       have := @dropWhile_cons_digit_length c cs hd
       simp only [List.length_cons] at this ⊢
       omega)

/-! ### Redaction rule 3:
`/\b[A-Za-z0-9._%+-]+@[A-Za-z0-9.-]+\.[A-Z|a-z]{2,}\b/g → "[REDACTED-EMAIL]"`

The local-part class `[A-Za-z0-9._%+-]` contains no `@`, so the greedy `+`
admits exactly one viable split (the maximal run followed by `@`).  The
domain class `[A-Za-z0-9.-]` contains `.`, so the literal `\.` after the
greedy `+` is found by backtracking to the rightmost `.` inside the
maximal domain run (with at least one domain character before it).  The
TLD class `[A-Z|a-z]` (letters and the literal `|`) is scanned greedily
from the chosen dot and shrunk until the trailing `\b` holds, with a
minimum of 2 characters. -/

def EMAIL_TOKEN : List Char := "[REDACTED-EMAIL]".data

def isLChar (c : Char) : Bool :=
  c.isAlpha || c.isDigit || c == '.' || c == '_' || c == '%' || c == '+' || c == '-'

def isDChar (c : Char) : Bool :=
  c.isAlpha || c.isDigit || c == '.' || c == '-'

def isTChar (c : Char) : Bool :=
  c.isAlpha || c == '|'

/-- `\b` between an optional left character and an optional right character:
true when exactly one side is a word character (a missing side counts as
non-word). -/
def boundaryBetween (left right : Option Char) : Bool :=
  (match left with | some c => isWordChar c | none => false)
    != (match right with | some c => isWordChar c | none => false)

/-- The character at offset `m` of `trun ++ trest`, if any. -/
def charAt (trun trest : List Char) (m : Nat) : Option Char :=
  match trun.get? m with
  | some c => some c
  | none => trest.get? (m - trun.length)

/-- Greedy TLD choice: the largest `n` with `2 ≤ n ≤ trun.length` such that
the trailing `\b` holds after the first `n` characters of the TLD run.
The fuel starts at `trun.length` and counts down (the regex engine shrinks
a greedy quantifier one character at a time). -/
def tldGo (trun trest : List Char) : Nat → Option Nat
  | 0 => none
  | n + 1 =>
    if 2 ≤ n + 1 && n + 1 ≤ trun.length
        && boundaryBetween (trun.get? n) (charAt trun trest (n + 1))
    then some (n + 1)
    else tldGo trun trest n

/-- The part of the string after a candidate domain dot at index `j` of the
maximal domain run: the rest of the run followed by the rest of the
string. -/
def tldPart (drun rest3 : List Char) (j : Nat) : List Char :=
  drun.drop (j + 1) ++ rest3

/-- Attempt the suffix `\.[A-Z|a-z]{2,}\b` with the literal dot at index
`j` of the maximal domain run (requires at least one domain character
before the dot). -/
def domTry (drun rest3 : List Char) (j : Nat) : Option (Nat × Nat) :=
  if drun.get? j == some '.' && decide (1 ≤ j) then
    match tldGo ((tldPart drun rest3 j).takeWhile isTChar)
        ((tldPart drun rest3 j).dropWhile isTChar)
        ((tldPart drun rest3 j).takeWhile isTChar).length with
    | some n => some (j, n)
    | none => none
  else none

/-- Backtracking search for the `\.` position inside the maximal domain
run (rightmost dot first, as the regex engine gives back greedy `+`
characters one at a time).  Returns the dot index and the TLD length. -/
def domGo (drun rest3 : List Char) : Nat → Option (Nat × Nat)
  | 0 => none
  | j + 1 =>
    match domTry drun rest3 j with
    | some jn => some jn
    | none => domGo drun rest3 j

theorem domTry_some {drun rest3 : List Char} {j j' n : Nat}
    (h : domTry drun rest3 j = some (j', n)) :
    j' = j ∧ drun.get? j = some '.' ∧ 1 ≤ j := by
  unfold domTry at h
  split at h
  · next hcond =>
    simp only [Bool.and_eq_true, beq_iff_eq, decide_eq_true_eq] at hcond
    split at h
    · cases h
      exact ⟨rfl, hcond.1, hcond.2⟩
    · exact absurd h (by simp)
  · exact absurd h (by simp)

theorem domGo_some {drun rest3 : List Char} {fuel j n : Nat}
    (h : domGo drun rest3 fuel = some (j, n)) :
    drun.get? j = some '.' ∧ 1 ≤ j := by
  induction fuel with
  | zero => exact absurd h (by simp [domGo])
  | succ f ih =>
    rw [domGo] at h
    split at h
    · next jn hjn =>
      cases h
      obtain ⟨rfl, h1, h2⟩ := domTry_some hjn
      exact ⟨h1, h2⟩
    · exact ih h

/-- Try to match the email pattern at the head of `l`, where `prevW` says
whether the character before `l` in the original string is a word
character.  Returns the matched fragment and the remainder. -/
def emailTry (prevW : Bool) (l : List Char) : Option (List Char × List Char) :=
  match l with
  | [] => none
  | c :: cs =>
    if prevW == isWordChar c then none
    else if ((c :: cs).takeWhile isLChar).isEmpty then none
    else
      match (c :: cs).dropWhile isLChar with
      | '@' :: rest2 =>
        match domGo (rest2.takeWhile isDChar) (rest2.dropWhile isDChar)
            (rest2.takeWhile isDChar).length with
        | some (j, n) =>
          some ((c :: cs).takeWhile isLChar
                  ++ '@' :: ((rest2.takeWhile isDChar).take j
                  ++ '.' :: ((tldPart (rest2.takeWhile isDChar) (rest2.dropWhile isDChar) j).takeWhile isTChar).take n),
                ((tldPart (rest2.takeWhile isDChar) (rest2.dropWhile isDChar) j).takeWhile isTChar).drop n
                  ++ (tldPart (rest2.takeWhile isDChar) (rest2.dropWhile isDChar) j).dropWhile isTChar)
        | none => none
      | _ => none

/-- Splitting a list at a known element: `take j ++ a :: drop (j+1)` gives
back the list when element `j` is `a`. -/
theorem take_get_drop {α : Type} : ∀ (j : Nat) (l : List α) (a : α),
    l.get? j = some a → l.take j ++ a :: l.drop (j + 1) = l
  | 0, [], _ => by simp
  | 0, x :: xs, a => by
    intro h
    simp only [List.get?_cons_zero, Option.some.injEq] at h
    subst h
    simp
  | j + 1, [], _ => by simp
  | j + 1, x :: xs, a => by
    intro h
    simp only [List.get?_cons_succ] at h
    have := take_get_drop j xs a h
    simp only [List.take_succ_cons, List.drop_succ_cons, List.cons_append, this]

/-- Reassembly of the email-match fragments: the matched text followed by
the remainder is the original list. -/
theorem email_reassemble {α : Type} (loc rest1 rest2 drun rest3 trun trest l : List α)
    (atc dot : α) (j n : Nat)
    (hl : loc ++ rest1 = l) (h1 : rest1 = atc :: rest2) (h2 : drun ++ rest3 = rest2)
    (hj : drun.get? j = some dot) (h3 : trun ++ trest = drun.drop (j + 1) ++ rest3) :
    (loc ++ atc :: (drun.take j ++ dot :: trun.take n)) ++ (trun.drop n ++ trest) = l := by
  subst h1
  have htr : trun.take n ++ (trun.drop n ++ trest) = drun.drop (j + 1) ++ rest3 := by
    rw [← List.append_assoc, List.take_append_drop, h3]
  have hdr := take_get_drop j drun dot hj
  calc (loc ++ atc :: (drun.take j ++ dot :: trun.take n)) ++ (trun.drop n ++ trest)
      = loc ++ atc :: (drun.take j ++ dot :: (trun.take n ++ (trun.drop n ++ trest))) := by
        simp [List.append_assoc]
    _ = loc ++ atc :: (drun.take j ++ dot :: (drun.drop (j + 1) ++ rest3)) := by rw [htr]
    _ = loc ++ atc :: ((drun.take j ++ dot :: drun.drop (j + 1)) ++ rest3) := by
        simp [List.append_assoc]
    _ = loc ++ atc :: (drun ++ rest3) := by rw [hdr]
    _ = l := by rw [h2, hl]

theorem emailTry_some {prevW : Bool} {l m r : List Char}
    (h : emailTry prevW l = some (m, r)) :
    m ≠ [] ∧ m ++ r = l := by
  unfold emailTry at h
  split at h
  · exact absurd h (by simp)
  · next c cs =>
    split at h
    · exact absurd h (by simp)
    · split at h
      · exact absurd h (by simp)
      · next hne =>
        split at h
        · next rest2 heq =>
          split at h
          · next j n hdom =>
            simp only [Option.some.injEq, Prod.mk.injEq] at h
            obtain ⟨rfl, rfl⟩ := h
            have hdot := (domGo_some hdom).1
            refine ⟨by simp, ?_⟩
            exact email_reassemble _ _ rest2 _ _ _ _ (c :: cs) '@' '.' j n
              (List.takeWhile_append_dropWhile _ _) heq (List.takeWhile_append_dropWhile _ _)
              hdot (List.takeWhile_append_dropWhile _ _)
          · exact absurd h (by simp)
        · exact absurd h (by simp)

theorem emailTry_length {prevW : Bool} {l m r : List Char}
    (h : emailTry prevW l = some (m, r)) : r.length < l.length := by
  obtain ⟨hm, hmr⟩ := emailTry_some h
  have hlen : m.length + r.length = l.length := by
    rw [← hmr, List.length_append]
  have hpos : 1 ≤ m.length := by
    cases m with
    | nil => exact absurd rfl hm
    | cons a as => simp
  omega

/-- Left-to-right global-replace scanner for the email pattern. After a
match the boundary context for the next position is the last character of
the matched fragment (a TLD character: a letter, or `|`). -/
def emailAux : Bool → List Char → List Char
  | _, [] => []
  | prevW, c :: cs =>
    match h : emailTry prevW (c :: cs) with
    | some (m, rest) =>
      EMAIL_TOKEN ++ emailAux (match m.getLast? with
        | some d => isWordChar d
        | none => true) rest
    | none => c :: emailAux (isWordChar c) cs
termination_by _ l => l.length
decreasing_by
  all_goals simp_wf
  all_goals first
    | omega
    | (have h9 := emailTry_length h; simp only [List.length_cons] at h9 ⊢; omega)

/-! ### Sanitization pipeline -/

/-- JS `String.prototype.trim`: strip whitespace from both ends. -/
def trimChars (l : List Char) : List Char :=
  ((l.dropWhile Char.isWhitespace).reverse.dropWhile Char.isWhitespace).reverse

/-- The body of the sanitization in `validateAndSanitizeInput`:
`content.replace(ssn).replace(longId).replace(email).trim()`. -/
def sanitizeContent (s : String) : String :=
  ⟨trimChars (emailAux false (idAux false (ssnAux false s.data)))⟩

/-! ### JS values and `validateAndSanitizeInput` -/

/-- A JSON-ish JS value as it can appear in a `role` or `content` field. -/
inductive JVal
  | jstr (s : String)
  | jnum (n : Int)
  | jbool (b : Bool)
  | jnull
deriving DecidableEq, Repr

/-- An element of the caller-supplied `messages` array; `none` models an
absent (`undefined`) field. -/
structure RawMessage where
  role : Option JVal
  content : Option JVal
deriving DecidableEq, Repr

/-- The caller-supplied `messages` value: either not an array at all
(including absent), or a list of elements. -/
inductive RawInput
  | notArray
  | arr (msgs : List RawMessage)
deriving DecidableEq, Repr

/-- A sanitized output message. -/
structure Message where
  role : String
  content : String
deriving DecidableEq, Repr

/-- JS falsiness of an optional field value (`!msg.role` / `!msg.content`):
absent, `null`, `""`, `0` and `false` are falsy. -/
def jsFalsy : Option JVal → Bool
  | none => true
  | some .jnull => true
  | some (.jstr s) => s == ""
  | some (.jnum n) => n == 0
  | some (.jbool b) => !b

/-- `['user', 'assistant', 'system'].includes(msg.role)` (strict equality,
so only those exact strings pass). -/
def includesRole : Option JVal → Bool
  | some (.jstr r) => r == "user" || r == "assistant" || r == "system"
  | _ => false

def roleStr : Option JVal → String
  | some (.jstr r) => r
  | _ => ""

def MAX_MESSAGE_LENGTH : Nat := 4000

/-- The per-message body of the `messages.map(...)` in
`validateAndSanitizeInput`; a thrown error is an `Except.error`. -/
def validateMsg (msg : RawMessage) : Except String Message :=
  if jsFalsy msg.role || jsFalsy msg.content then
    .error "Each message must have role and content"
  else if !includesRole msg.role then
    .error "Invalid message role"
  else
    match msg.content with
    | some (.jstr c) =>
      if MAX_MESSAGE_LENGTH < c.length then
        .error "Message content too long (max 4000 characters)"
      else
        .ok { role := roleStr msg.role, content := sanitizeContent c }
    | _ => .error "Message content too long (max 4000 characters)"

/-- `Array.prototype.map` with a throwing callback: evaluate left to
right, stopping at the first thrown error. -/
def mapExcept (f : RawMessage → Except String Message) :
    List RawMessage → Except String (List Message)
  | [] => .ok []
  | m :: ms =>
    match f m with
    | .error e => .error e
    | .ok x =>
      match mapExcept f ms with
      | .error e => .error e
      | .ok xs => .ok (x :: xs)

/-- `validateAndSanitizeInput(messages)`. -/
def validateAndSanitizeInput : RawInput → Except String (List Message)
  | .notArray => .error "Messages must be a non-empty array"
  | .arr msgs =>
    if msgs.length == 0 then .error "Messages must be a non-empty array"
    else if 10 < msgs.length then .error "Too many messages in conversation"
    else mapExcept validateMsg msgs

/-- Whether an `Except` result is an error (a thrown `ValidationError`). -/
def isErr {α : Type} : Except String α → Bool
  | .error _ => true
  | .ok _ => false

/-! ### Rate limiter -/

def RATE_LIMIT_WINDOW : Nat := 60000
def RATE_LIMIT_MAX_REQUESTS : Nat := 30

/-- Per-client record in `rateLimitStore`. -/
structure ClientData where
  count : Nat
  resetTime : Nat
deriving DecidableEq, Repr

/-- The in-memory `rateLimitStore` `Map`, as a function from client ids. -/
def RateStore : Type := String → Option ClientData

/-- `isRateLimited(clientId)` at time `now` (`Date.now()`), returning the
boolean result and the updated store.  `rateLimitStore.get(clientId) ||
{count: 0, resetTime: now + RATE_LIMIT_WINDOW}` falls back to the default
only when the key is absent (a stored object is always truthy). -/
def isRateLimited (store : RateStore) (clientId : String) (now : Nat) :
    Bool × RateStore :=
  let clientData := (store clientId).getD ⟨0, now + RATE_LIMIT_WINDOW⟩
  let clientData' : ClientData :=
    if clientData.resetTime < now then
      ⟨1, now + RATE_LIMIT_WINDOW⟩
    else
      ⟨clientData.count + 1, clientData.resetTime⟩
  (decide (RATE_LIMIT_MAX_REQUESTS < clientData'.count),
   fun k => if k == clientId then some clientData' else store k)

/-- A sequence of `isRateLimited` calls for one client at the given times;
returns the list of results and the final store. -/
def runCalls (clientId : String) : List Nat → RateStore → List Bool × RateStore
  | [], store => ([], store)
  | t :: ts, store =>
    ((isRateLimited store clientId t).1
        :: (runCalls clientId ts (isRateLimited store clientId t).2).1,
      (runCalls clientId ts (isRateLimited store clientId t).2).2)

/-! ### CORS helper

`getCorsHeaders(origin)` tests the caller origin against `ALLOWED_ORIGINS`;
a wildcard entry is turned into a regex by `allowedOrigin.replace('*','.*')`
(first occurrence only) and applied with `new RegExp(pattern).test(origin)`:
an unanchored search in which every `.` of the entry matches any character.
`test(null)` coerces the absent origin to the string `"null"`; `===`
against `null` is false. -/

/-- A token of the compiled pattern: a literal character, `.` (any single
character) or `.*` (any sequence). -/
inductive RTok
  | lit (c : Char)
  | anyChar
  | anySeq
deriving DecidableEq, Repr

/-- Does the token list match some prefix of `l`? (Regex matching without
anchors succeeds on any prefix; `anySeq` tries every split.) -/
def matchHere : List RTok → List Char → Bool
  | [], _ => true
  | .lit _ :: _, [] => false
  | .lit c :: ps, d :: ds => c == d && matchHere ps ds
  | .anyChar :: _, [] => false
  | .anyChar :: ps, _ :: ds => matchHere ps ds
  | .anySeq :: ps, ds => ds.tails.any fun suf => matchHere ps suf

/-- `new RegExp(pattern).test(s)`: the pattern matches starting at some
position of `s`. -/
def regexTest (ps : List RTok) (s : List Char) : Bool :=
  s.tails.any fun suf => matchHere ps suf

/-- Compile a pattern string: `.*` becomes `anySeq`, a lone `.` becomes
`anyChar`, anything else is a literal. -/
def parsePattern : List Char → List RTok
  | [] => []
  | '.' :: '*' :: rest => .anySeq :: parsePattern rest
  | '.' :: rest => .anyChar :: parsePattern rest
  | c :: rest => .lit c :: parsePattern rest

/-- JS `String.prototype.replace('*', '.*')`: replace the first `*`. -/
def replaceFirstStar : List Char → List Char
  | [] => []
  | '*' :: rest => '.' :: '*' :: rest
  | c :: rest => c :: replaceFirstStar rest

def ALLOWED_ORIGINS : List String :=
  ["https://mentora-app.azurestaticapps.net", "https://*.azurestaticapps.net"]

/-- JS coercion of the origin to a string inside `RegExp.test`; an absent
(`null`) origin stringifies to `"null"`. -/
def jsStringOrNull : Option String → String
  | some s => s
  | none => "null"

/-- `allowedOrigin.includes('*')`. -/
def hasStar (s : String) : Bool :=
  s.data.any fun c => c == '*'

/-- One step of `ALLOWED_ORIGINS.some(...)`: wildcard entries go through
the regex test, plain entries use `===`. -/
def originMatchesEntry (allowedOrigin : String) (origin : Option String) : Bool :=
  if hasStar allowedOrigin then
    regexTest (parsePattern (replaceFirstStar allowedOrigin.data))
      (jsStringOrNull origin).data
  else
    match origin with
    | some o => allowedOrigin == o
    | none => false

/-- The resolved `Access-Control-Allow-Origin` value (the allow-list is a
parameter so the spec's example list can be used; the handler passes
`ALLOWED_ORIGINS`).  `allowList[0]` of the nonempty configured list is
`headD ""`. -/
def resolveAllowOrigin (allowList : List String) (origin : Option String) : String :=
  if allowList.any fun a => originMatchesEntry a origin then jsStringOrNull origin
  else allowList.headD ""

/-- `getCorsHeaders(origin)` builds the full header object. -/
def getCorsHeaders (allowList : List String) (origin : Option String) :
    List (String × String) :=
  [("Access-Control-Allow-Origin", resolveAllowOrigin allowList origin),
   ("Access-Control-Allow-Methods", "POST, OPTIONS"),
   ("Access-Control-Allow-Headers", "Content-Type, Authorization, X-Session-ID"),
   ("Access-Control-Max-Age", "86400"),
   ("Strict-Transport-Security", "max-age=31536000; includeSubDomains"),
   ("X-Content-Type-Options", "nosniff"),
   ("X-Frame-Options", "DENY"),
   ("X-XSS-Protection", "1; mode=block")]

/-! ### Numeric parameters forwarded to the outbound model call -/

def MAX_TOKENS : Nat := 1000

/-- `max_tokens: Math.min(maxTokens, MAX_TOKENS)` with
`const { maxTokens = 800 } = requestBody`. -/
def forwardedMaxTokens (bodyMaxTokens : Option ℚ) : ℚ :=
  min (bodyMaxTokens.getD 800) 1000

/-- `temperature: Math.max(0.1, Math.min(temperature, 1.0))` with
`const { temperature = 0.7 } = requestBody`. -/
def forwardedTemperature (bodyTemperature : Option ℚ) : ℚ :=
  max (1/10) (min (bodyTemperature.getD (7/10)) 1)

/-! ## Rate-limiter lemmas and claims -/

/-- Calls inside the current window: starting from a stored record
`{count := c, resetTime := r}` and calling at times that do not exceed
`r`, each call increments the count by one and leaves the reset time
unchanged, and the i-th call reports limited exactly when the new count
exceeds the maximum. -/
theorem runCalls_inWindow (k : String) :
    ∀ (ts : List Nat) (s : RateStore) (c r : Nat),
      s k = some ⟨c, r⟩ → (∀ u ∈ ts, u ≤ r) →
      (runCalls k ts s).1
          = (List.range ts.length).map (fun i => decide (RATE_LIMIT_MAX_REQUESTS < c + i + 1))
        ∧ (runCalls k ts s).2 k = some ⟨c + ts.length, r⟩
  | [], s, c, r => by
    intro hs _
    simpa [runCalls] using hs
  | t :: ts, s, c, r => by
    intro hs hts
    have ht : ¬ (r < t) := not_lt.mpr (hts t (by simp))
    have hcall : isRateLimited s k t
        = (decide (RATE_LIMIT_MAX_REQUESTS < c + 1),
           fun k' => if k' == k then some ⟨c + 1, r⟩ else s k') := by
      simp [isRateLimited, hs, ht]
    have hs' : (fun k' => if k' == k then some (⟨c + 1, r⟩ : ClientData) else s k') k
        = some ⟨c + 1, r⟩ := by simp
    have ih := runCalls_inWindow k ts
      (fun k' => if k' == k then some ⟨c + 1, r⟩ else s k') (c + 1) r hs'
      (fun u hu => hts u (by simp [hu]))
    refine ⟨?_, ?_⟩
    · simp only [runCalls, hcall, ih.1, List.length_cons]
      rw [List.range_succ_eq_map, List.map_cons, List.map_map]
      congr 1
      refine List.map_congr_left fun i _ => ?_
      simp only [Function.comp_apply]
      rw [decide_eq_decide]
      omega
    · simp only [runCalls, hcall, ih.2, List.length_cons]
      have harith : c + 1 + ts.length = c + (ts.length + 1) := by omega
      rw [harith]

/-- C1: for a fresh client key, the first 30 calls within one window are
not limited, the 31st is limited, and a call after the stored reset time
has passed is again not limited. -/
theorem C1_rate_limiter_window (s : RateStore) (k : String) (t t' : Nat) (ts : List Nat)
    (hs : s k = none)
    (hts : ∀ u ∈ ts, u ≤ t + RATE_LIMIT_WINDOW)
    (hlen : ts.length = 30)
    (ht' : t + RATE_LIMIT_WINDOW < t') :
    (runCalls k (t :: ts) s).1 = List.replicate 30 false ++ [true]
    ∧ (isRateLimited (runCalls k (t :: ts) s).2 k t').1 = false := by
  have hnt : ¬ (t + RATE_LIMIT_WINDOW < t) := by omega
  have hcall : isRateLimited s k t
      = (false, fun k' => if k' == k then some ⟨1, t + RATE_LIMIT_WINDOW⟩ else s k') := by
    simp [isRateLimited, hs, hnt, RATE_LIMIT_MAX_REQUESTS]
  have hs1 : (fun k' => if k' == k then some (⟨1, t + RATE_LIMIT_WINDOW⟩ : ClientData) else s k') k
      = some ⟨1, t + RATE_LIMIT_WINDOW⟩ := by simp
  have ih := runCalls_inWindow k ts
    (fun k' => if k' == k then some ⟨1, t + RATE_LIMIT_WINDOW⟩ else s k') 1
    (t + RATE_LIMIT_WINDOW) hs1 hts
  constructor
  · simp only [runCalls, hcall, ih.1, hlen]
    decide
  · have hstore : (runCalls k (t :: ts) s).2 k = some ⟨31, t + RATE_LIMIT_WINDOW⟩ := by
      simp only [runCalls, hcall]
      rw [ih.2, hlen]
    simp [isRateLimited, hstore, ht', RATE_LIMIT_MAX_REQUESTS]

theorem C1_rate_limiter_window_witness :
    ((fun _ => none : RateStore) "c" = none)
    ∧ (runCalls "c" (0 :: List.replicate 30 0) (fun _ => none)).1
        = List.replicate 30 false ++ [true]
    ∧ (isRateLimited (runCalls "c" (0 :: List.replicate 30 0) (fun _ => none)).2 "c" 60001).1
        = false := by
  have h := C1_rate_limiter_window (fun _ => none) "c" 0 60001 (List.replicate 30 0)
    rfl
    (fun u hu => by rw [List.eq_of_mem_replicate hu]; exact Nat.zero_le _)
    (by simp)
    (by norm_num [RATE_LIMIT_WINDOW])
  exact ⟨rfl, h.1, h.2⟩

/-- C9: every call records the request: the store afterwards holds the
key with count at least 1; a call inside the current window increments
the count by exactly one, keeps the reset time, and reports limited
exactly when the new count exceeds the maximum; hence a client whose
count already exceeds the maximum stays limited for the whole window. -/
theorem C9_call_records (s : RateStore) (k : String) (t : Nat) :
    (∃ d : ClientData, (isRateLimited s k t).2 k = some d ∧ 1 ≤ d.count)
    ∧ (∀ c r : Nat, s k = some ⟨c, r⟩ → t ≤ r →
        (isRateLimited s k t).2 k = some ⟨c + 1, r⟩
        ∧ (isRateLimited s k t).1 = decide (RATE_LIMIT_MAX_REQUESTS < c + 1))
    ∧ (∀ c r : Nat, s k = some ⟨c, r⟩ → RATE_LIMIT_MAX_REQUESTS < c → t ≤ r →
        (isRateLimited s k t).1 = true) := by
  refine ⟨?_, ?_, ?_⟩
  · by_cases hc : ((s k).getD ⟨0, t + RATE_LIMIT_WINDOW⟩).resetTime < t
    · exact ⟨⟨1, t + RATE_LIMIT_WINDOW⟩, by simp [isRateLimited, hc], by simp⟩
    · exact ⟨⟨((s k).getD ⟨0, t + RATE_LIMIT_WINDOW⟩).count + 1,
        ((s k).getD ⟨0, t + RATE_LIMIT_WINDOW⟩).resetTime⟩,
        by simp [isRateLimited, hc], by simp⟩
  · intro c r hs htr
    have hc : ¬ (r < t) := not_lt.mpr htr
    constructor
    · simp [isRateLimited, hs, hc]
    · simp [isRateLimited, hs, hc]
  · intro c r hs hcount htr
    have hc : ¬ (r < t) := not_lt.mpr htr
    simp only [isRateLimited, hs, Option.getD_some, hc, if_false, decide_eq_true_eq]
    omega

/-- Store used in the concrete instantiation of `C9_call_records`. -/
def store31 : RateStore :=
  fun k' => if k' == "c" then some ⟨31, 100⟩ else none

theorem C9_call_records_witness :
    (∃ d : ClientData, (isRateLimited store31 "c" 7).2 "c" = some d ∧ 1 ≤ d.count)
    ∧ (isRateLimited store31 "c" 7).2 "c" = some ⟨32, 100⟩
    ∧ (isRateLimited store31 "c" 7).1 = true := by
  have h := C9_call_records store31 "c" 7
  exact ⟨h.1, (h.2.1 31 100 rfl (by norm_num)).1,
    h.2.2 31 100 rfl (by norm_num [RATE_LIMIT_MAX_REQUESTS]) (by norm_num)⟩

/-! ## CORS claim C10 -/

/-- C10: with no caller `Origin` at all, the returned
`Access-Control-Allow-Origin` header is exactly the first configured
allow-list entry, which is neither empty nor absent. -/
theorem C10_absent_origin :
    (getCorsHeaders ALLOWED_ORIGINS none).lookup "Access-Control-Allow-Origin"
        = some "https://mentora-app.azurestaticapps.net"
    ∧ resolveAllowOrigin ALLOWED_ORIGINS none = ALLOWED_ORIGINS.headD ""
    ∧ resolveAllowOrigin ALLOWED_ORIGINS none ≠ "" := by
  refine ⟨?_, ?_, ?_⟩ <;> decide

/-! ## Numeric parameter claim C6 -/

/-- C6 as stated is false: a request body with `maxTokens = 0` is
forwarded as `max_tokens = 0`, outside the claimed interval `[1, 1000]`
(the code has no lower clamp). -/
theorem C6_counterexample :
    forwardedMaxTokens (some 0) = 0 ∧ ¬ (1 ≤ forwardedMaxTokens (some 0)) := by
  constructor
  · simp [forwardedMaxTokens]
  · simp [forwardedMaxTokens]

/-- C6 amended: the forwarded `max_tokens` is `min(maxTokens, 1000)` —
at most 1000, inside `[1, 1000]` whenever the requested value is at
least 1, and 800 by default — and the forwarded temperature always lies
in `[0.1, 1.0]`. -/
theorem C6_forwarded_params (mt tp : Option ℚ) :
    forwardedMaxTokens mt ≤ 1000
    ∧ (∀ q : ℚ, mt = some q → 1 ≤ q →
        1 ≤ forwardedMaxTokens mt ∧ forwardedMaxTokens mt ≤ 1000)
    ∧ forwardedMaxTokens none = 800
    ∧ 1/10 ≤ forwardedTemperature tp
    ∧ forwardedTemperature tp ≤ 1 := by
  refine ⟨min_le_right _ _, ?_, by norm_num [forwardedMaxTokens], le_max_left _ _, ?_⟩
  · intro q hq h1
    subst hq
    exact ⟨le_min (by simpa using h1) (by norm_num), min_le_right _ _⟩
  · exact max_le (by norm_num) (min_le_right _ _)

theorem C6_forwarded_params_witness :
    1 ≤ forwardedMaxTokens (some 500)
    ∧ forwardedMaxTokens (some 500) ≤ 1000
    ∧ forwardedTemperature (some 5) ≤ 1 := by
  have h := C6_forwarded_params (some 500) (some 5)
  exact ⟨(h.2.1 500 rfl (by norm_num)).1, h.1, h.2.2.2.2⟩

/-! ## CORS claim C3 -/

/-- Declarative semantics of a compiled pattern: `RSem ps l` holds when
`ps` matches some prefix of `l`. -/
def RSem : List RTok → List Char → Prop
  | [], _ => True
  | .lit c :: ps, l => ∃ l', l = c :: l' ∧ RSem ps l'
  | .anyChar :: ps, l => ∃ d l', l = d :: l' ∧ RSem ps l'
  | .anySeq :: ps, l => ∃ pre suf, l = pre ++ suf ∧ RSem ps suf

theorem matchHere_iff : ∀ (ps : List RTok) (l : List Char),
    matchHere ps l = true ↔ RSem ps l
  | [], l => by simp [matchHere, RSem]
  | .lit c :: ps, l => by
    cases l with
    | nil => simp [matchHere, RSem]
    | cons d ds =>
      simp only [matchHere, RSem, Bool.and_eq_true, beq_iff_eq]
      constructor
      · rintro ⟨rfl, h⟩
        exact ⟨ds, rfl, (matchHere_iff ps ds).mp h⟩
      · rintro ⟨l', heq, h⟩
        rw [List.cons.injEq] at heq
        obtain ⟨rfl, rfl⟩ := heq
        exact ⟨rfl, (matchHere_iff ps _).mpr h⟩
  | .anyChar :: ps, l => by
    cases l with
    | nil => simp [matchHere, RSem]
    | cons d ds =>
      simp only [matchHere, RSem]
      constructor
      · intro h
        exact ⟨d, ds, rfl, (matchHere_iff ps ds).mp h⟩
      · rintro ⟨e, l', heq, h⟩
        rw [List.cons.injEq] at heq
        obtain ⟨rfl, rfl⟩ := heq
        exact (matchHere_iff ps _).mpr h
  | .anySeq :: ps, l => by
    simp only [matchHere, RSem, List.any_eq_true]
    constructor
    · rintro ⟨suf, hmem, h⟩
      obtain ⟨pre, hpre⟩ := (List.mem_tails _ _).mp hmem
      exact ⟨pre, suf, hpre.symm, (matchHere_iff ps suf).mp h⟩
    · rintro ⟨pre, suf, rfl, h⟩
      exact ⟨suf, (List.mem_tails _ _).mpr ⟨pre, rfl⟩, (matchHere_iff ps suf).mpr h⟩

theorem regexTest_iff (ps : List RTok) (l : List Char) :
    regexTest ps l = true
      ↔ ∃ pre suf : List Char, l = pre ++ suf ∧ RSem ps suf := by
  simp only [regexTest, List.any_eq_true]
  constructor
  · rintro ⟨suf, hmem, h⟩
    obtain ⟨pre, hpre⟩ := (List.mem_tails _ _).mp hmem
    exact ⟨pre, suf, hpre.symm, (matchHere_iff ps suf).mp h⟩
  · rintro ⟨pre, suf, rfl, h⟩
    exact ⟨suf, (List.mem_tails _ _).mpr ⟨pre, rfl⟩, (matchHere_iff ps suf).mpr h⟩

/-- The allow-list of the claim's concrete example. -/
def exampleAllowList : List String := ["https://a.com", "https://*.b.net"]

/-- Split an entry at its first `*`, if any. -/
def splitAtStar : List Char → Option (List Char × List Char)
  | [] => none
  | '*' :: rest => some ([], rest)
  | c :: rest => (splitAtStar rest).map fun p => (c :: p.1, p.2)

/-- The matching relation in the words of the claim, stated independently
of the code: an origin matches an allow-list entry by exact string
equality, or — for a wildcard entry `pre*post` — when the whole origin is
`pre`, then an arbitrary (greedy) character sequence in place of `*`,
then `post`, both read literally. -/
def specOriginMatches (allowList : List String) (origin : String) : Bool :=
  allowList.any fun a =>
    match splitAtStar a.data with
    | some (pre, post) =>
        pre.isPrefixOf origin.data && post.isSuffixOf origin.data
          && decide (pre.length + post.length ≤ origin.data.length)
    | none => a == origin

/-- C3 as stated is false: the code builds the wildcard regex without
anchors (and with `.` left as a metacharacter), so
`"evil.https://x.b.net"` — which does not match any entry under the
claim's matching relation — is still echoed verbatim instead of falling
back to `"https://a.com"`. -/
theorem C3_counterexample :
    resolveAllowOrigin exampleAllowList (some "evil.https://x.b.net")
        = "evil.https://x.b.net"
    ∧ specOriginMatches exampleAllowList "evil.https://x.b.net" = false
    ∧ resolveAllowOrigin exampleAllowList (some "evil.https://x.b.net")
        ≠ "https://a.com" := by
  refine ⟨?_, ?_, ?_⟩ <;> decide

/-- C3 amended: the helper always returns either the caller's origin or
the first entry; it returns the origin verbatim exactly when the origin
equals the non-wildcard entry or the compiled wildcard pattern (with `*`
replaced by `.*` and `.` matching any character) matches somewhere inside
the origin — an unanchored containment test, not a whole-string wildcard
match; the claim's two concrete examples do hold. -/
theorem C3_cors_resolution (origin : String) :
    (resolveAllowOrigin exampleAllowList (some origin) = origin
       ∨ resolveAllowOrigin exampleAllowList (some origin) = "https://a.com")
    ∧ (resolveAllowOrigin exampleAllowList (some origin) = origin
        ↔ ("https://a.com" = origin
            ∨ ∃ pre suf : List Char, origin.data = pre ++ suf
                ∧ RSem (parsePattern (replaceFirstStar "https://*.b.net".data)) suf))
    ∧ resolveAllowOrigin exampleAllowList (some "https://x.b.net") = "https://x.b.net"
    ∧ resolveAllowOrigin exampleAllowList (some "https://evil.com") = "https://a.com" := by
  have h1 : hasStar "https://a.com" = false := by decide
  have h2 : hasStar "https://*.b.net" = true := by decide
  have hany : (exampleAllowList.any fun a => originMatchesEntry a (some origin))
      = (("https://a.com" : String) == origin
          || regexTest (parsePattern (replaceFirstStar "https://*.b.net".data)) origin.data) := by
    simp [exampleAllowList, originMatchesEntry, h1, h2, jsStringOrNull]
  refine ⟨?_, ?_, by decide, by decide⟩
  · rw [resolveAllowOrigin]
    split
    · exact Or.inl rfl
    · exact Or.inr rfl
  · rw [resolveAllowOrigin, hany]
    by_cases hb : (("https://a.com" : String) == origin
        || regexTest (parsePattern (replaceFirstStar "https://*.b.net".data)) origin.data) = true
    · rw [hb]
      refine iff_of_true (by simp [jsStringOrNull]) ?_
      rcases Bool.or_eq_true_iff.mp hb with h | h
      · exact Or.inl (by simpa using h)
      · obtain ⟨pre, suf, hsplit, hsem⟩ := (regexTest_iff _ _).mp h
        exact Or.inr ⟨pre, suf, hsplit, hsem⟩
    · rw [Bool.not_eq_true] at hb
      rw [hb]
      have hb' := Bool.or_eq_false_iff.mp hb
      refine iff_of_false ?_ ?_
      · intro heq
        simp only [Bool.false_eq_true, if_false, exampleAllowList, List.headD_cons] at heq
        have hcontr : (("https://a.com" : String) == origin) = true := by simp [heq]
        rw [hb'.1] at hcontr
        exact Bool.false_ne_true hcontr
      · rintro (h | ⟨pre, suf, hsplit, hsem⟩)
        · have hcontr : (("https://a.com" : String) == origin) = true := by simp [h]
          rw [hb'.1] at hcontr
          exact Bool.false_ne_true hcontr
        · have hcontr : regexTest (parsePattern (replaceFirstStar "https://*.b.net".data))
              origin.data = true :=
            (regexTest_iff _ _).mpr ⟨pre, suf, hsplit, hsem⟩
          rw [hb'.2] at hcontr
          exact Bool.false_ne_true hcontr

/-! ## Validation claims C2, C5, C8 -/

/-- Content check of the claim: the value is text of length at most the
configured maximum. -/
def contentTextOk : Option JVal → Bool
  | some (.jstr s) => decide (s.length ≤ MAX_MESSAGE_LENGTH)
  | _ => false

/-- The failure condition in the words of the claim, stated independently
of the code: input absent/not a sequence or empty; more than 10 elements;
an element lacking a role or content field; a role outside the enumerated
set; content that is not text or longer than 4000. -/
def specFailsClaim : RawInput → Bool
  | .notArray => true
  | .arr msgs =>
    msgs.isEmpty || decide (10 < msgs.length)
      || msgs.any fun m =>
        m.role.isNone || m.content.isNone
          || !includesRole m.role || !contentTextOk m.content

/-- C2 as stated is false: a present, textual, short content that is the
empty string trips the code's JS falsiness check (`!msg.content`) and
throws, although none of the claim's failure conditions holds. -/
theorem C2_counterexample :
    isErr (validateAndSanitizeInput (.arr [⟨some (.jstr "user"), some (.jstr "")⟩])) = true
    ∧ specFailsClaim (.arr [⟨some (.jstr "user"), some (.jstr "")⟩]) = false := by
  refine ⟨?_, ?_⟩ <;> decide

/-- The amended failure condition: a field also counts as missing when its
value is JS-falsy (empty string, `0`, `false`, `null`). -/
def specFailsAmended : RawInput → Bool
  | .notArray => true
  | .arr msgs =>
    msgs.isEmpty || decide (10 < msgs.length)
      || msgs.any fun m =>
        jsFalsy m.role || jsFalsy m.content
          || !includesRole m.role || !contentTextOk m.content

theorem validateMsg_isErr (m : RawMessage) :
    isErr (validateMsg m)
      = (jsFalsy m.role || jsFalsy m.content
          || !includesRole m.role || !contentTextOk m.content) := by
  obtain ⟨role, content⟩ := m
  unfold validateMsg
  split
  · next hcond =>
    simp only [isErr, hcond, Bool.true_or]
  · next hcond =>
    rw [Bool.not_eq_true] at hcond
    rw [hcond, Bool.false_or]
    split
    · next hrole =>
      simp only [isErr, hrole, Bool.true_or]
    · next hrole =>
      rw [Bool.not_eq_true] at hrole
      rw [hrole, Bool.false_or]
      rcases content with _ | v
      · simp [isErr, contentTextOk]
      · rcases v with s | n | b | _
        · simp only [contentTextOk]
          by_cases hlen : MAX_MESSAGE_LENGTH < s.length
          · rw [if_pos hlen]
            have hn : ¬ (s.length ≤ MAX_MESSAGE_LENGTH) := by omega
            simp [isErr, hn]
          · rw [if_neg hlen]
            have hy : s.length ≤ MAX_MESSAGE_LENGTH := by omega
            simp [isErr, hy]
        · simp [isErr, contentTextOk]
        · simp [isErr, contentTextOk]
        · simp [isErr, contentTextOk]

theorem isErr_mapExcept (msgs : List RawMessage) :
    isErr (mapExcept validateMsg msgs) = msgs.any fun m => isErr (validateMsg m) := by
  induction msgs with
  | nil => rfl
  | cons m ms ih =>
    simp only [mapExcept, List.any_cons]
    cases hm : validateMsg m with
    | error e => simp [isErr, hm]
    | ok x =>
      cases hms : mapExcept validateMsg ms with
      | error e =>
        show isErr (Except.error e : Except String (List Message))
            = (isErr (Except.ok x) || ms.any fun m => isErr (validateMsg m))
        rw [← ih, hms]
        rfl
      | ok xs =>
        show isErr (Except.ok (x :: xs))
            = (isErr (Except.ok x) || ms.any fun m => isErr (validateMsg m))
        rw [← ih, hms]
        rfl

/-- C2 amended: `validate` throws a ValidationError exactly when the input
is not an array or empty, has more than 10 elements, some element has a
missing or JS-falsy role or content, some role is outside
{system, user, assistant}, or some content is not text or longer than
4000. -/
theorem C2_validate_error_iff (input : RawInput) :
    isErr (validateAndSanitizeInput input) = specFailsAmended input := by
  cases input with
  | notArray => rfl
  | arr msgs =>
    simp only [validateAndSanitizeInput, specFailsAmended]
    by_cases h0 : msgs.length = 0
    · obtain rfl := List.length_eq_zero.mp h0
      rfl
    · have hne : (msgs.length == 0) = false := by simp [h0]
      have hempty : msgs.isEmpty = false := by
        cases msgs with
        | nil => exact absurd rfl h0
        | cons a as => rfl
      rw [hne]
      simp only [Bool.false_eq_true, if_false, hempty, Bool.false_or]
      by_cases h10 : 10 < msgs.length
      · simp [h10, isErr]
      · simp only [h10, if_false, decide_eq_true_eq, decide_eq_false h10, Bool.false_or]
        rw [isErr_mapExcept]
        have hfun : (fun m => isErr (validateMsg m))
            = fun m => (jsFalsy m.role || jsFalsy m.content
                || !includesRole m.role || !contentTextOk m.content) :=
          funext validateMsg_isErr
        rw [hfun]
        simp

/-- The string content of a raw field (used to state what `validate`
produces; validated messages always carry `some (.jstr c)`). -/
def contentStr : Option JVal → String
  | some (.jstr c) => c
  | _ => ""

theorem validateMsg_ok {m : RawMessage} {x : Message} (h : validateMsg m = .ok x) :
    includesRole m.role = true
    ∧ ∃ c : String, m.content = some (.jstr c) ∧ c.length ≤ MAX_MESSAGE_LENGTH
        ∧ x = ⟨roleStr m.role, sanitizeContent c⟩ := by
  unfold validateMsg at h
  split at h
  · exact absurd h (by simp)
  · split at h
    · exact absurd h (by simp)
    · next hrole =>
      have hrole' : includesRole m.role = true := by
        revert hrole
        cases includesRole m.role <;> simp
      refine ⟨hrole', ?_⟩
      split at h
      · next c heq =>
        split at h
        · exact absurd h (by simp)
        · next hlen =>
          simp only [Except.ok.injEq] at h
          exact ⟨c, heq, by omega, h.symm⟩
      · exact absurd h (by simp)

theorem mapExcept_ok : ∀ {msgs : List RawMessage} {out : List Message},
    mapExcept validateMsg msgs = .ok out →
    out = msgs.map fun m => ⟨roleStr m.role, sanitizeContent (contentStr m.content)⟩
  | [], out => by
    intro h
    simp only [mapExcept, Except.ok.injEq] at h
    simp [← h]
  | m :: ms, out => by
    intro h
    simp only [mapExcept] at h
    split at h
    · exact absurd h (by simp)
    · next x hm =>
      split at h
      · exact absurd h (by simp)
      · next xs hms =>
        simp only [Except.ok.injEq] at h
        obtain ⟨hrole, c, hc, _, hx⟩ := validateMsg_ok hm
        have ih := mapExcept_ok hms
        rw [← h, List.map_cons, ← ih, hx, hc]
        simp [contentStr]

/-- C5: on success `validate` returns one output message per input
message, in order, with the input's role string at every position; only
the content changes, to the sanitized content. -/
theorem C5_structure_preserved (msgs : List RawMessage) (out : List Message)
    (h : validateAndSanitizeInput (.arr msgs) = .ok out) :
    out = msgs.map (fun m => ⟨roleStr m.role, sanitizeContent (contentStr m.content)⟩)
    ∧ out.length = msgs.length
    ∧ out.map Message.role = msgs.map fun m => roleStr m.role := by
  simp only [validateAndSanitizeInput] at h
  split at h
  · exact absurd h (by simp)
  · split at h
    · exact absurd h (by simp)
    · obtain rfl := mapExcept_ok h
      refine ⟨rfl, by simp, ?_⟩
      rw [List.map_map]
      rfl

/-! ## Occurrence predicates and identity lemmas for the scanners -/

/-- The 11-character shape `\d{3}-\d{2}-\d{4}`. -/
def ssnShapeB : List Char → Bool
  | [d1, d2, d3, h1, d4, d5, h2, d6, d7, d8, d9] =>
    d1.isDigit && d2.isDigit && d3.isDigit && h1 == '-' && d4.isDigit && d5.isDigit
      && h2 == '-' && d6.isDigit && d7.isDigit && d8.isDigit && d9.isDigit
  | _ => false

theorem ssnTry_some_parts {l m r : List Char} (h : ssnTry l = some (m, r)) :
    l = m ++ r ∧ ssnShapeB m = true ∧ afterBoundary r = true := by
  unfold ssnTry at h
  split at h
  · split at h
    · next hcond =>
      simp only [Option.some.injEq, Prod.mk.injEq] at h
      obtain ⟨rfl, rfl⟩ := h
      simp only [Bool.and_eq_true] at hcond
      refine ⟨by simp, ?_, hcond.2⟩
      simp only [ssnShapeB, Bool.and_eq_true]
      exact hcond.1
    · exact absurd h (by simp)
  · exact absurd h (by simp)

theorem ssnTry_of_shape {m r : List Char} (hm : ssnShapeB m = true)
    (hr : afterBoundary r = true) : ssnTry (m ++ r) = some (m, r) := by
  unfold ssnShapeB at hm
  split at hm
  · next d1 d2 d3 h1 d4 d5 h2 d6 d7 d8 d9 =>
    simp only [List.cons_append, List.nil_append, ssnTry, hm, hr, Bool.and_true,
      Bool.and_self, if_true]
  · exact absurd hm (by simp)

/-- Is there a position where the SSN pattern matches (with its word
boundaries), given the boundary context `b` for the head position? -/
def hasSSNOcc (b : Bool) : List Char → Bool
  | [] => false
  | c :: cs => (!b && (ssnTry (c :: cs)).isSome) || hasSSNOcc (isWordChar c) cs

theorem ssnAux_of_no_occ (b : Bool) (l : List Char) (h : hasSSNOcc b l = false) :
    ssnAux b l = l := by
  induction l generalizing b with
  | nil => simp [ssnAux]
  | cons c cs ih =>
    rw [hasSSNOcc, Bool.or_eq_false_iff, Bool.and_eq_false_iff] at h
    rw [ssnAux]
    split
    · rw [ih _ h.2]
    · next hb =>
      rw [Bool.not_eq_true] at hb
      rcases h.1 with hb' | hsome
      · rw [hb] at hb'
        exact absurd hb' (by simp)
      · split
        · next m r heq =>
          rw [heq] at hsome
          exact absurd hsome (by simp)
        · rw [ih _ h.2]

/-- Is there a position where `\b\d{10,16}\b` matches, given the boundary
context `b` for the head position? -/
def hasIDOcc (b : Bool) : List Char → Bool
  | [] => false
  | c :: cs =>
    (!b && c.isDigit
      && (10 ≤ ((c :: cs).takeWhile Char.isDigit).length
          && ((c :: cs).takeWhile Char.isDigit).length ≤ 16
          && afterBoundary ((c :: cs).dropWhile Char.isDigit)))
    || hasIDOcc (isWordChar c) cs

theorem hasIDOcc_dropWhile_digits :
    ∀ cs : List Char, hasIDOcc true cs = false →
      hasIDOcc true (cs.dropWhile Char.isDigit) = false
  | [] => fun h => h
  | c :: cs => by
    intro h
    rw [List.dropWhile_cons]
    rw [hasIDOcc, Bool.or_eq_false_iff] at h
    split
    · next hc =>
      apply hasIDOcc_dropWhile_digits cs
      have hw : isWordChar c = true := by simp [isWordChar, hc]
      rw [← hw]
      exact h.2
    · rw [hasIDOcc, Bool.or_eq_false_iff]
      exact h

theorem idAux_of_no_occ (b : Bool) (l : List Char) (h : hasIDOcc b l = false) :
    idAux b l = l := by
  have main : ∀ (n : Nat) (l : List Char) (b : Bool), l.length ≤ n →
      hasIDOcc b l = false → idAux b l = l := by
    intro n
    induction n with
    | zero =>
      intro l b hl _
      rw [Nat.le_zero, List.length_eq_zero] at hl
      subst hl
      simp [idAux]
    | succ n ihn =>
      intro l b hl h
      cases l with
      | nil => simp [idAux]
      | cons c cs =>
        rw [hasIDOcc, Bool.or_eq_false_iff] at h
        rw [idAux]
        split
        · next hcond =>
          rw [ihn cs (isWordChar c) (by simp only [List.length_cons] at hl; omega) h.2]
        · next hcond =>
          have hb : b = false := by
            revert hcond
            cases b <;> simp
          have hc : c.isDigit = true := by
            revert hcond
            cases hcd : c.isDigit <;> simp [hcd]
          have hinner :
              (10 ≤ ((c :: cs).takeWhile Char.isDigit).length
                && ((c :: cs).takeWhile Char.isDigit).length ≤ 16
                && afterBoundary ((c :: cs).dropWhile Char.isDigit)) = false := by
            rcases Bool.and_eq_false_iff.mp h.1 with h' | h'
            · rcases Bool.and_eq_false_iff.mp h' with h'' | h''
              · rw [hb] at h''
                exact absurd h'' (by simp)
              · rw [hc] at h''
                exact absurd h'' (by simp)
            · exact h'
          rw [hinner]
          simp only [Bool.false_eq_true, if_false]
          have hw : isWordChar c = true := by simp [isWordChar, hc]
          have hdrop : hasIDOcc true (cs.dropWhile Char.isDigit) = false := by
            apply hasIDOcc_dropWhile_digits
            rw [← hw]
            exact h.2
          have hlen : (cs.dropWhile Char.isDigit).length ≤ n := by
            have h1 := length_dropWhile_le Char.isDigit cs
            have h2 : cs.length ≤ n := by
              simp only [List.length_cons] at hl
              omega
            omega
          have hrest : (c :: cs).dropWhile Char.isDigit = cs.dropWhile Char.isDigit := by
            rw [List.dropWhile_cons_of_pos hc]
          rw [hrest, ihn (cs.dropWhile Char.isDigit) true hlen hdrop]
          have htake : (c :: cs).takeWhile Char.isDigit = c :: cs.takeWhile Char.isDigit := by
            rw [List.takeWhile_cons_of_pos hc]
          rw [htake, List.cons_append]
          congr 1
          exact List.takeWhile_append_dropWhile _ _
  exact main l.length l b (Nat.le_refl _) h

/-- Is there a position where the email pattern matches, given the
boundary context `b` for the head position? -/
def hasEmailOcc (b : Bool) : List Char → Bool
  | [] => false
  | c :: cs => (emailTry b (c :: cs)).isSome || hasEmailOcc (isWordChar c) cs

theorem emailAux_of_no_occ (b : Bool) (l : List Char) (h : hasEmailOcc b l = false) :
    emailAux b l = l := by
  induction l generalizing b with
  | nil => simp [emailAux]
  | cons c cs ih =>
    rw [hasEmailOcc, Bool.or_eq_false_iff] at h
    rw [emailAux]
    split
    · next m rest heq =>
      rw [heq] at h
      exact absurd h.1 (by simp)
    · rw [ih _ h.2]

/-- A sanitization no-op: when none of the three patterns matches anywhere
and the string has no leading or trailing whitespace, `sanitizeContent`
returns its input unchanged. -/
theorem sanitizeContent_id (s : String)
    (h1 : hasSSNOcc false s.data = false)
    (h2 : hasIDOcc false s.data = false)
    (h3 : hasEmailOcc false s.data = false)
    (h4 : trimChars s.data = s.data) : sanitizeContent s = s := by
  unfold sanitizeContent
  rw [ssnAux_of_no_occ _ _ h1, idAux_of_no_occ _ _ h2, emailAux_of_no_occ _ _ h3, h4]

/-! ## Witnesses for C5 and claim C8 -/

theorem C5_structure_preserved_witness :
    validateAndSanitizeInput (.arr [⟨some (.jstr "user"), some (.jstr "hello")⟩])
        = .ok [⟨"user", "hello"⟩]
    ∧ [(⟨"user", "hello"⟩ : Message)].map Message.role
        = [(⟨some (.jstr "user"), some (.jstr "hello")⟩ : RawMessage)].map
            fun m => roleStr m.role := by
  have hs : sanitizeContent "hello" = "hello" :=
    sanitizeContent_id _ (by decide) (by decide) (by decide) (by decide)
  have hok : validateAndSanitizeInput (.arr [⟨some (.jstr "user"), some (.jstr "hello")⟩])
      = .ok [⟨"user", sanitizeContent "hello"⟩] := rfl
  rw [hs] at hok
  exact ⟨hok, (C5_structure_preserved _ _ hok).2.2⟩

/-- C8 as stated is false: validated content `" "` is truthy and short, so
it is accepted, but sanitization trims it to the empty string — the
returned Message violates the non-empty-after-trimming invariant. -/
theorem C8_counterexample :
    validateAndSanitizeInput (.arr [⟨some (.jstr "user"), some (.jstr " ")⟩])
        = .ok [⟨"user", ""⟩]
    ∧ ("" : String).data = [] := by
  have h1 : ssnAux false " ".data = " ".data := ssnAux_of_no_occ _ _ (by decide)
  have h2 : idAux false " ".data = " ".data := idAux_of_no_occ _ _ (by decide)
  have h3 : emailAux false " ".data = " ".data := emailAux_of_no_occ _ _ (by decide)
  have hs : sanitizeContent " " = "" := by
    unfold sanitizeContent
    rw [h1, h2, h3]
    rfl
  have hok : validateAndSanitizeInput (.arr [⟨some (.jstr "user"), some (.jstr " ")⟩])
      = .ok [⟨"user", sanitizeContent " "⟩] := rfl
  rw [hs] at hok
  exact ⟨hok, rfl⟩

/-- Helper for C8: a validated role is one of the three enumerated
strings. -/
theorem includesRole_cases {v : Option JVal} (h : includesRole v = true) :
    roleStr v = "user" ∨ roleStr v = "assistant" ∨ roleStr v = "system" := by
  unfold includesRole at h
  split at h
  · next r =>
    simp only [Bool.or_eq_true, beq_iff_eq] at h
    simp only [roleStr]
    exact or_assoc.mp h
  · exact absurd h (by simp)

theorem mapExcept_mem : ∀ {msgs : List RawMessage} {out : List Message},
    mapExcept validateMsg msgs = .ok out →
    ∀ x ∈ out, ∃ m ∈ msgs, validateMsg m = .ok x
  | [], out => by
    intro h x hx
    simp only [mapExcept, Except.ok.injEq] at h
    rw [← h] at hx
    exact absurd hx (by simp)
  | m :: ms, out => by
    intro h x hx
    simp only [mapExcept] at h
    split at h
    · exact absurd h (by simp)
    · next y hm =>
      split at h
      · exact absurd h (by simp)
      · next ys hms =>
        simp only [Except.ok.injEq] at h
        rw [← h] at hx
        rcases List.mem_cons.mp hx with rfl | hx'
        · exact ⟨m, by simp, hm⟩
        · obtain ⟨m', hm', hvm⟩ := mapExcept_mem hms x hx'
          exact ⟨m', by simp [hm'], hvm⟩

/-- C8 amended: every Message returned by `validate` has a role among the
three enumerated values and derives from an input message whose content
was text of length at most 4000, its own content being that text
sanitized; content may be empty after trimming (and redaction-token
expansion may push it past 4000 units), so the rest of the stated
invariant does not hold. -/
theorem C8_roles_valid (msgs : List RawMessage) (out : List Message) (x : Message)
    (h : validateAndSanitizeInput (.arr msgs) = .ok out) (hx : x ∈ out) :
    (x.role = "user" ∨ x.role = "assistant" ∨ x.role = "system")
    ∧ ∃ m ∈ msgs, ∃ c : String, m.content = some (.jstr c)
        ∧ c.length ≤ MAX_MESSAGE_LENGTH
        ∧ x = ⟨roleStr m.role, sanitizeContent c⟩ := by
  simp only [validateAndSanitizeInput] at h
  split at h
  · exact absurd h (by simp)
  · split at h
    · exact absurd h (by simp)
    · obtain ⟨m, hmem, hvm⟩ := mapExcept_mem h x hx
      obtain ⟨hrole, c, hc, hlen, hx'⟩ := validateMsg_ok hvm
      refine ⟨?_, m, hmem, c, hc, hlen, hx'⟩
      rw [hx']
      exact includesRole_cases hrole

theorem C8_roles_valid_witness :
    validateAndSanitizeInput (.arr [⟨some (.jstr "system"), some (.jstr "ok")⟩])
        = .ok [⟨"system", "ok"⟩]
    ∧ (("system" : String) = "user" ∨ ("system" : String) = "assistant"
        ∨ ("system" : String) = "system") := by
  have hs : sanitizeContent "ok" = "ok" :=
    sanitizeContent_id _ (by decide) (by decide) (by decide) (by decide)
  have hok : validateAndSanitizeInput (.arr [⟨some (.jstr "system"), some (.jstr "ok")⟩])
      = .ok [⟨"system", sanitizeContent "ok"⟩] := rfl
  rw [hs] at hok
  exact ⟨hok, (C8_roles_valid _ _ ⟨"system", "ok"⟩ hok (by simp)).1⟩

/-! ## Claim C4: SSN redaction -/

/-- `t` occurs as a contiguous segment of `s`. -/
def hasSeg (t s : List Char) : Prop :=
  ∃ a b : List Char, s = a ++ t ++ b

/-- Boolean version of `hasSeg`. -/
def hasSegB (t s : List Char) : Bool :=
  s.tails.any fun suf => t.isPrefixOf suf

theorem isPrefixOf_iff_exists : ∀ t suf : List Char,
    t.isPrefixOf suf = true ↔ ∃ b, suf = t ++ b
  | [], suf => by simp [List.isPrefixOf]
  | c :: t, [] => by simp [List.isPrefixOf]
  | c :: t, d :: suf => by
    simp only [List.isPrefixOf, Bool.and_eq_true, beq_iff_eq,
      isPrefixOf_iff_exists t suf, List.cons_append, List.cons.injEq]
    constructor
    · rintro ⟨rfl, b, rfl⟩
      exact ⟨b, rfl, rfl⟩
    · rintro ⟨b, rfl, rfl⟩
      exact ⟨rfl, b, rfl⟩

theorem hasSegB_iff (t s : List Char) : hasSegB t s = true ↔ hasSeg t s := by
  simp only [hasSegB, List.any_eq_true]
  constructor
  · rintro ⟨suf, hmem, hpre⟩
    obtain ⟨a, ha⟩ := (List.mem_tails _ _).mp hmem
    obtain ⟨b, rfl⟩ := (isPrefixOf_iff_exists _ _).mp hpre
    exact ⟨a, b, by rw [← ha, List.append_assoc]⟩
  · rintro ⟨a, b, rfl⟩
    refine ⟨t ++ b, (List.mem_tails _ _).mpr ⟨a, by rw [List.append_assoc]⟩, ?_⟩
    exact (isPrefixOf_iff_exists _ _).mpr ⟨b, rfl⟩

theorem hasSeg_cons {t s : List Char} (c : Char) (h : hasSeg t s) : hasSeg t (c :: s) := by
  obtain ⟨a, b, rfl⟩ := h
  exact ⟨c :: a, b, rfl⟩

theorem hasSeg_appendL {t s : List Char} (u : List Char) (h : hasSeg t s) :
    hasSeg t (u ++ s) := by
  obtain ⟨a, b, rfl⟩ := h
  exact ⟨u ++ a, b, by simp [List.append_assoc]⟩

theorem hasSeg_here (t u : List Char) : hasSeg t (t ++ u) := ⟨[], u, rfl⟩

theorem hasSeg_reverse {t s : List Char} (h : hasSeg t s) :
    hasSeg t.reverse s.reverse := by
  obtain ⟨a, b, rfl⟩ := h
  exact ⟨b.reverse, a.reverse, by simp⟩

theorem hasSeg_nonempty {t : List Char} (hne : t ≠ []) (h : hasSeg t []) : False := by
  obtain ⟨a, b, hab⟩ := h
  have := congrArg List.length hab
  simp only [List.length_nil, List.length_append] at this
  cases t with
  | nil => exact hne rfl
  | cons x xs =>
    simp only [List.length_cons] at this
    omega

/-- The boundary context at the end of `pre`, given context `b` at its
start: the last character of `pre` decides, or `b` if `pre` is empty. -/
def lastW (b : Bool) (pre : List Char) : Bool :=
  match pre.getLast? with
  | some d => isWordChar d
  | none => b

theorem lastW_cons (b : Bool) (c : Char) (pre : List Char) :
    lastW b (c :: pre) = lastW (isWordChar c) pre := by
  cases pre with
  | nil => rfl
  | cons d pre' =>
    unfold lastW
    rw [List.getLast?_cons_cons]
    cases hgl : (d :: pre').getLast? with
    | none =>
      obtain ⟨e, he⟩ := List.getLast?_isSome.mpr (List.cons_ne_nil d pre') |> Option.isSome_iff_exists.mp
      rw [he] at hgl
      exact absurd hgl (by simp)
    | some e => rfl

/-! Step equations for `ssnAux` (its well-founded equations, stated so
that rewriting does not have to look inside the dependent match). -/

theorem ssnAux_cons_word (c : Char) (cs : List Char) :
    ssnAux true (c :: cs) = c :: ssnAux (isWordChar c) cs := by
  rw [ssnAux]
  simp

theorem ssnAux_cons_none {c : Char} {cs : List Char}
    (h : ssnTry (c :: cs) = none) (b : Bool) :
    ssnAux b (c :: cs) = c :: ssnAux (isWordChar c) cs := by
  rw [ssnAux]
  split
  · rfl
  · split
    · next m r heq => rw [h] at heq; exact absurd heq (by simp)
    · rfl

theorem ssnAux_cons_fire {c : Char} {cs m r : List Char}
    (h : ssnTry (c :: cs) = some (m, r)) :
    ssnAux false (c :: cs) = SSN_TOKEN ++ ssnAux true r := by
  rw [ssnAux]
  split
  · simp_all
  · split
    · next m' r' heq =>
      rw [h] at heq
      simp only [Option.some.injEq, Prod.mk.injEq] at heq
      rw [heq.2]
    · next heq => rw [h] at heq; exact absurd heq (by simp)

/-- The positive half of C4: if the SSN shape occurs with word boundaries
on both sides, the SSN scanner emits the redaction token somewhere. -/
theorem ssnAux_hits : ∀ (pre : List Char) (b : Bool) (l mid suf : List Char),
    l = pre ++ mid ++ suf →
    ssnShapeB mid = true →
    lastW b pre = false →
    afterBoundary suf = true →
    hasSeg SSN_TOKEN (ssnAux b l)
  | [], b, l, mid, suf => by
    intro hsplit hshape hleft hright
    have hb : b = false := hleft
    subst hb
    subst hsplit
    have hfire := ssnTry_of_shape hshape hright
    obtain ⟨d1, rest, rfl⟩ : ∃ d1 rest, mid = d1 :: rest := by
      unfold ssnShapeB at hshape
      split at hshape
      · next => exact ⟨_, _, rfl⟩
      · exact absurd hshape (by simp)
    rw [List.nil_append, List.cons_append] at *
    rw [ssnAux_cons_fire hfire]
    exact hasSeg_here _ _
  | p :: ps, b, l, mid, suf => by
    intro hsplit hshape hleft hright
    subst hsplit
    rw [List.cons_append, List.cons_append]
    have hleft' : lastW (isWordChar p) ps = false := by
      rw [← lastW_cons b]
      exact hleft
    have ih := ssnAux_hits ps (isWordChar p) (ps ++ mid ++ suf) mid suf rfl
      hshape hleft' hright
    cases b with
    | true =>
      rw [ssnAux_cons_word]
      exact hasSeg_cons _ ih
    | false =>
      cases hfire : ssnTry (p :: (ps ++ mid ++ suf)) with
      | none =>
        rw [ssnAux_cons_none hfire]
        exact hasSeg_cons _ ih
      | some mr =>
        obtain ⟨m, r⟩ := mr
        rw [ssnAux_cons_fire hfire]
        exact ⟨[], ssnAux true r, rfl⟩

/-! ### The later rules and trimming preserve the emitted token -/

theorem idAux_cons_skip {b : Bool} {c : Char} (cs : List Char)
    (h : b = true ∨ c.isDigit = false) :
    idAux b (c :: cs) = c :: idAux (isWordChar c) cs := by
  have hcond : (b || !c.isDigit) = true := by
    rcases h with rfl | h'
    · simp
    · simp [h']
  rw [idAux, dif_pos hcond]

theorem idAux_cons_digit {c : Char} (cs : List Char) (hc : c.isDigit = true) :
    ∃ X, idAux false (c :: cs) = X ++ idAux true ((c :: cs).dropWhile Char.isDigit) := by
  have hcond : ¬ ((false || !c.isDigit) = true) := by simp [hc]
  rw [idAux, dif_neg hcond]
  split
  · exact ⟨ID_TOKEN, rfl⟩
  · exact ⟨(c :: cs).takeWhile Char.isDigit, rfl⟩

theorem idAux_nodigit_append : ∀ (t : List Char), (∀ c ∈ t, c.isDigit = false) →
    ∀ (v : List Char) (b : Bool), idAux b (t ++ v) = t ++ idAux (lastW b t) v
  | [] => by
    intro _ v b
    simp [lastW]
  | c :: t' => by
    intro hnd v b
    rw [List.cons_append, idAux_cons_skip _ (Or.inr (hnd c (by simp)))]
    rw [idAux_nodigit_append t' (fun x hx => hnd x (by simp [hx])) v (isWordChar c)]
    rw [lastW_cons]
    rfl

theorem dropWhile_hasSeg (p : Char → Bool) (th : Char) (tt : List Char)
    (hth : p th = false) :
    ∀ (a b' : List Char), hasSeg (th :: tt) ((a ++ (th :: tt) ++ b').dropWhile p)
  | [], b' => by
    rw [List.nil_append, List.cons_append, List.dropWhile_cons_of_neg (by simp [hth])]
    exact ⟨[], b', by simp⟩
  | c :: a', b' => by
    simp only [List.cons_append]
    rw [List.dropWhile_cons]
    split
    · exact dropWhile_hasSeg p th tt hth a' b'
    · exact ⟨c :: a', b', by simp⟩

theorem idAux_keeps (t : List Char) (th : Char) (tt : List Char) (hteq : t = th :: tt)
    (hnd : ∀ c ∈ t, c.isDigit = false) :
    ∀ (n : Nat) (s : List Char) (b : Bool), s.length ≤ n →
      hasSeg t s → hasSeg t (idAux b s) := by
  intro n
  induction n with
  | zero =>
    intro s b hl hseg
    rw [Nat.le_zero, List.length_eq_zero] at hl
    subst hl
    exact (hasSeg_nonempty (by simp [hteq]) hseg).elim
  | succ n ihn =>
    intro s b hl hseg
    cases s with
    | nil => exact (hasSeg_nonempty (by simp [hteq]) hseg).elim
    | cons c cs =>
      obtain ⟨a, b', heq⟩ := hseg
      cases a with
      | nil =>
        rw [List.nil_append] at heq
        rw [heq, idAux_nodigit_append t hnd b' b]
        exact hasSeg_here _ _
      | cons c0 a' =>
        simp only [List.cons_append, List.cons.injEq] at heq
        obtain ⟨rfl, hcs⟩ := heq
        by_cases hdig : c.isDigit = true ∧ b = false
        · obtain ⟨X, hX⟩ := idAux_cons_digit cs hdig.1
          rw [hdig.2, hX]
          have hrest : hasSeg t ((c :: cs).dropWhile Char.isDigit) := by
            subst hteq
            have hre : c :: cs = (c :: a') ++ (th :: tt) ++ b' := by
              simp [hcs, List.append_assoc]
            rw [hre]
            exact dropWhile_hasSeg Char.isDigit th tt (hnd th (by simp)) (c :: a') b'
          have hlen : ((c :: cs).dropWhile Char.isDigit).length ≤ n := by
            rw [List.dropWhile_cons_of_pos hdig.1]
            have := length_dropWhile_le Char.isDigit cs
            simp only [List.length_cons] at hl
            omega
          exact hasSeg_appendL _ (ihn _ true hlen hrest)
        · have hskip : b = true ∨ c.isDigit = false := by
            rcases Bool.eq_false_or_eq_true b with hb | hb
            · exact Or.inl hb
            · rcases Bool.eq_false_or_eq_true c.isDigit with hc | hc
              · exact absurd ⟨hc, hb⟩ hdig
              · exact Or.inr hc
          rw [idAux_cons_skip _ hskip]
          have hlen : cs.length ≤ n := by
            simp only [List.length_cons] at hl
            omega
          exact hasSeg_cons _ (ihn cs (isWordChar c) hlen ⟨a', b', hcs⟩)

/-! Email-scanner step equations and protection of bracketed tokens. -/

theorem emailAux_cons_none {b : Bool} {c : Char} {cs : List Char}
    (h : emailTry b (c :: cs) = none) :
    emailAux b (c :: cs) = c :: emailAux (isWordChar c) cs := by
  rw [emailAux]
  split
  · next m r heq => rw [h] at heq; exact absurd heq (by simp)
  · rfl

theorem emailAux_cons_some {b : Bool} {c : Char} {cs m r : List Char}
    (h : emailTry b (c :: cs) = some (m, r)) :
    ∃ w, emailAux b (c :: cs) = EMAIL_TOKEN ++ emailAux w r := by
  rw [emailAux]
  split
  · next m' r' heq =>
    rw [h] at heq
    simp only [Option.some.injEq, Prod.mk.injEq] at heq
    obtain ⟨rfl, rfl⟩ := heq
    exact ⟨_, rfl⟩
  · next heq => rw [h] at heq; exact absurd heq (by simp)

theorem emailTry_none_notL {c : Char} (cs : List Char) (b : Bool)
    (hc : isLChar c = false) : emailTry b (c :: cs) = none := by
  simp only [emailTry]
  by_cases hb : (b == isWordChar c) = true
  · rw [if_pos hb]
  · rw [if_neg hb, List.takeWhile_cons_of_neg (by simp [hc])]
    rfl

theorem takeWhile_stop (p : Char → Bool) (d : Char) (hd : p d = false) :
    ∀ (y z : List Char), (∀ c ∈ y, p c = true) →
      (y ++ d :: z).takeWhile p = y ∧ (y ++ d :: z).dropWhile p = d :: z
  | [], z => by
    intro _
    constructor
    · rw [List.nil_append, List.takeWhile_cons_of_neg (by simp [hd])]
    · rw [List.nil_append, List.dropWhile_cons_of_neg (by simp [hd])]
  | c :: y', z => by
    intro hall
    have hc := hall c (by simp)
    obtain ⟨h1, h2⟩ := takeWhile_stop p d hd y' z (fun x hx => hall x (by simp [hx]))
    constructor
    · rw [List.cons_append, List.takeWhile_cons_of_pos hc, h1]
    · rw [List.cons_append, List.dropWhile_cons_of_pos hc, h2]

theorem emailTry_none_blocked (b : Bool) (h0 : Char) (y1 w : List Char)
    (hall : ∀ c ∈ h0 :: y1, isLChar c = true) :
    emailTry b (h0 :: (y1 ++ ']' :: w)) = none := by
  simp only [emailTry]
  by_cases hb : (b == isWordChar h0) = true
  · rw [if_pos hb]
  · rw [if_neg hb]
    obtain ⟨ht, hd⟩ := takeWhile_stop isLChar ']' (by decide) (h0 :: y1) w hall
    simp only [List.cons_append] at ht hd
    rw [ht, hd]
    rfl

theorem emailAux_token_append (mid : List Char) (hall : ∀ c ∈ mid, isLChar c = true)
    (v : List Char) (b : Bool) :
    emailAux b (('[' :: (mid ++ [']'])) ++ v)
      = ('[' :: (mid ++ [']'])) ++ emailAux false v := by
  have hwb : isWordChar ']' = false := by decide
  have inner : ∀ (y : List Char), (∀ c ∈ y, isLChar c = true) → ∀ (b' : Bool),
      emailAux b' (y ++ ']' :: v) = y ++ ']' :: emailAux false v := by
    intro y
    induction y with
    | nil =>
      intro _ b'
      rw [List.nil_append, emailAux_cons_none (emailTry_none_notL _ _ (by decide)), hwb]
      rfl
    | cons c y' ih =>
      intro hall' b'
      rw [List.cons_append, emailAux_cons_none (emailTry_none_blocked b' c y' v hall')]
      rw [ih (fun x hx => hall' x (by simp [hx])) (isWordChar c)]
      simp
  have hshape : ('[' :: (mid ++ [']'])) ++ v = '[' :: (mid ++ ']' :: v) := by
    simp
  rw [hshape, emailAux_cons_none (emailTry_none_notL _ _ (by decide : isLChar '[' = false))]
  rw [inner mid hall (isWordChar '[')]
  simp

theorem mem_take_sub : ∀ {j : Nat} {l : List Char} {c : Char}, c ∈ l.take j → c ∈ l
  | 0, l, c => by simp
  | j + 1, [], c => by simp
  | j + 1, x :: xs, c => by
    simp only [List.take_succ_cons, List.mem_cons]
    rintro (rfl | h)
    · exact Or.inl rfl
    · exact Or.inr (mem_take_sub h)

theorem emailTry_mem {b : Bool} {l m r : List Char} (h : emailTry b l = some (m, r)) :
    ∀ c ∈ m, isLChar c = true ∨ c = '@' ∨ isDChar c = true ∨ c = '.' ∨ isTChar c = true := by
  unfold emailTry at h
  split at h
  · exact absurd h (by simp)
  · split at h
    · exact absurd h (by simp)
    · split at h
      · exact absurd h (by simp)
      · split at h
        · next rest2 heq =>
          split at h
          · next j n hdom =>
            simp only [Option.some.injEq, Prod.mk.injEq] at h
            obtain ⟨rfl, rfl⟩ := h.symm
            intro x hx
            rcases List.mem_append.mp hx with hx | hx
            · exact Or.inl (List.mem_takeWhile_imp hx)
            · rcases List.mem_cons.mp hx with rfl | hx
              · exact Or.inr (Or.inl rfl)
              · rcases List.mem_append.mp hx with hx | hx
                · exact Or.inr (Or.inr (Or.inl
                    (List.mem_takeWhile_imp (mem_take_sub hx))))
                · rcases List.mem_cons.mp hx with rfl | hx
                  · exact Or.inr (Or.inr (Or.inr (Or.inl rfl)))
                  · exact Or.inr (Or.inr (Or.inr (Or.inr
                      (List.mem_takeWhile_imp (mem_take_sub hx)))))
          · exact absurd h (by simp)
        · exact absurd h (by simp)

theorem emailTry_no_bracket {b : Bool} {l m r : List Char}
    (h : emailTry b l = some (m, r)) : '[' ∉ m := by
  intro hm
  rcases emailTry_mem h '[' hm with h' | h' | h' | h' | h'
  · exact absurd h' (by decide)
  · exact absurd h' (by decide)
  · exact absurd h' (by decide)
  · exact absurd h' (by decide)
  · exact absurd h' (by decide)

theorem seg_shift : ∀ (m a r tail : List Char),
    m ++ r = a ++ '[' :: tail → '[' ∉ m →
    ∃ a', r = a' ++ '[' :: tail ∧ a = m ++ a'
  | [], a, r, tail => by
    intro h _
    exact ⟨a, by simpa using h, by simp⟩
  | x :: m', a, r, tail => by
    intro h hnb
    cases a with
    | nil =>
      simp only [List.nil_append, List.cons_append, List.cons.injEq] at h
      obtain ⟨rfl, -⟩ := h
      exact absurd (List.mem_cons_self _ _) hnb
    | cons y a' =>
      simp only [List.cons_append, List.cons.injEq] at h
      obtain ⟨rfl, h2⟩ := h
      obtain ⟨a'', h3, h4⟩ := seg_shift m' a' r tail h2
        (fun hm => hnb (List.mem_cons_of_mem _ hm))
      exact ⟨a'', h3, by rw [List.cons_append, h4]⟩

theorem emailAux_keeps (mid : List Char) (hall : ∀ c ∈ mid, isLChar c = true) :
    ∀ (n : Nat) (s : List Char) (b : Bool), s.length ≤ n →
      hasSeg ('[' :: (mid ++ [']'])) s →
      hasSeg ('[' :: (mid ++ [']'])) (emailAux b s) := by
  intro n
  induction n with
  | zero =>
    intro s b hl hseg
    rw [Nat.le_zero, List.length_eq_zero] at hl
    subst hl
    exact (hasSeg_nonempty (by simp) hseg).elim
  | succ n ihn =>
    intro s b hl hseg
    cases s with
    | nil => exact (hasSeg_nonempty (by simp) hseg).elim
    | cons c cs =>
      obtain ⟨a, b', heq⟩ := hseg
      cases a with
      | nil =>
        rw [List.nil_append] at heq
        rw [heq, emailAux_token_append mid hall b' b]
        exact hasSeg_here _ _
      | cons c0 a' =>
        simp only [List.cons_append, List.cons.injEq] at heq
        obtain ⟨rfl, hcs⟩ := heq
        cases hfire : emailTry b (c :: cs) with
        | none =>
          rw [emailAux_cons_none hfire]
          have hlen : cs.length ≤ n := by
            simp only [List.length_cons] at hl
            omega
          exact hasSeg_cons _ (ihn cs (isWordChar c) hlen ⟨a', b', hcs⟩)
        | some mr =>
          obtain ⟨m, r⟩ := mr
          obtain ⟨w, hw⟩ := emailAux_cons_some hfire
          rw [hw]
          have hmr := (emailTry_some hfire).2
          have hnb := emailTry_no_bracket hfire
          have hshape : m ++ r = (c :: a') ++ '[' :: ((mid ++ [']']) ++ b') := by
            rw [hmr, hcs]
            simp [List.append_assoc]
          obtain ⟨a'', hr, -⟩ := seg_shift m (c :: a') r _ hshape hnb
          have hrseg : hasSeg ('[' :: (mid ++ [']'])) r :=
            ⟨a'', b', by rw [hr]; simp [List.append_assoc]⟩
          have hrlen : r.length ≤ n := by
            have := emailTry_length hfire
            simp only [List.length_cons] at this hl
            omega
          exact hasSeg_appendL _ (ihn r w hrlen hrseg)

theorem trimChars_keeps (th : Char) (tt : List Char)
    (hnw : ∀ c ∈ th :: tt, c.isWhitespace = false) {s : List Char}
    (h : hasSeg (th :: tt) s) : hasSeg (th :: tt) (trimChars s) := by
  unfold trimChars
  obtain ⟨a, b', rfl⟩ := h
  have h1 : hasSeg (th :: tt)
      ((a ++ (th :: tt) ++ b').dropWhile Char.isWhitespace) :=
    dropWhile_hasSeg Char.isWhitespace th tt (hnw th (by simp)) a b'
  have h2 := hasSeg_reverse h1
  obtain ⟨th2, tt2, hrev⟩ : ∃ th2 tt2, (th :: tt).reverse = th2 :: tt2 := by
    cases hc : (th :: tt).reverse with
    | nil =>
      have := congrArg List.length hc
      simp at this
    | cons x xs => exact ⟨x, xs, rfl⟩
  have hth2 : th2 ∈ th :: tt := by
    have hmem : th2 ∈ (th :: tt).reverse := by
      rw [hrev]
      simp
    rw [List.mem_reverse] at hmem
    exact hmem
  rw [hrev] at h2
  obtain ⟨a2, b2, h2eq⟩ := h2
  have h3 : hasSeg (th2 :: tt2)
      ((((a ++ (th :: tt) ++ b').dropWhile Char.isWhitespace).reverse).dropWhile
        Char.isWhitespace) := by
    rw [h2eq]
    exact dropWhile_hasSeg _ th2 tt2 (hnw th2 hth2) a2 b2
  have h4 := hasSeg_reverse h3
  rw [← hrev] at h4
  simpa using h4

/-! ### The C4 theorems -/

/-- C4 as stated is false: `"a123-45-6789"` contains a substring matching
`\d{3}-\d{2}-\d{4}`, but the code's regex requires word boundaries, the
preceding `a` defeats `\b`, and the content passes through unredacted. -/
theorem C4_counterexample :
    validateAndSanitizeInput (.arr [⟨some (.jstr "user"), some (.jstr "a123-45-6789")⟩])
        = .ok [⟨"user", "a123-45-6789"⟩]
    ∧ hasSeg "123-45-6789".data "a123-45-6789".data
    ∧ ¬ hasSeg SSN_TOKEN "a123-45-6789".data := by
  refine ⟨?_, ?_, ?_⟩
  · have hs : sanitizeContent "a123-45-6789" = "a123-45-6789" :=
      sanitizeContent_id _ (by decide) (by decide) (by decide) (by decide)
    have hok : validateAndSanitizeInput
        (.arr [⟨some (.jstr "user"), some (.jstr "a123-45-6789")⟩])
        = .ok [⟨"user", sanitizeContent "a123-45-6789"⟩] := rfl
    rw [hs] at hok
    exact hok
  · exact (hasSegB_iff _ _).mp (by decide)
  · intro h
    exact absurd ((hasSegB_iff _ _).mpr h) (by decide)

/-- C4 amended: for every message content accepted by `validate` in which
the SSN shape `\d{3}-\d{2}-\d{4}` occurs delimited by word boundaries
(not preceded and not followed by a word character), the sanitized output
content contains the token `[REDACTED-SSN]`; the SSN rule is the first
rule applied, and occurrences without word boundaries are left as-is. -/
theorem C4_ssn_redaction (m : RawMessage) (out : Message) (c : String)
    (pre mid suf : List Char)
    (hok : validateMsg m = .ok out)
    (hcontent : m.content = some (.jstr c))
    (hsplit : c.data = pre ++ mid ++ suf)
    (hshape : ssnShapeB mid = true)
    (hleft : lastW false pre = false)
    (hright : afterBoundary suf = true) :
    hasSeg SSN_TOKEN out.content.data := by
  obtain ⟨-, c', hc', -, hxeq⟩ := validateMsg_ok hok
  rw [hcontent] at hc'
  simp only [Option.some.injEq, JVal.jstr.injEq] at hc'
  subst hc'
  rw [hxeq]
  show hasSeg SSN_TOKEN (trimChars (emailAux false (idAux false (ssnAux false c.data))))
  have htok : SSN_TOKEN = '[' :: ("REDACTED-SSN".data ++ [']']) := by decide
  have h1 : hasSeg SSN_TOKEN (ssnAux false c.data) :=
    ssnAux_hits pre false c.data mid suf hsplit hshape hleft hright
  have h2 : hasSeg SSN_TOKEN (idAux false (ssnAux false c.data)) :=
    idAux_keeps SSN_TOKEN '[' "REDACTED-SSN]".data (by decide) (by decide)
      (ssnAux false c.data).length _ false (Nat.le_refl _) h1
  have h3 : hasSeg SSN_TOKEN (emailAux false (idAux false (ssnAux false c.data))) := by
    rw [htok] at h2 ⊢
    exact emailAux_keeps "REDACTED-SSN".data (by decide)
      (idAux false (ssnAux false c.data)).length _ false (Nat.le_refl _) h2
  have htok2 : SSN_TOKEN = '[' :: "REDACTED-SSN]".data := by decide
  have h4 := trimChars_keeps '[' "REDACTED-SSN]".data (by decide) (htok2 ▸ h3)
  rw [htok2]
  exact h4

theorem C4_ssn_redaction_witness :
    hasSeg SSN_TOKEN (sanitizeContent "123-45-6789").data :=
  C4_ssn_redaction ⟨some (.jstr "user"), some (.jstr "123-45-6789")⟩
    ⟨"user", sanitizeContent "123-45-6789"⟩ "123-45-6789"
    [] "123-45-6789".data [] rfl rfl (by simp) (by decide) rfl rfl

/-! ## C7: idempotence of the sanitization pipeline

The development below proves that `sanitizeContent` is idempotent.  The
strategy: after one pass, the output contains no position where any of the
three patterns matches (each scanner removes its own matches, the later
scanners and the final trim do not create new ones), and trimming is
idempotent; `sanitizeContent` is then the identity on its own output. -/

/-- Word-character status of an optional character (a missing character
counts as non-word), the quantity `\b` compares. -/
def wOpt : Option Char → Bool
  | some c => isWordChar c
  | none => false

theorem boundaryBetween_wOpt (a b : Option Char) :
    boundaryBetween a b = (wOpt a != wOpt b) := by
  cases a <;> cases b <;> rfl

theorem afterBoundary_head (l : List Char) : afterBoundary l = !wOpt l.head? := by
  cases l <;> rfl

theorem get?_zero_head (l : List Char) : l.get? 0 = l.head? := by
  cases l <;> rfl

theorem dropWhile_nil_all {p : Char → Bool} {l : List Char}
    (h : l.dropWhile p = []) : ∀ x ∈ l, p x = true := by
  intro x hx
  exact List.dropWhile_eq_nil_iff.mp h x hx

theorem dropWhile_of_all {p : Char → Bool} : ∀ {l : List Char},
    (∀ x ∈ l, p x = true) → l.dropWhile p = []
  | [], _ => rfl
  | c :: cs, h => by
    rw [List.dropWhile_cons_of_pos (h c (by simp))]
    exact dropWhile_of_all fun x hx => h x (by simp [hx])

theorem takeWhile_of_all {p : Char → Bool} {l : List Char}
    (h : ∀ x ∈ l, p x = true) : l.takeWhile p = l :=
  List.takeWhile_eq_self_iff.mpr h

theorem takeWhile_append_stop (p : Char → Bool) :
    ∀ (l u : List Char), l.dropWhile p ≠ [] →
      (l ++ u).takeWhile p = l.takeWhile p ∧ (l ++ u).dropWhile p = l.dropWhile p ++ u
  | [], u => by intro h; exact absurd rfl h
  | c :: cs, u => by
    intro h
    by_cases hc : p c = true
    · rw [List.dropWhile_cons_of_pos hc] at h
      obtain ⟨h1, h2⟩ := takeWhile_append_stop p cs u h
      constructor
      · rw [List.cons_append, List.takeWhile_cons_of_pos hc, h1,
          List.takeWhile_cons_of_pos hc]
      · rw [List.cons_append, List.dropWhile_cons_of_pos hc, h2,
          List.dropWhile_cons_of_pos hc]
    · rw [Bool.not_eq_true] at hc
      constructor
      · rw [List.cons_append, List.takeWhile_cons_of_neg (by simp [hc]),
          List.takeWhile_cons_of_neg (by simp [hc])]
      · rw [List.cons_append, List.dropWhile_cons_of_neg (by simp [hc]),
          List.dropWhile_cons_of_neg (by simp [hc])]
        simp

theorem takeWhile_append_all (p : Char → Bool) :
    ∀ (l u : List Char), l.dropWhile p = [] →
      (l ++ u).takeWhile p = l ++ u.takeWhile p ∧ (l ++ u).dropWhile p = u.dropWhile p
  | [], u => by intro _; simp
  | c :: cs, u => by
    intro h
    have hc : p c = true := by
      by_cases hc : p c = true
      · exact hc
      · rw [List.dropWhile_cons_of_neg (by simp [Bool.not_eq_true] at hc; simp [hc])] at h
        exact absurd h (by simp)
    rw [List.dropWhile_cons_of_pos hc] at h
    obtain ⟨h1, h2⟩ := takeWhile_append_all p cs u h
    constructor
    · rw [List.cons_append, List.takeWhile_cons_of_pos hc, h1]
      simp
    · rw [List.cons_append, List.dropWhile_cons_of_pos hc, h2]

theorem head?_dropWhile_neg (p : Char → Bool) :
    ∀ {l : List Char} {c : Char}, (l.dropWhile p).head? = some c → p c = false
  | [], c => by intro h; exact absurd h (by simp)
  | d :: ds, c => by
    intro h
    by_cases hd : p d = true
    · rw [List.dropWhile_cons_of_pos hd] at h
      exact head?_dropWhile_neg p h
    · rw [Bool.not_eq_true] at hd
      rw [List.dropWhile_cons_of_neg (by simp [hd])] at h
      simp only [List.head?_cons, Option.some.injEq] at h
      subst h
      exact hd

theorem lastW_append (b : Bool) :
    ∀ (u v : List Char), lastW b (u ++ v) = lastW (lastW b u) v := by
  intro u v
  unfold lastW
  rw [List.getLast?_append]
  cases hv : v.getLast? with
  | some d => rfl
  | none => cases u.getLast? <;> rfl

theorem lastW_nonempty {b : Bool} {u : List Char} {d : Char}
    (h : u.getLast? = some d) : lastW b u = isWordChar d := by
  unfold lastW
  rw [h]

/-! Character-class facts about whitespace and word characters. -/

theorem wsChar_cases {c : Char} (h : c.isWhitespace = true) :
    c = ' ' ∨ c = '\t' ∨ c = '\r' ∨ c = '\n' := by
  revert h
  unfold Char.isWhitespace
  intro h
  simp only [Bool.or_eq_true, decide_eq_true_eq] at h
  tauto

theorem wsChar_not_word {c : Char} (h : c.isWhitespace = true) :
    isWordChar c = false := by
  rcases wsChar_cases h with rfl | rfl | rfl | rfl <;> decide

theorem wsChar_not_digit {c : Char} (h : c.isWhitespace = true) :
    c.isDigit = false := by
  rcases wsChar_cases h with rfl | rfl | rfl | rfl <;> decide

theorem wsChar_notL {c : Char} (h : c.isWhitespace = true) :
    isLChar c = false := by
  rcases wsChar_cases h with rfl | rfl | rfl | rfl <;> decide

theorem wsChar_notD {c : Char} (h : c.isWhitespace = true) :
    isDChar c = false := by
  rcases wsChar_cases h with rfl | rfl | rfl | rfl <;> decide

theorem wsChar_notT {c : Char} (h : c.isWhitespace = true) :
    isTChar c = false := by
  rcases wsChar_cases h with rfl | rfl | rfl | rfl <;> decide

theorem digit_word {c : Char} (h : c.isDigit = true) : isWordChar c = true := by
  simp [isWordChar, h]

theorem alpha_word {c : Char} (h : c.isAlpha = true) : isWordChar c = true := by
  simp [isWordChar, h]

theorem word_not_digit {c : Char} (h : isWordChar c = false) : c.isDigit = false := by
  by_cases hd : c.isDigit = true
  · rw [digit_word hd] at h
    exact absurd h (by simp)
  · exact Bool.not_eq_true _ |>.mp hd

theorem tChar_cases {c : Char} (h : isTChar c = true) :
    c.isAlpha = true ∨ c = '|' := by
  simp only [isTChar, Bool.or_eq_true, beq_iff_eq] at h
  exact h

theorem dChar_word_or {c : Char} (h : isDChar c = true) :
    isWordChar c = true ∨ c = '.' ∨ c = '-' := by
  simp only [isDChar, Bool.or_eq_true, beq_iff_eq] at h
  rcases h with ((h | h) | h) | h
  · exact Or.inl (alpha_word h)
  · exact Or.inl (digit_word h)
  · exact Or.inr (Or.inl h)
  · exact Or.inr (Or.inr h)

/-! TLD-search machinery: what `tldGo` returns depends only on the TLD run
and the word-status of the first character after it. -/

theorem tldGo_some_cond {trun trest : List Char} :
    ∀ {f n : Nat}, tldGo trun trest f = some n →
      2 ≤ n ∧ n ≤ trun.length ∧
        boundaryBetween (trun.get? (n - 1)) (charAt trun trest n) = true := by
  intro f
  induction f with
  | zero => intro n h; exact absurd h (by simp [tldGo])
  | succ f ih =>
    intro n h
    rw [tldGo] at h
    split at h
    · next hcond =>
      simp only [Option.some.injEq] at h
      subst h
      simp only [Bool.and_eq_true, decide_eq_true_eq] at hcond
      exact ⟨hcond.1.1, hcond.1.2, by simpa using hcond.2⟩
    · exact ih h

theorem tldGo_isSome_of_cond {trun trest : List Char} :
    ∀ (f n : Nat), n ≤ f → 2 ≤ n → n ≤ trun.length →
      boundaryBetween (trun.get? (n - 1)) (charAt trun trest n) = true →
      (tldGo trun trest f).isSome = true := by
  intro f
  induction f with
  | zero => intro n h1 h2 _ _; omega
  | succ f ih =>
    intro n h1 h2 h3 h4
    rw [tldGo]
    split
    · simp
    · next hcond =>
      rcases Nat.lt_or_ge n (f + 1) with hlt | hge
      · exact ih n (by omega) h2 h3 h4
      · have hn : n = f + 1 := by omega
        subst hn
        have : (decide (2 ≤ f + 1) && decide (f + 1 ≤ trun.length)
            && boundaryBetween (trun.get? f) (charAt trun trest (f + 1))) = true := by
          simp only [Bool.and_eq_true, decide_eq_true_eq]
          exact ⟨⟨h2, h3⟩, by simpa using h4⟩
        exact absurd this (by simpa using hcond)

theorem wOpt_charAt_congr {trun t1 t2 : List Char} {m : Nat}
    (hm : m ≤ trun.length) (hst : wOpt t1.head? = wOpt t2.head?) :
    wOpt (charAt trun t1 m) = wOpt (charAt trun t2 m) := by
  unfold charAt
  cases hg : trun.get? m with
  | some c => rfl
  | none =>
    have hlen : trun.length ≤ m := List.get?_eq_none.mp hg
    have hm0 : m - trun.length = 0 := by omega
    rw [hm0, get?_zero_head, get?_zero_head]
    exact hst

theorem tldGo_congr {trun t1 t2 : List Char}
    (hst : wOpt t1.head? = wOpt t2.head?) :
    ∀ f, tldGo trun t1 f = tldGo trun t2 f := by
  intro f
  induction f with
  | zero => rfl
  | succ f ih =>
    rw [tldGo, tldGo]
    by_cases hle : f + 1 ≤ trun.length
    · have hb : boundaryBetween (trun.get? f) (charAt trun t1 (f + 1))
          = boundaryBetween (trun.get? f) (charAt trun t2 (f + 1)) := by
        rw [boundaryBetween_wOpt, boundaryBetween_wOpt,
          wOpt_charAt_congr hle hst]
      rw [hb, ih]
    · have hd : decide (f + 1 ≤ trun.length) = false := by
        simp [hle]
      rw [hd]
      simp only [Bool.and_false, Bool.false_and, Bool.false_eq_true, if_false]
      exact ih

theorem domGo_some_try {drun rest3 : List Char} :
    ∀ {f j n : Nat}, domGo drun rest3 f = some (j, n) →
      domTry drun rest3 j = some (j, n) ∧ j + 1 ≤ f := by
  intro f
  induction f with
  | zero => intro j n h; exact absurd h (by simp [domGo])
  | succ f ih =>
    intro j n h
    rw [domGo] at h
    split at h
    · next jn hjn =>
      obtain ⟨j', n'⟩ := jn
      simp only [Option.some.injEq, Prod.mk.injEq] at h
      obtain ⟨rfl, rfl⟩ := h
      obtain ⟨rfl, -, -⟩ := domTry_some hjn
      exact ⟨hjn, by omega⟩
    · obtain ⟨h1, h2⟩ := ih h
      exact ⟨h1, by omega⟩

theorem domGo_isSome_of_try {drun rest3 : List Char} {j : Nat} {x : Nat × Nat}
    (htry : domTry drun rest3 j = some x) :
    ∀ {f : Nat}, j + 1 ≤ f → (domGo drun rest3 f).isSome = true := by
  intro f
  induction f with
  | zero => intro h; omega
  | succ f ih =>
    intro h
    rw [domGo]
    split
    · simp
    · next hnone =>
      rcases Nat.lt_or_ge (j + 1) (f + 1) with hlt | hge
      · exact ih (by omega)
      · have : j = f := by omega
        subst this
        rw [htry] at hnone
        exact absurd hnone (by simp)

/-! Window lemmas for the SSN pattern: a match reads exactly 11 characters
plus the word-status of the next one. -/

theorem ssnShape_length {m : List Char} (h : ssnShapeB m = true) : m.length = 11 := by
  unfold ssnShapeB at h
  split at h
  · simp
  · exact absurd h (by simp)

theorem ssnShape_mem {m : List Char} (h : ssnShapeB m = true) :
    ∀ c ∈ m, c.isDigit = true ∨ c = '-' := by
  unfold ssnShapeB at h
  split at h
  · next d1 d2 d3 h1 d4 d5 h2 d6 d7 d8 d9 =>
    simp only [Bool.and_eq_true, beq_iff_eq] at h
    intro c hc
    simp only [List.mem_cons, List.not_mem_nil, or_false] at hc
    rcases hc with rfl | rfl | rfl | rfl | rfl | rfl | rfl | rfl | rfl | rfl | rfl <;> tauto
  · exact absurd h (by simp)

theorem ssnShape_last {m : List Char} (h : ssnShapeB m = true) :
    ∃ d, m.get? 10 = some d ∧ d.isDigit = true := by
  unfold ssnShapeB at h
  split at h
  · next d1 d2 d3 h1 d4 d5 h2 d6 d7 d8 d9 =>
    simp only [Bool.and_eq_true, beq_iff_eq] at h
    exact ⟨d9, rfl, h.2⟩
  · exact absurd h (by simp)

theorem ssnTry_none_short {l : List Char} (h : l.length ≤ 10) : ssnTry l = none := by
  unfold ssnTry
  split
  · exfalso
    simp only [List.length_cons] at h
    omega
  · rfl

theorem ssnTry_none_head {c : Char} {cs : List Char} (hc : c.isDigit = false) :
    ssnTry (c :: cs) = none := by
  unfold ssnTry
  split
  · next heq =>
    rw [List.cons.injEq] at heq
    obtain ⟨h1, -⟩ := heq
    rw [← h1, hc]
    simp
  · rfl

theorem ssnTry_isSome_eq (x u : List Char) (hx : x.length = 11) :
    (ssnTry (x ++ u)).isSome = (ssnShapeB x && afterBoundary u) := by
  cases hsh : ssnShapeB x with
  | true =>
    cases hab : afterBoundary u with
    | true => rw [ssnTry_of_shape hsh hab]; rfl
    | false =>
      simp only [Bool.and_false]
      cases hres : ssnTry (x ++ u) with
      | none => rfl
      | some mr =>
        obtain ⟨m, r⟩ := mr
        obtain ⟨heq, hm, hr⟩ := ssnTry_some_parts hres
        have hlen : m.length = 11 := ssnShape_length hm
        obtain ⟨rfl, rfl⟩ := List.append_inj heq (by omega)
        rw [hr] at hab
        exact absurd hab (by simp)
  | false =>
    simp only [Bool.false_and]
    cases hres : ssnTry (x ++ u) with
    | none => rfl
    | some mr =>
      obtain ⟨m, r⟩ := mr
      obtain ⟨heq, hm, hr⟩ := ssnTry_some_parts hres
      have hlen : m.length = 11 := ssnShape_length hm
      obtain ⟨rfl, rfl⟩ := List.append_inj heq (by omega)
      rw [hm] at hsh
      exact absurd hsh (by simp)

/-- Master lemma for preservation of SSN-match absence: replacing the rest
of the string after a fired match with a bracketed token cannot create an
SSN match at an earlier position.  `pre` is the stretch between the
position under test and the fired match `mh :: mt`; the hypothesis
`hbd` is the fired match's leading word-boundary. -/
theorem ssnTry_none_out {c mh : Char} {pre mt r z : List Char}
    (hin : ssnTry (c :: (pre ++ (mh :: mt) ++ r)) = none)
    (hbd : lastW (isWordChar c) pre ≠ isWordChar mh) :
    ssnTry (c :: (pre ++ '[' :: z)) = none := by
  rcases Nat.lt_or_ge pre.length 10 with hlen | hlen
  · -- the bracket lands inside any 11-character window starting at `c`
    rcases Nat.lt_or_ge (c :: (pre ++ '[' :: z)).length 11 with hshort | hlong
    · refine ssnTry_none_short ?_
      simp only [List.length_cons, List.length_append] at hshort ⊢
      omega
    · cases hres : ssnTry (c :: (pre ++ '[' :: z)) with
      | none => rfl
      | some mr =>
        exfalso
        obtain ⟨m, r'⟩ := mr
        obtain ⟨heq, hm, -⟩ := ssnTry_some_parts hres
        have hm11 : m.length = 11 := ssnShape_length hm
        have hbr : (c :: (pre ++ '[' :: z)).get? (pre.length + 1) = some '[' := by
          show ((c :: pre) ++ '[' :: z).get? (pre.length + 1) = some '['
          rw [List.get?_append_right (by simp)]
          simp
        have hbrm : m.get? (pre.length + 1) = some '[' := by
          rw [heq] at hbr
          rw [← hbr]
          exact (List.get?_append (by omega)).symm
        have hmem : '[' ∈ m := List.get?_mem hbrm
        rcases ssnShape_mem hm '[' hmem with h | h
        · exact absurd h (by decide)
        · exact absurd h (by decide)
  · rcases Nat.eq_or_lt_of_le hlen with heq10 | hgt
    · -- pre has exactly 10 characters: the bracket is the boundary character
      have hx : (c :: pre).length = 11 := by
        simp only [List.length_cons]
        omega
      have hrw : c :: (pre ++ '[' :: z) = (c :: pre) ++ ('[' :: z) := by simp
      rw [hrw]
      cases hres : ssnTry ((c :: pre) ++ ('[' :: z)) with
      | none => rfl
      | some mr =>
        exfalso
        have h1 := ssnTry_isSome_eq (c :: pre) ('[' :: z) hx
        rw [hres] at h1
        cases hsh : ssnShapeB (c :: pre) with
        | false => rw [hsh] at h1; simp at h1
        | true =>
          obtain ⟨d, hd, hdig⟩ := ssnShape_last hsh
          have hd9 : pre.get? 9 = some d := by
            rw [← hd]
            rfl
          have hdl : pre.getLast? = some d := by
            rw [List.getLast?_eq_get?, ← heq10]
            exact hd9
          have hlw : lastW (isWordChar c) pre = true := by
            rw [lastW_nonempty hdl]
            exact digit_word hdig
          have hmh : isWordChar mh = false := by
            rcases Bool.eq_false_or_eq_true (isWordChar mh) with h | h
            · rw [hlw, h] at hbd
              exact absurd rfl hbd
            · exact h
          have hinrw : c :: (pre ++ (mh :: mt) ++ r)
              = (c :: pre) ++ (mh :: (mt ++ r)) := by
            simp [List.append_assoc]
          rw [hinrw] at hin
          have h2 := ssnTry_isSome_eq (c :: pre) (mh :: (mt ++ r)) hx
          rw [hin, hsh] at h2
          simp only [Option.isSome_none, Bool.true_and] at h2
          rw [afterBoundary, hmh] at h2
          simp at h2
    · -- pre has at least 11 characters: the window and its boundary
      -- character are shared between the two strings
      have hx : ((c :: pre).take 11).length = 11 := by
        rw [List.length_take]
        simp only [List.length_cons]
        omega
      have htd : (c :: pre).take 11 ++ pre.drop 10 = c :: pre := by
        have : (c :: pre).drop 11 = pre.drop 10 := by simp
        rw [← this, List.take_append_drop]
      have hrw1 : c :: (pre ++ '[' :: z)
          = (c :: pre).take 11 ++ (pre.drop 10 ++ '[' :: z) := by
        rw [← List.append_assoc, htd]
        simp
      have hrw2 : c :: (pre ++ (mh :: mt) ++ r)
          = (c :: pre).take 11 ++ (pre.drop 10 ++ ((mh :: mt) ++ r)) := by
        rw [← List.append_assoc, htd]
        simp [List.append_assoc]
      obtain ⟨d0, dt, hd0⟩ : ∃ d0 dt, pre.drop 10 = d0 :: dt := by
        cases hdd : pre.drop 10 with
        | nil =>
          exfalso
          have := List.drop_eq_nil_iff_le.mp hdd
          omega
        | cons d0 dt => exact ⟨d0, dt, rfl⟩
      have hab : afterBoundary (pre.drop 10 ++ '[' :: z)
          = afterBoundary (pre.drop 10 ++ ((mh :: mt) ++ r)) := by
        rw [hd0]
        rfl
      rw [hrw2] at hin
      rw [hrw1]
      cases hres : ssnTry ((c :: pre).take 11 ++ (pre.drop 10 ++ '[' :: z)) with
      | none => rfl
      | some mr =>
        exfalso
        have h1 := ssnTry_isSome_eq ((c :: pre).take 11) (pre.drop 10 ++ '[' :: z) hx
        have h2 := ssnTry_isSome_eq ((c :: pre).take 11)
          (pre.drop 10 ++ ((mh :: mt) ++ r)) hx
        rw [hres] at h1
        rw [hin] at h2
        rw [hab] at h1
        rw [← h2] at h1
        simp at h1

/-! Output-shape decompositions: each scanner either copies its input
verbatim, or copies it up to the first fired match and then emits a
bracket.  The fired match's leading word-boundary is recorded. -/

theorem ssnShape_head {m : List Char} (h : ssnShapeB m = true) :
    ∃ d mt, m = d :: mt ∧ d.isDigit = true := by
  unfold ssnShapeB at h
  split at h
  · next d1 d2 d3 h1 d4 d5 h2 d6 d7 d8 d9 =>
    simp only [Bool.and_eq_true, beq_iff_eq] at h
    exact ⟨d1, _, rfl, h.1.1.1.1.1.1.1.1.1.1⟩
  · exact absurd h (by simp)

theorem lastW_all_word {u : List Char} {b : Bool} (hne : u ≠ [])
    (hall : ∀ x ∈ u, isWordChar x = true) : lastW b u = true := by
  obtain ⟨d, hd⟩ := Option.isSome_iff_exists.mp (List.getLast?_isSome.mpr hne)
  rw [lastW_nonempty hd]
  exact hall d (List.mem_of_mem_getLast? (by simp [hd]))

theorem ssnAux_shape : ∀ (l : List Char) (b : Bool),
    ssnAux b l = l ∨
    ∃ (pre mt r z : List Char) (mh : Char),
      l = pre ++ (mh :: mt) ++ r ∧
      ssnAux b l = pre ++ '[' :: z ∧
      lastW b pre ≠ isWordChar mh
  | [], _ => Or.inl (by simp [ssnAux])
  | c :: cs, b => by
    have step : ∀ (hstep : ssnAux b (c :: cs) = c :: ssnAux (isWordChar c) cs),
        ssnAux b (c :: cs) = c :: cs ∨
        ∃ (pre mt r z : List Char) (mh : Char),
          c :: cs = pre ++ (mh :: mt) ++ r ∧
          ssnAux b (c :: cs) = pre ++ '[' :: z ∧
          lastW b pre ≠ isWordChar mh := by
      intro hstep
      rcases ssnAux_shape cs (isWordChar c) with h | ⟨pre, mt, r, z, mh, h1, h2, h3⟩
      · exact Or.inl (by rw [hstep, h])
      · refine Or.inr ⟨c :: pre, mt, r, z, mh, ?_, ?_, ?_⟩
        · rw [List.cons_append, List.cons_append, ← h1]
        · rw [hstep, h2]
          rfl
        · rw [lastW_cons]
          exact h3
    cases b with
    | true => exact step (ssnAux_cons_word c cs)
    | false =>
      cases hfire : ssnTry (c :: cs) with
      | none => exact step (ssnAux_cons_none hfire false)
      | some mr =>
        obtain ⟨m, r⟩ := mr
        obtain ⟨heq, hm, -⟩ := ssnTry_some_parts hfire
        obtain ⟨d, mt, rfl, hdig⟩ := ssnShape_head hm
        refine Or.inr ⟨[], mt, r, "REDACTED-SSN]".data ++ ssnAux true r, d, ?_, ?_, ?_⟩
        · rw [List.nil_append]
          exact heq
        · rw [ssnAux_cons_fire hfire]
          rfl
        · show lastW false [] ≠ isWordChar d
          rw [digit_word hdig]
          simp [lastW]

theorem idAux_cons_fire {c : Char} {cs : List Char}
    (hc : c.isDigit = true)
    (hcond : (10 ≤ ((c :: cs).takeWhile Char.isDigit).length
        && ((c :: cs).takeWhile Char.isDigit).length ≤ 16
        && afterBoundary ((c :: cs).dropWhile Char.isDigit)) = true) :
    idAux false (c :: cs) = ID_TOKEN ++ idAux true ((c :: cs).dropWhile Char.isDigit) := by
  have hnot : ¬ ((false || !c.isDigit) = true) := by simp [hc]
  rw [idAux, dif_neg hnot, if_pos hcond]

theorem idAux_cons_keep {c : Char} {cs : List Char}
    (hc : c.isDigit = true)
    (hcond : (10 ≤ ((c :: cs).takeWhile Char.isDigit).length
        && ((c :: cs).takeWhile Char.isDigit).length ≤ 16
        && afterBoundary ((c :: cs).dropWhile Char.isDigit)) = false) :
    idAux false (c :: cs)
      = (c :: cs).takeWhile Char.isDigit
          ++ idAux true ((c :: cs).dropWhile Char.isDigit) := by
  have hnot : ¬ ((false || !c.isDigit) = true) := by simp [hc]
  rw [idAux, dif_neg hnot, if_neg (by simp [hcond])]

theorem idAux_shape (l : List Char) (b : Bool) :
    idAux b l = l ∨
    ∃ (pre mt r z : List Char) (mh : Char),
      l = pre ++ (mh :: mt) ++ r ∧
      idAux b l = pre ++ '[' :: z ∧
      lastW b pre ≠ isWordChar mh := by
  have main : ∀ (n : Nat) (l : List Char) (b : Bool), l.length ≤ n →
      (idAux b l = l ∨
        ∃ (pre mt r z : List Char) (mh : Char),
          l = pre ++ (mh :: mt) ++ r ∧
          idAux b l = pre ++ '[' :: z ∧
          lastW b pre ≠ isWordChar mh) := by
    intro n
    induction n with
    | zero =>
      intro l b hl
      rw [Nat.le_zero, List.length_eq_zero] at hl
      subst hl
      exact Or.inl (by simp [idAux])
    | succ n ihn =>
      intro l b hl
      cases l with
      | nil => exact Or.inl (by simp [idAux])
      | cons c cs =>
        by_cases hskip : b = true ∨ c.isDigit = false
        · rcases ihn cs (isWordChar c)
              (by simp only [List.length_cons] at hl; omega) with
            h | ⟨pre, mt, r, z, mh, h1, h2, h3⟩
          · exact Or.inl (by rw [idAux_cons_skip cs hskip, h])
          · refine Or.inr ⟨c :: pre, mt, r, z, mh, ?_, ?_, ?_⟩
            · rw [List.cons_append, List.cons_append, ← h1]
            · rw [idAux_cons_skip cs hskip, h2]
              rfl
            · rw [lastW_cons]
              exact h3
        · have hb : b = false := by
            rcases Bool.eq_false_or_eq_true b with h | h
            · exact absurd (Or.inl h) hskip
            · exact h
          have hc : c.isDigit = true := by
            rcases Bool.eq_false_or_eq_true c.isDigit with h | h
            · exact h
            · exact absurd (Or.inr h) hskip
          subst hb
          have hrun : (c :: cs).takeWhile Char.isDigit
              = c :: cs.takeWhile Char.isDigit := List.takeWhile_cons_of_pos hc
          have hrest : (c :: cs).dropWhile Char.isDigit
              = cs.dropWhile Char.isDigit := List.dropWhile_cons_of_pos hc
          have hlrest : ((c :: cs).dropWhile Char.isDigit).length ≤ n := by
            have := length_dropWhile_le Char.isDigit cs
            simp only [List.length_cons] at hl
            rw [hrest]
            omega
          by_cases hcond : (10 ≤ ((c :: cs).takeWhile Char.isDigit).length
              && ((c :: cs).takeWhile Char.isDigit).length ≤ 16
              && afterBoundary ((c :: cs).dropWhile Char.isDigit)) = true
          · -- the run fires: the bracket is emitted right here
            refine Or.inr ⟨[], cs.takeWhile Char.isDigit,
              (c :: cs).dropWhile Char.isDigit,
              "REDACTED-ID]".data ++ idAux true ((c :: cs).dropWhile Char.isDigit),
              c, ?_, ?_, ?_⟩
            · rw [List.nil_append, ← hrun, List.takeWhile_append_dropWhile]
            · rw [idAux_cons_fire hc hcond]
              rfl
            · show lastW false [] ≠ isWordChar c
              rw [digit_word hc]
              simp [lastW]
          · -- the run is kept verbatim; recurse after it
            rcases ihn ((c :: cs).dropWhile Char.isDigit) true hlrest with
              h | ⟨pre, mt, r, z, mh, h1, h2, h3⟩
            · refine Or.inl ?_
              rw [idAux_cons_keep hc (by simpa using hcond), h,
                List.takeWhile_append_dropWhile]
            · refine Or.inr ⟨(c :: cs).takeWhile Char.isDigit ++ pre, mt, r, z, mh,
                ?_, ?_, ?_⟩
              · rw [List.append_assoc, List.append_assoc, ← List.append_assoc pre,
                  ← h1, List.takeWhile_append_dropWhile]
              · rw [idAux_cons_keep hc (by simpa using hcond), h2, List.append_assoc]
              · rw [lastW_append]
                have hall : ∀ x ∈ (c :: cs).takeWhile Char.isDigit,
                    isWordChar x = true := by
                  intro x hx
                  exact digit_word (List.mem_takeWhile_imp hx)
                rw [lastW_all_word (by rw [hrun]; simp) hall]
                exact h3
  exact main l.length l b (Nat.le_refl _)

theorem emailTry_some_head {b : Bool} {c : Char} {cs m r : List Char}
    (h : emailTry b (c :: cs) = some (m, r)) :
    (b == isWordChar c) = false ∧ ∃ mt, m = c :: mt := by
  simp only [emailTry] at h
  split at h
  · exact absurd h (by simp)
  · next hb =>
    have hbeq : (b == isWordChar c) = false := by
      revert hb
      cases (b == isWordChar c) <;> simp
    refine ⟨hbeq, ?_⟩
    split at h
    · exact absurd h (by simp)
    · next hne =>
      have hLc : isLChar c = true := by
        rcases Bool.eq_false_or_eq_true (isLChar c) with hLc | hLc
        · exact hLc
        · rw [List.takeWhile_cons_of_neg (by simp [hLc])] at hne
          exact absurd rfl hne
      split at h
      · next rest2 heq =>
        split at h
        · next j n hdom =>
          simp only [Option.some.injEq, Prod.mk.injEq] at h
          obtain ⟨hm, -⟩ := h
          rw [List.takeWhile_cons_of_pos hLc, List.cons_append] at hm
          exact ⟨_, hm.symm⟩
        · exact absurd h (by simp)
      · exact absurd h (by simp)

theorem emailAux_shape : ∀ (l : List Char) (b : Bool),
    emailAux b l = l ∨
    ∃ (pre mt r z : List Char) (mh : Char),
      l = pre ++ (mh :: mt) ++ r ∧
      emailAux b l = pre ++ '[' :: z ∧
      lastW b pre ≠ isWordChar mh
  | [], _ => Or.inl (by simp [emailAux])
  | c :: cs, b => by
    cases hfire : emailTry b (c :: cs) with
    | some mr =>
      obtain ⟨m, r⟩ := mr
      obtain ⟨w, hw⟩ := emailAux_cons_some hfire
      obtain ⟨hbeq, mt, hm⟩ := emailTry_some_head hfire
      subst hm
      refine Or.inr ⟨[], mt, r,
        "REDACTED-EMAIL]".data ++ emailAux w r, c, ?_, ?_, ?_⟩
      · rw [List.nil_append]
        exact (emailTry_some hfire).2.symm
      · rw [hw]
        rfl
      · show lastW b [] ≠ isWordChar c
        show b ≠ isWordChar c
        intro hcontra
        rw [hcontra] at hbeq
        simp at hbeq
    | none =>
      rcases emailAux_shape cs (isWordChar c) with h | ⟨pre, mt, r, z, mh, h1, h2, h3⟩
      · exact Or.inl (by rw [emailAux_cons_none hfire, h])
      · refine Or.inr ⟨c :: pre, mt, r, z, mh, ?_, ?_, ?_⟩
        · rw [List.cons_append, List.cons_append, ← h1]
        · rw [emailAux_cons_none hfire, h2]
          rfl
        · rw [lastW_cons]
          exact h3

/-! Occurrence-scan bookkeeping: stepping over characters that cannot
start a match, walking word runs, and restricting to suffixes. -/

theorem hasSSNOcc_cons_nodigit {c : Char} (hc : c.isDigit = false) (b : Bool)
    (t : List Char) : hasSSNOcc b (c :: t) = hasSSNOcc (isWordChar c) t := by
  rw [hasSSNOcc, ssnTry_none_head hc]
  simp

theorem hasIDOcc_cons_nodigit {c : Char} (hc : c.isDigit = false) (b : Bool)
    (t : List Char) : hasIDOcc b (c :: t) = hasIDOcc (isWordChar c) t := by
  rw [hasIDOcc, hc]
  simp

theorem hasSSNOcc_nodigit_append : ∀ (u : List Char), (∀ x ∈ u, x.isDigit = false) →
    ∀ (t : List Char) (b : Bool), hasSSNOcc b (u ++ t) = hasSSNOcc (lastW b u) t
  | [], _ => by intro t b; simp [lastW]
  | c :: u', h => by
    intro t b
    rw [List.cons_append, hasSSNOcc_cons_nodigit (h c (by simp)),
      hasSSNOcc_nodigit_append u' (fun x hx => h x (by simp [hx])) t (isWordChar c),
      lastW_cons]

theorem hasIDOcc_nodigit_append : ∀ (u : List Char), (∀ x ∈ u, x.isDigit = false) →
    ∀ (t : List Char) (b : Bool), hasIDOcc b (u ++ t) = hasIDOcc (lastW b u) t
  | [], _ => by intro t b; simp [lastW]
  | c :: u', h => by
    intro t b
    rw [List.cons_append, hasIDOcc_cons_nodigit (h c (by simp)),
      hasIDOcc_nodigit_append u' (fun x hx => h x (by simp [hx])) t (isWordChar c),
      lastW_cons]

theorem hasSSNOcc_wordrun : ∀ (u : List Char), (∀ x ∈ u, isWordChar x = true) →
    ∀ (t : List Char), hasSSNOcc true (u ++ t) = hasSSNOcc true t
  | [], _ => fun _ => rfl
  | c :: u', h => by
    intro t
    rw [List.cons_append, hasSSNOcc]
    simp only [Bool.not_true, Bool.false_and, Bool.false_or]
    rw [h c (by simp)]
    exact hasSSNOcc_wordrun u' (fun x hx => h x (by simp [hx])) t

theorem hasIDOcc_wordrun : ∀ (u : List Char), (∀ x ∈ u, isWordChar x = true) →
    ∀ (t : List Char), hasIDOcc true (u ++ t) = hasIDOcc true t
  | [], _ => fun _ => rfl
  | c :: u', h => by
    intro t
    rw [List.cons_append, hasIDOcc]
    simp only [Bool.not_true, Bool.false_and, Bool.false_or]
    rw [h c (by simp)]
    exact hasIDOcc_wordrun u' (fun x hx => h x (by simp [hx])) t

theorem hasSSNOcc_suffix : ∀ (u v : List Char) (b : Bool),
    hasSSNOcc b (u ++ v) = false → hasSSNOcc (lastW b u) v = false
  | [], v, b => by intro h; simpa [lastW] using h
  | c :: u', v, b => by
    intro h
    rw [List.cons_append, hasSSNOcc, Bool.or_eq_false_iff] at h
    rw [lastW_cons]
    exact hasSSNOcc_suffix u' v (isWordChar c) h.2

theorem hasIDOcc_suffix : ∀ (u v : List Char) (b : Bool),
    hasIDOcc b (u ++ v) = false → hasIDOcc (lastW b u) v = false
  | [], v, b => by intro h; simpa [lastW] using h
  | c :: u', v, b => by
    intro h
    rw [List.cons_append, hasIDOcc, Bool.or_eq_false_iff] at h
    rw [lastW_cons]
    exact hasIDOcc_suffix u' v (isWordChar c) h.2

theorem hasEmailOcc_suffix : ∀ (u v : List Char) (b : Bool),
    hasEmailOcc b (u ++ v) = false → hasEmailOcc (lastW b u) v = false
  | [], v, b => by intro h; simpa [lastW] using h
  | c :: u', v, b => by
    intro h
    rw [List.cons_append, hasEmailOcc, Bool.or_eq_false_iff] at h
    rw [lastW_cons]
    exact hasEmailOcc_suffix u' v (isWordChar c) h.2

/-! The SSN scanner's output contains no SSN match. -/

theorem ssnTry_none_step {c : Char} {cs : List Char}
    (h : ssnTry (c :: cs) = none) :
    ssnTry (c :: ssnAux (isWordChar c) cs) = none := by
  rcases ssnAux_shape cs (isWordChar c) with hout | ⟨pre, mt, r, z, mh, h1, h2, h3⟩
  · rw [hout]
    exact h
  · rw [h2]
    rw [h1] at h
    exact ssnTry_none_out h h3

theorem hasSSNOcc_ssnAux (l : List Char) (b : Bool) :
    hasSSNOcc b (ssnAux b l) = false := by
  have main : ∀ (n : Nat) (l : List Char) (b : Bool), l.length ≤ n →
      hasSSNOcc b (ssnAux b l) = false := by
    intro n
    induction n with
    | zero =>
      intro l b hl
      rw [List.length_eq_zero.mp (Nat.le_zero.mp hl)]
      simp [ssnAux, hasSSNOcc]
    | succ n ihn =>
      intro l b hl
      cases l with
      | nil => simp [ssnAux, hasSSNOcc]
      | cons c cs =>
        have hlcs : cs.length ≤ n := by
          simp only [List.length_cons] at hl
          omega
        cases b with
        | true =>
          rw [ssnAux_cons_word, hasSSNOcc]
          simp only [Bool.not_true, Bool.false_and, Bool.false_or]
          exact ihn cs (isWordChar c) hlcs
        | false =>
          cases hfire : ssnTry (c :: cs) with
          | none =>
            rw [ssnAux_cons_none hfire, hasSSNOcc, ssnTry_none_step hfire]
            simp only [Option.isSome_none, Bool.and_false, Bool.false_or]
            exact ihn cs (isWordChar c) hlcs
          | some mr =>
            obtain ⟨m, r⟩ := mr
            rw [ssnAux_cons_fire hfire,
              hasSSNOcc_nodigit_append SSN_TOKEN (by decide) _ false]
            have hlast : lastW false SSN_TOKEN = false := by decide
            rw [hlast]
            obtain ⟨-, -, hr⟩ := ssnTry_some_parts hfire
            have hlr : r.length ≤ n := by
              have := ssnTry_length hfire
              simp only [List.length_cons] at hl this
              omega
            have ihr := ihn r true hlr
            cases hr' : r with
            | nil => simp [ssnAux, hasSSNOcc]
            | cons r0 rs =>
              rw [hr'] at ihr hr
              have hw : isWordChar r0 = false := by
                rw [afterBoundary] at hr
                revert hr
                cases isWordChar r0 <;> simp
              rw [ssnAux_cons_word] at ihr ⊢
              rw [hasSSNOcc] at ihr ⊢
              simp only [Bool.not_true, Bool.false_and, Bool.false_or] at ihr
              rw [ssnTry_none_head (word_not_digit hw)]
              simp only [Option.isSome_none, Bool.and_false, Bool.false_or]
              exact ihr
  exact main l.length l b (Nat.le_refl _)

/-! Master lemma for the long-id pattern: replacing the rest of the string
after a fired match with a bracketed token cannot create a long-id match
at an earlier position. -/

theorem idInner_eq (l1 l2 : List Char)
    (ht : l1.takeWhile Char.isDigit = l2.takeWhile Char.isDigit)
    (hd : wOpt (l1.dropWhile Char.isDigit).head?
      = wOpt (l2.dropWhile Char.isDigit).head?) :
    (10 ≤ (l1.takeWhile Char.isDigit).length
        && (l1.takeWhile Char.isDigit).length ≤ 16
        && afterBoundary (l1.dropWhile Char.isDigit))
    = (10 ≤ (l2.takeWhile Char.isDigit).length
        && (l2.takeWhile Char.isDigit).length ≤ 16
        && afterBoundary (l2.dropWhile Char.isDigit)) := by
  rw [ht, afterBoundary_head, afterBoundary_head, hd]

/-- Master lemma for the long-id pattern: replacing the rest of the string
after a fired match with a bracketed token cannot create a long-id match
at an earlier position. -/
theorem idInner_out {c mh : Char} {pre mt r z : List Char}
    (hin : (10 ≤ ((c :: (pre ++ (mh :: mt) ++ r)).takeWhile Char.isDigit).length
        && ((c :: (pre ++ (mh :: mt) ++ r)).takeWhile Char.isDigit).length ≤ 16
        && afterBoundary ((c :: (pre ++ (mh :: mt) ++ r)).dropWhile Char.isDigit))
        = false)
    (hbd : lastW (isWordChar c) pre ≠ isWordChar mh) :
    (10 ≤ ((c :: (pre ++ '[' :: z)).takeWhile Char.isDigit).length
        && ((c :: (pre ++ '[' :: z)).takeWhile Char.isDigit).length ≤ 16
        && afterBoundary ((c :: (pre ++ '[' :: z)).dropWhile Char.isDigit))
        = false := by
  rw [← hin]
  have hout_shape : c :: (pre ++ '[' :: z) = (c :: pre) ++ '[' :: z := rfl
  have hin_shape : c :: (pre ++ (mh :: mt) ++ r)
      = (c :: pre) ++ (mh :: (mt ++ r)) := by
    simp [List.append_assoc]
  rw [hout_shape, hin_shape]
  by_cases hstop : (c :: pre).dropWhile Char.isDigit = []
  · -- `c :: pre` is all digits; the fired match's boundary forces `mh`
    -- to be a non-word (hence non-digit) character, so the two digit
    -- runs and both boundary checks agree.
    have hall : ∀ x ∈ c :: pre, x.isDigit = true := dropWhile_nil_all hstop
    have hlw : lastW (isWordChar c) pre = true := by
      cases hpre : pre with
      | nil =>
        show isWordChar c = true
        exact digit_word (hall c (by simp))
      | cons p ps =>
        refine lastW_all_word (by simp) ?_
        intro x hx
        refine digit_word (hall x ?_)
        rw [hpre]
        exact List.mem_cons_of_mem _ hx
    have hmh : isWordChar mh = false := by
      rcases Bool.eq_false_or_eq_true (isWordChar mh) with h | h
      · rw [hlw, h] at hbd
        exact absurd rfl hbd
      · exact h
    obtain ⟨ht_out, hd_out⟩ := takeWhile_stop Char.isDigit '[' (by decide)
      (c :: pre) z hall
    obtain ⟨ht_in, hd_in⟩ := takeWhile_stop Char.isDigit mh (word_not_digit hmh)
      (c :: pre) (mt ++ r) hall
    refine idInner_eq _ _ ?_ ?_
    · rw [ht_out, ht_in]
    · rw [hd_out, hd_in]
      show wOpt (some '[') = wOpt (some mh)
      show isWordChar '[' = isWordChar mh
      rw [hmh]
      decide
  · -- the digit run stops inside `c :: pre`: both computations agree
    obtain ⟨ht_out, hd_out⟩ := takeWhile_append_stop Char.isDigit (c :: pre)
      ('[' :: z) hstop
    obtain ⟨ht_in, hd_in⟩ := takeWhile_append_stop Char.isDigit (c :: pre)
      (mh :: (mt ++ r)) hstop
    obtain ⟨d0, dt, hd0⟩ : ∃ d0 dt, (c :: pre).dropWhile Char.isDigit = d0 :: dt := by
      cases hdd : (c :: pre).dropWhile Char.isDigit with
      | nil => exact absurd hdd hstop
      | cons d0 dt => exact ⟨d0, dt, rfl⟩
    refine idInner_eq _ _ ?_ ?_
    · rw [ht_out, ht_in]
    · rw [hd_out, hd_in, hd0]
      rfl

/-- The long-id scanner's output contains no long-id match. -/
theorem hasIDOcc_idAux (l : List Char) (b : Bool) :
    hasIDOcc b (idAux b l) = false := by
  have main : ∀ (n : Nat) (l : List Char) (b : Bool), l.length ≤ n →
      hasIDOcc b (idAux b l) = false := by
    intro n
    induction n with
    | zero =>
      intro l b hl
      rw [List.length_eq_zero.mp (Nat.le_zero.mp hl)]
      simp [idAux, hasIDOcc]
    | succ n ihn =>
      intro l b hl
      cases l with
      | nil => simp [idAux, hasIDOcc]
      | cons c cs =>
        have hlcs : cs.length ≤ n := by
          simp only [List.length_cons] at hl
          omega
        by_cases hskip : b = true ∨ c.isDigit = false
        · rw [idAux_cons_skip cs hskip, hasIDOcc]
          refine Bool.or_eq_false_iff.mpr ⟨?_, ihn cs (isWordChar c) hlcs⟩
          rcases hskip with hb | hcd
          · rw [hb]
            simp
          · rw [hcd]
            simp
        · have hb : b = false := by
            rcases Bool.eq_false_or_eq_true b with h | h
            · exact absurd (Or.inl h) hskip
            · exact h
          have hc : c.isDigit = true := by
            rcases Bool.eq_false_or_eq_true c.isDigit with h | h
            · exact h
            · exact absurd (Or.inr h) hskip
          subst hb
          have hlrest : ((c :: cs).dropWhile Char.isDigit).length ≤ n := by
            rw [List.dropWhile_cons_of_pos hc]
            have := length_dropWhile_le Char.isDigit cs
            simp only [List.length_cons] at hl
            omega
          have hrun : (c :: cs).takeWhile Char.isDigit
              = c :: cs.takeWhile Char.isDigit := List.takeWhile_cons_of_pos hc
          have hallw : ∀ x ∈ cs.takeWhile Char.isDigit, x.isDigit = true :=
            fun x hx => List.mem_takeWhile_imp hx
          by_cases hcond : (10 ≤ ((c :: cs).takeWhile Char.isDigit).length
              && ((c :: cs).takeWhile Char.isDigit).length ≤ 16
              && afterBoundary ((c :: cs).dropWhile Char.isDigit)) = true
          · -- the run fires
            rw [idAux_cons_fire hc hcond,
              hasIDOcc_nodigit_append ID_TOKEN (by decide) _ false]
            have hlast : lastW false ID_TOKEN = false := by decide
            rw [hlast]
            have hab : afterBoundary ((c :: cs).dropWhile Char.isDigit) = true := by
              simp only [Bool.and_eq_true] at hcond
              exact hcond.2
            have ihr := ihn ((c :: cs).dropWhile Char.isDigit) true hlrest
            cases hr' : (c :: cs).dropWhile Char.isDigit with
            | nil => simp [idAux, hasIDOcc]
            | cons r0 rs =>
              rw [hr'] at ihr hab
              have hw : isWordChar r0 = false := by
                rw [afterBoundary] at hab
                revert hab
                cases isWordChar r0 <;> simp
              rw [idAux_cons_skip rs (Or.inl rfl)] at ihr ⊢
              rw [hasIDOcc_cons_nodigit (word_not_digit hw)]
              rw [hasIDOcc] at ihr
              simp only [Bool.not_true, Bool.false_and, Bool.false_or] at ihr
              exact ihr
          · -- the run is kept: the head condition is still false, and the
            -- rest of the scan is the inductive hypothesis after the run
            have hcondf : (10 ≤ ((c :: cs).takeWhile Char.isDigit).length
                && ((c :: cs).takeWhile Char.isDigit).length ≤ 16
                && afterBoundary ((c :: cs).dropWhile Char.isDigit)) = false := by
              rcases Bool.eq_false_or_eq_true (10 ≤ ((c :: cs).takeWhile
                  Char.isDigit).length
                  && ((c :: cs).takeWhile Char.isDigit).length ≤ 16
                  && afterBoundary ((c :: cs).dropWhile Char.isDigit)) with h | h
              · exact absurd h hcond
              · exact h
            rw [idAux_cons_keep hc hcondf, hrun, List.cons_append, hasIDOcc]
            refine Bool.or_eq_false_iff.mpr ⟨?_, ?_⟩
            · -- head conjunct: the inner condition agrees with the input one
              have hinner : (10 ≤ ((c :: (cs.takeWhile Char.isDigit
                    ++ idAux true ((c :: cs).dropWhile Char.isDigit))).takeWhile
                      Char.isDigit).length
                  && ((c :: (cs.takeWhile Char.isDigit
                    ++ idAux true ((c :: cs).dropWhile Char.isDigit))).takeWhile
                      Char.isDigit).length ≤ 16
                  && afterBoundary ((c :: (cs.takeWhile Char.isDigit
                    ++ idAux true ((c :: cs).dropWhile Char.isDigit))).dropWhile
                      Char.isDigit))
                  = (10 ≤ ((c :: cs).takeWhile Char.isDigit).length
                  && ((c :: cs).takeWhile Char.isDigit).length ≤ 16
                  && afterBoundary ((c :: cs).dropWhile Char.isDigit)) := by
                cases hr' : (c :: cs).dropWhile Char.isDigit with
                | nil =>
                  have hcsd : cs.dropWhile Char.isDigit = [] := by
                    rw [← List.dropWhile_cons_of_pos hc]
                    exact hr'
                  rw [show idAux true [] = ([] : List Char) from by simp [idAux],
                    List.append_nil, List.takeWhile_cons_of_pos hc,
                    takeWhile_of_all hallw, List.dropWhile_cons_of_pos hc,
                    dropWhile_of_all hallw, hrun]
                | cons r0 rs =>
                  have hrd : r0.isDigit = false :=
                    head?_dropWhile_neg Char.isDigit (l := c :: cs) (by rw [hr']; rfl)
                  rw [idAux_cons_skip rs (Or.inl rfl)]
                  obtain ⟨hto, hdo⟩ := takeWhile_stop Char.isDigit r0 hrd
                    (cs.takeWhile Char.isDigit) (idAux (isWordChar r0) rs) hallw
                  rw [List.takeWhile_cons_of_pos hc, hto,
                    List.dropWhile_cons_of_pos hc, hdo, hrun]
                  simp only [afterBoundary]
              rw [hinner, hcondf, Bool.and_false]
            · rw [digit_word hc, hasIDOcc_wordrun _
                (fun x hx => digit_word (hallw x hx))]
              exact ihn _ true hlrest
  exact main l.length l b (Nat.le_refl _)

/-! Decomposition of a successful email match into the engine's
intermediate runs, and the trailing word-boundary it guarantees. -/

theorem head?_drop (l : List Char) : ∀ n : Nat, (l.drop n).head? = l.get? n := by
  induction l with
  | nil => intro n; cases n <;> rfl
  | cons c cs ih =>
    intro n
    cases n with
    | zero => rfl
    | succ n => exact ih n

theorem getLast?_take {l : List Char} {n : Nat} (h0 : 0 < n) (hle : n ≤ l.length) :
    (l.take n).getLast? = l.get? (n - 1) := by
  rw [List.getLast?_eq_get?, List.length_take]
  have hmin : min n l.length = n := by omega
  rw [hmin, List.get?_take (by omega : n - 1 < n)]

theorem getLast?_cons_ne {a : Char} {l : List Char} (h : l ≠ []) :
    (a :: l).getLast? = l.getLast? := by
  cases l with
  | nil => exact absurd rfl h
  | cons x xs => exact List.getLast?_cons_cons

theorem emailTry_some_decomp {b : Bool} {c : Char} {cs m r : List Char}
    (h : emailTry b (c :: cs) = some (m, r)) :
    ∃ rest2 j n,
      (b == isWordChar c) = false ∧
      isLChar c = true ∧
      (c :: cs).dropWhile isLChar = '@' :: rest2 ∧
      domGo (rest2.takeWhile isDChar) (rest2.dropWhile isDChar)
        (rest2.takeWhile isDChar).length = some (j, n) ∧
      m = (c :: cs).takeWhile isLChar
            ++ '@' :: ((rest2.takeWhile isDChar).take j
            ++ '.' :: (((tldPart (rest2.takeWhile isDChar)
                (rest2.dropWhile isDChar) j).takeWhile isTChar).take n)) ∧
      r = ((tldPart (rest2.takeWhile isDChar)
              (rest2.dropWhile isDChar) j).takeWhile isTChar).drop n
            ++ (tldPart (rest2.takeWhile isDChar)
              (rest2.dropWhile isDChar) j).dropWhile isTChar := by
  simp only [emailTry] at h
  split at h
  · exact absurd h (by simp)
  · next hb =>
    have hbeq : (b == isWordChar c) = false := by
      revert hb
      cases (b == isWordChar c) <;> simp
    split at h
    · exact absurd h (by simp)
    · next hne =>
      have hLc : isLChar c = true := by
        rcases Bool.eq_false_or_eq_true (isLChar c) with hLc | hLc
        · exact hLc
        · rw [List.takeWhile_cons_of_neg (by simp [hLc])] at hne
          exact absurd rfl hne
      split at h
      · next rest2 heq =>
        split at h
        · next j n hdom =>
          simp only [Option.some.injEq, Prod.mk.injEq] at h
          obtain ⟨hm, hr⟩ := h
          exact ⟨rest2, j, n, hbeq, hLc, heq, hdom, hm.symm, hr.symm⟩
        · exact absurd h (by simp)
      · exact absurd h (by simp)

theorem domTry_tldGo {drun rest3 : List Char} {j n : Nat}
    (h : domTry drun rest3 j = some (j, n)) :
    tldGo ((tldPart drun rest3 j).takeWhile isTChar)
      ((tldPart drun rest3 j).dropWhile isTChar)
      ((tldPart drun rest3 j).takeWhile isTChar).length = some n := by
  unfold domTry at h
  split at h
  · split at h
    · next n' hn' =>
      simp only [Option.some.injEq, Prod.mk.injEq] at h
      rw [hn', h.2]
    · exact absurd h (by simp)
  · exact absurd h (by simp)

theorem emailTry_some_boundary {b : Bool} {l m r : List Char}
    (h : emailTry b l = some (m, r)) :
    boundaryBetween m.getLast? r.head? = true := by
  cases l with
  | nil => exact absurd h (by simp [emailTry])
  | cons c cs =>
    obtain ⟨rest2, j, n, -, -, -, hdom, hm, hr⟩ := emailTry_some_decomp h
    obtain ⟨htry, -⟩ := domGo_some_try hdom
    have htld := domTry_tldGo htry
    obtain ⟨hn2, hnle, hbnd⟩ := tldGo_some_cond htld
    have hmlast : m.getLast?
        = ((tldPart (rest2.takeWhile isDChar)
            (rest2.dropWhile isDChar) j).takeWhile isTChar).get? (n - 1) := by
      rw [hm, List.getLast?_append_of_ne_nil _ (by simp),
        getLast?_cons_ne (by simp),
        List.getLast?_append_of_ne_nil _ (by simp),
        getLast?_cons_ne (by
          intro hnil
          have := congrArg List.length hnil
          rw [List.length_take] at this
          simp only [List.length_nil] at this
          omega),
        getLast?_take (by omega) hnle]
    have hrhead : r.head?
        = charAt ((tldPart (rest2.takeWhile isDChar)
              (rest2.dropWhile isDChar) j).takeWhile isTChar)
            ((tldPart (rest2.takeWhile isDChar)
              (rest2.dropWhile isDChar) j).dropWhile isTChar) n := by
      rw [hr, List.head?_append, head?_drop]
      unfold charAt
      cases hg : ((tldPart (rest2.takeWhile isDChar)
          (rest2.dropWhile isDChar) j).takeWhile isTChar).get? n with
      | some y => rfl
      | none =>
        have hgeq : n = ((tldPart (rest2.takeWhile isDChar)
            (rest2.dropWhile isDChar) j).takeWhile isTChar).length := by
          have := List.get?_eq_none.mp hg
          omega
        rw [hgeq, Nat.sub_self, get?_zero_head]
        rfl
    rw [hmlast, hrhead]
    exact hbnd

/-! Later scanners do not create SSN or long-id matches.  Their outputs
agree with their inputs up to the first fired match, where the master
lemmas apply. -/

theorem ssnTry_none_of_shape {c : Char} {u out : List Char}
    (hsh : out = u ∨ ∃ (pre mt r z : List Char) (mh : Char),
      u = pre ++ (mh :: mt) ++ r ∧ out = pre ++ '[' :: z ∧
      lastW (isWordChar c) pre ≠ isWordChar mh)
    (h : ssnTry (c :: u) = none) : ssnTry (c :: out) = none := by
  rcases hsh with rfl | ⟨pre, mt, r, z, mh, h1, h2, h3⟩
  · exact h
  · rw [h2]
    rw [h1] at h
    exact ssnTry_none_out h h3

theorem idInner_of_shape {c : Char} {u out : List Char}
    (hsh : out = u ∨ ∃ (pre mt r z : List Char) (mh : Char),
      u = pre ++ (mh :: mt) ++ r ∧ out = pre ++ '[' :: z ∧
      lastW (isWordChar c) pre ≠ isWordChar mh)
    (h : (10 ≤ ((c :: u).takeWhile Char.isDigit).length
        && ((c :: u).takeWhile Char.isDigit).length ≤ 16
        && afterBoundary ((c :: u).dropWhile Char.isDigit)) = false) :
    (10 ≤ ((c :: out).takeWhile Char.isDigit).length
        && ((c :: out).takeWhile Char.isDigit).length ≤ 16
        && afterBoundary ((c :: out).dropWhile Char.isDigit)) = false := by
  rcases hsh with rfl | ⟨pre, mt, r, z, mh, h1, h2, h3⟩
  · exact h
  · rw [h2]
    rw [h1] at h
    exact idInner_out h h3

theorem emailAux_cons_some_last {b : Bool} {c d : Char} {cs m r : List Char}
    (h : emailTry b (c :: cs) = some (m, r)) (hd : m.getLast? = some d) :
    emailAux b (c :: cs) = EMAIL_TOKEN ++ emailAux (isWordChar d) r := by
  rw [emailAux]
  split
  · next m' r' heq =>
    rw [h] at heq
    simp only [Option.some.injEq, Prod.mk.injEq] at heq
    obtain ⟨rfl, rfl⟩ := heq
    rw [hd]
  · next heq =>
    rw [h] at heq
    exact absurd heq (by simp)

/-- SSN-match absence is preserved by the long-id scanner. -/
theorem hasSSNOcc_idAux (l : List Char) (b : Bool)
    (h : hasSSNOcc b l = false) : hasSSNOcc b (idAux b l) = false := by
  have main : ∀ (n : Nat) (l : List Char) (b : Bool), l.length ≤ n →
      hasSSNOcc b l = false → hasSSNOcc b (idAux b l) = false := by
    intro n
    induction n with
    | zero =>
      intro l b hl _
      rw [List.length_eq_zero.mp (Nat.le_zero.mp hl)]
      simp [idAux, hasSSNOcc]
    | succ n ihn =>
      intro l b hl h
      cases l with
      | nil => simp [idAux, hasSSNOcc]
      | cons c cs =>
        have hlcs : cs.length ≤ n := by
          simp only [List.length_cons] at hl
          omega
        have hparts : (!b && (ssnTry (c :: cs)).isSome) = false
            ∧ hasSSNOcc (isWordChar c) cs = false := by
          have h' := h
          rw [hasSSNOcc] at h'
          exact Bool.or_eq_false_iff.mp h'
        by_cases hskip : b = true ∨ c.isDigit = false
        · rw [idAux_cons_skip cs hskip, hasSSNOcc]
          refine Bool.or_eq_false_iff.mpr
            ⟨?_, ihn cs (isWordChar c) hlcs hparts.2⟩
          rcases hskip with hb | hcd
          · rw [hb]
            simp
          · rw [ssnTry_none_head hcd]
            simp
        · have hb : b = false := by
            rcases Bool.eq_false_or_eq_true b with h' | h'
            · exact absurd (Or.inl h') hskip
            · exact h'
          have hc : c.isDigit = true := by
            rcases Bool.eq_false_or_eq_true c.isDigit with h' | h'
            · exact h'
            · exact absurd (Or.inr h') hskip
          subst hb
          have hnone : ssnTry (c :: cs) = none := by
            cases hfi : ssnTry (c :: cs) with
            | none => rfl
            | some mr =>
              rw [hfi] at hparts
              simp at hparts
          have hlrest : ((c :: cs).dropWhile Char.isDigit).length ≤ n := by
            rw [List.dropWhile_cons_of_pos hc]
            have := length_dropWhile_le Char.isDigit cs
            simp only [List.length_cons] at hl
            omega
          have hrun : (c :: cs).takeWhile Char.isDigit
              = c :: cs.takeWhile Char.isDigit := List.takeWhile_cons_of_pos hc
          have hrunw : ∀ x ∈ (c :: cs).takeWhile Char.isDigit,
              isWordChar x = true :=
            fun x hx => digit_word (List.mem_takeWhile_imp hx)
          have hsuf : hasSSNOcc true ((c :: cs).dropWhile Char.isDigit) = false := by
            have hdec : c :: cs = (c :: cs).takeWhile Char.isDigit
                ++ (c :: cs).dropWhile Char.isDigit :=
              (List.takeWhile_append_dropWhile _ _).symm
            have := hasSSNOcc_suffix ((c :: cs).takeWhile Char.isDigit)
              ((c :: cs).dropWhile Char.isDigit) false (by rw [← hdec]; exact h)
            rwa [lastW_all_word (by rw [hrun]; simp) hrunw] at this
          have ihr := ihn ((c :: cs).dropWhile Char.isDigit) true hlrest hsuf
          by_cases hcond : (10 ≤ ((c :: cs).takeWhile Char.isDigit).length
              && ((c :: cs).takeWhile Char.isDigit).length ≤ 16
              && afterBoundary ((c :: cs).dropWhile Char.isDigit)) = true
          · -- fire
            rw [idAux_cons_fire hc hcond,
              hasSSNOcc_nodigit_append ID_TOKEN (by decide) _ false]
            have hlast : lastW false ID_TOKEN = false := by decide
            rw [hlast]
            have hab : afterBoundary ((c :: cs).dropWhile Char.isDigit) = true := by
              simp only [Bool.and_eq_true] at hcond
              exact hcond.2
            cases hr' : (c :: cs).dropWhile Char.isDigit with
            | nil => simp [idAux, hasSSNOcc]
            | cons r0 rs =>
              rw [hr'] at ihr hab
              have hw : isWordChar r0 = false := by
                rw [afterBoundary] at hab
                revert hab
                cases isWordChar r0 <;> simp
              rw [idAux_cons_skip rs (Or.inl rfl)] at ihr ⊢
              rw [hasSSNOcc_cons_nodigit (word_not_digit hw)]
              rw [hasSSNOcc] at ihr
              simp only [Bool.not_true, Bool.false_and, Bool.false_or] at ihr
              exact ihr
          · -- keep
            have hcondf : (10 ≤ ((c :: cs).takeWhile Char.isDigit).length
                && ((c :: cs).takeWhile Char.isDigit).length ≤ 16
                && afterBoundary ((c :: cs).dropWhile Char.isDigit)) = false := by
              rcases Bool.eq_false_or_eq_true (10 ≤ ((c :: cs).takeWhile
                  Char.isDigit).length
                  && ((c :: cs).takeWhile Char.isDigit).length ≤ 16
                  && afterBoundary ((c :: cs).dropWhile Char.isDigit)) with h' | h'
              · exact absurd h' hcond
              · exact h'
            rw [idAux_cons_keep hc hcondf, hrun, List.cons_append, hasSSNOcc]
            refine Bool.or_eq_false_iff.mpr ⟨?_, ?_⟩
            · -- no SSN match can start at the head of the kept run
              have hlastrun : lastW (isWordChar c) (cs.takeWhile Char.isDigit)
                  = true := by
                cases htt : cs.takeWhile Char.isDigit with
                | nil =>
                  show isWordChar c = true
                  exact digit_word hc
                | cons t0 ts =>
                  refine lastW_all_word (by simp) ?_
                  intro x hx
                  refine digit_word (List.mem_takeWhile_imp (l := cs) ?_)
                  rw [htt]
                  exact hx
              have hcseq : cs = cs.takeWhile Char.isDigit
                  ++ (c :: cs).dropWhile Char.isDigit := by
                rw [List.dropWhile_cons_of_pos hc]
                exact (List.takeWhile_append_dropWhile _ _).symm
              have hskipnone : ssnTry (c :: (cs.takeWhile Char.isDigit
                  ++ idAux true ((c :: cs).dropWhile Char.isDigit))) = none := by
                rcases idAux_shape ((c :: cs).dropWhile Char.isDigit) true with
                  hsame | ⟨p', mt, rr, z, mh, h1, h2, h3⟩
                · rw [hsame, ← hcseq]
                  exact hnone
                · rw [h2, ← List.append_assoc]
                  have hnone' : ssnTry (c :: ((cs.takeWhile Char.isDigit ++ p')
                      ++ (mh :: mt) ++ rr)) = none := by
                    have hlists : (cs.takeWhile Char.isDigit ++ p')
                        ++ (mh :: mt) ++ rr = cs := by
                      conv_rhs => rw [hcseq, h1]
                      simp [List.append_assoc]
                    rw [hlists]
                    exact hnone
                  refine ssnTry_none_out hnone' ?_
                  rw [lastW_append, hlastrun]
                  exact h3
              rw [hskipnone]
              simp
            · rw [digit_word hc, hasSSNOcc_wordrun _
                (fun x hx => digit_word (List.mem_takeWhile_imp hx))]
              exact ihr
  exact main l.length l b (Nat.le_refl _) h

/-- SSN-match absence is preserved by the email scanner. -/
theorem hasSSNOcc_emailAux (l : List Char) (b : Bool)
    (h : hasSSNOcc b l = false) : hasSSNOcc b (emailAux b l) = false := by
  have main : ∀ (n : Nat) (l : List Char) (b : Bool), l.length ≤ n →
      hasSSNOcc b l = false → hasSSNOcc b (emailAux b l) = false := by
    intro n
    induction n with
    | zero =>
      intro l b hl _
      rw [List.length_eq_zero.mp (Nat.le_zero.mp hl)]
      simp [emailAux, hasSSNOcc]
    | succ n ihn =>
      intro l b hl h
      cases l with
      | nil => simp [emailAux, hasSSNOcc]
      | cons c cs =>
        have hlcs : cs.length ≤ n := by
          simp only [List.length_cons] at hl
          omega
        have hparts : (!b && (ssnTry (c :: cs)).isSome) = false
            ∧ hasSSNOcc (isWordChar c) cs = false := by
          have h' := h
          rw [hasSSNOcc] at h'
          exact Bool.or_eq_false_iff.mp h'
        cases hfire : emailTry b (c :: cs) with
        | none =>
          rw [emailAux_cons_none hfire, hasSSNOcc]
          refine Bool.or_eq_false_iff.mpr
            ⟨?_, ihn cs (isWordChar c) hlcs hparts.2⟩
          rcases Bool.eq_false_or_eq_true b with hb | hb
          · rw [hb]
            simp
          · rw [hb] at hparts
            have hnone : ssnTry (c :: cs) = none := by
              cases hfi : ssnTry (c :: cs) with
              | none => rfl
              | some mr =>
                rw [hfi] at hparts
                simp at hparts
            rw [hb, ssnTry_none_of_shape (emailAux_shape cs (isWordChar c)) hnone]
            simp
        | some mr =>
          obtain ⟨m, r⟩ := mr
          have hmne : m ≠ [] := (emailTry_some hfire).1
          have hmr : m ++ r = c :: cs := (emailTry_some hfire).2
          obtain ⟨d, hd⟩ :=
            Option.isSome_iff_exists.mp (List.getLast?_isSome.mpr hmne)
          rw [emailAux_cons_some_last hfire hd,
            hasSSNOcc_nodigit_append EMAIL_TOKEN (by decide) _ b]
          have hlast : ∀ b' : Bool, lastW b' EMAIL_TOKEN = false := by decide
          rw [hlast b]
          have hlr : r.length ≤ n := by
            have := emailTry_length hfire
            simp only [List.length_cons] at this hl
            omega
          have hsuf : hasSSNOcc (isWordChar d) r = false := by
            have := hasSSNOcc_suffix m r b (by rw [hmr]; exact h)
            rwa [lastW_nonempty hd] at this
          have ihr := ihn r (isWordChar d) hlr hsuf
          cases hwd : isWordChar d with
          | false => rw [hwd] at ihr; exact ihr
          | true =>
            have hbnd := emailTry_some_boundary hfire
            rw [boundaryBetween_wOpt, hd] at hbnd
            have hrh : wOpt r.head? = false := by
              rw [show wOpt (some d) = isWordChar d from rfl, hwd] at hbnd
              revert hbnd
              cases wOpt r.head? <;> simp
            rw [hwd] at ihr
            cases hr' : r with
            | nil => simp [emailAux, hasSSNOcc]
            | cons r0 rs =>
              rw [hr'] at ihr hrh
              have hw0 : isWordChar r0 = false := hrh
              cases hfire2 : emailTry true (r0 :: rs) with
              | none =>
                rw [emailAux_cons_none hfire2] at ihr ⊢
                rw [hasSSNOcc_cons_nodigit (word_not_digit hw0)]
                rw [hasSSNOcc] at ihr
                simp only [Bool.not_true, Bool.false_and, Bool.false_or] at ihr
                exact ihr
              | some mr2 =>
                obtain ⟨m2, r2⟩ := mr2
                obtain ⟨w2, hw2⟩ := emailAux_cons_some hfire2
                rw [hw2] at ihr ⊢
                rw [hasSSNOcc_nodigit_append EMAIL_TOKEN (by decide) _ true,
                  hlast true] at ihr
                rw [hasSSNOcc_nodigit_append EMAIL_TOKEN (by decide) _ false,
                  hlast false]
                exact ihr
  exact main l.length l b (Nat.le_refl _) h

/-- Long-id-match absence is preserved by the email scanner. -/
theorem hasIDOcc_emailAux (l : List Char) (b : Bool)
    (h : hasIDOcc b l = false) : hasIDOcc b (emailAux b l) = false := by
  have main : ∀ (n : Nat) (l : List Char) (b : Bool), l.length ≤ n →
      hasIDOcc b l = false → hasIDOcc b (emailAux b l) = false := by
    intro n
    induction n with
    | zero =>
      intro l b hl _
      rw [List.length_eq_zero.mp (Nat.le_zero.mp hl)]
      simp [emailAux, hasIDOcc]
    | succ n ihn =>
      intro l b hl h
      cases l with
      | nil => simp [emailAux, hasIDOcc]
      | cons c cs =>
        have hlcs : cs.length ≤ n := by
          simp only [List.length_cons] at hl
          omega
        have hparts : (!b && c.isDigit
            && (10 ≤ ((c :: cs).takeWhile Char.isDigit).length
              && ((c :: cs).takeWhile Char.isDigit).length ≤ 16
              && afterBoundary ((c :: cs).dropWhile Char.isDigit))) = false
            ∧ hasIDOcc (isWordChar c) cs = false := by
          have h' := h
          rw [hasIDOcc] at h'
          exact Bool.or_eq_false_iff.mp h'
        cases hfire : emailTry b (c :: cs) with
        | none =>
          rw [emailAux_cons_none hfire, hasIDOcc]
          refine Bool.or_eq_false_iff.mpr
            ⟨?_, ihn cs (isWordChar c) hlcs hparts.2⟩
          rcases Bool.eq_false_or_eq_true b with hb | hb
          · rw [hb]
            simp
          · rcases Bool.eq_false_or_eq_true c.isDigit with hcd | hcd
            · have hX : (10 ≤ ((c :: cs).takeWhile Char.isDigit).length
                  && ((c :: cs).takeWhile Char.isDigit).length ≤ 16
                  && afterBoundary ((c :: cs).dropWhile Char.isDigit)) = false := by
                have h1 := hparts.1
                rw [hb, hcd] at h1
                simpa using h1
              rw [hb, hcd,
                idInner_of_shape (emailAux_shape cs (isWordChar c)) hX]
              simp
            · rw [hcd]
              simp
        | some mr =>
          obtain ⟨m, r⟩ := mr
          have hmne : m ≠ [] := (emailTry_some hfire).1
          have hmr : m ++ r = c :: cs := (emailTry_some hfire).2
          obtain ⟨d, hd⟩ :=
            Option.isSome_iff_exists.mp (List.getLast?_isSome.mpr hmne)
          rw [emailAux_cons_some_last hfire hd,
            hasIDOcc_nodigit_append EMAIL_TOKEN (by decide) _ b]
          have hlast : ∀ b' : Bool, lastW b' EMAIL_TOKEN = false := by decide
          rw [hlast b]
          have hlr : r.length ≤ n := by
            have := emailTry_length hfire
            simp only [List.length_cons] at this hl
            omega
          have hsuf : hasIDOcc (isWordChar d) r = false := by
            have := hasIDOcc_suffix m r b (by rw [hmr]; exact h)
            rwa [lastW_nonempty hd] at this
          have ihr := ihn r (isWordChar d) hlr hsuf
          cases hwd : isWordChar d with
          | false => rw [hwd] at ihr; exact ihr
          | true =>
            have hbnd := emailTry_some_boundary hfire
            rw [boundaryBetween_wOpt, hd] at hbnd
            have hrh : wOpt r.head? = false := by
              rw [show wOpt (some d) = isWordChar d from rfl, hwd] at hbnd
              revert hbnd
              cases wOpt r.head? <;> simp
            rw [hwd] at ihr
            cases hr' : r with
            | nil => simp [emailAux, hasIDOcc]
            | cons r0 rs =>
              rw [hr'] at ihr hrh
              have hw0 : isWordChar r0 = false := hrh
              cases hfire2 : emailTry true (r0 :: rs) with
              | none =>
                rw [emailAux_cons_none hfire2] at ihr ⊢
                rw [hasIDOcc_cons_nodigit (word_not_digit hw0)]
                rw [hasIDOcc] at ihr
                simp only [Bool.not_true, Bool.false_and, Bool.false_or] at ihr
                exact ihr
              | some mr2 =>
                obtain ⟨m2, r2⟩ := mr2
                obtain ⟨w2, hw2⟩ := emailAux_cons_some hfire2
                rw [hw2] at ihr ⊢
                rw [hasIDOcc_nodigit_append EMAIL_TOKEN (by decide) _ true,
                  hlast true] at ihr
                rw [hasIDOcc_nodigit_append EMAIL_TOKEN (by decide) _ false,
                  hlast false]
                exact ihr
  exact main l.length l b (Nat.le_refl _) h

/-! Transfer of a successful TLD search across the replacement of the
fired-match region by a bracket.  The two strings agree on the prefix `P`;
the word-status of the divergence character is controlled by the fired
match's leading boundary. -/

theorem tldGo_transfer {P z w : List Char} {mh : Char} {pw0 : Bool} {nX : Nat}
    (hX : tldGo ((P ++ '[' :: z).takeWhile isTChar)
      ((P ++ '[' :: z).dropWhile isTChar)
      ((P ++ '[' :: z).takeWhile isTChar).length = some nX)
    (hPlast : ∀ d, P.getLast? = some d → isWordChar d = pw0)
    (hmh : isWordChar mh = !pw0) :
    (tldGo ((P ++ mh :: w).takeWhile isTChar)
      ((P ++ mh :: w).dropWhile isTChar)
      ((P ++ mh :: w).takeWhile isTChar).length).isSome = true := by
  by_cases hstop : P.dropWhile isTChar = []
  · -- the whole prefix is TLD material; the searches may diverge at its end
    obtain ⟨htX, hdX⟩ := takeWhile_append_all isTChar P ('[' :: z) hstop
    rw [show ('[' :: z).takeWhile isTChar = []
        from List.takeWhile_cons_of_neg (by decide), List.append_nil] at htX
    rw [show ('[' :: z).dropWhile isTChar = '[' :: z
        from List.dropWhile_cons_of_neg (by decide)] at hdX
    rw [htX, hdX] at hX
    obtain ⟨hn2, hnle, hbnd⟩ := tldGo_some_cond hX
    obtain ⟨htY, hdY⟩ := takeWhile_append_all isTChar P (mh :: w) hstop
    rw [htY, hdY]
    refine tldGo_isSome_of_cond _ nX (by rw [List.length_append]; omega) hn2
      (by rw [List.length_append]; omega) ?_
    have hg1 : (P ++ (mh :: w).takeWhile isTChar).get? (nX - 1) = P.get? (nX - 1) :=
      List.get?_append (by omega)
    rw [hg1]
    rcases Nat.lt_or_ge nX P.length with hlt | hge
    · obtain ⟨y, hy⟩ : ∃ y, P.get? nX = some y := by
        cases hpp : P.get? nX with
        | none =>
          have := List.get?_eq_none.mp hpp
          omega
        | some y => exact ⟨y, rfl⟩
      have hcX : charAt P ('[' :: z) nX = some y := by
        unfold charAt
        rw [hy]
      have hcY : charAt (P ++ (mh :: w).takeWhile isTChar)
          ((mh :: w).dropWhile isTChar) nX = some y := by
        unfold charAt
        rw [List.get?_append hlt, hy]
      rw [hcY]
      rw [hcX] at hbnd
      exact hbnd
    · have hnXeq : nX = P.length := by omega
      have hcX : charAt P ('[' :: z) nX = some '[' := by
        unfold charAt
        rw [show P.get? nX = none from List.get?_eq_none.mpr (by omega),
          hnXeq, Nat.sub_self]
        rfl
      rw [hcX, boundaryBetween_wOpt] at hbnd
      have hwP : wOpt (P.get? (nX - 1)) = true := by
        revert hbnd
        rw [show wOpt (some '[') = false from by decide]
        cases wOpt (P.get? (nX - 1)) <;> simp
      obtain ⟨dP, hdP⟩ : ∃ dP, P.get? (nX - 1) = some dP := by
        cases hpp : P.get? (nX - 1) with
        | none =>
          rw [hpp] at hwP
          exact absurd hwP (by simp [wOpt])
        | some dP => exact ⟨dP, rfl⟩
      have hWdP : isWordChar dP = true := by
        rw [hdP] at hwP
        exact hwP
      have hglP : P.getLast? = some dP := by
        rw [List.getLast?_eq_get?, show P.length - 1 = nX - 1 from by omega]
        exact hdP
      have hpw : pw0 = true := by
        rw [← hPlast dP hglP]
        exact hWdP
      have hmhf : isWordChar mh = false := by
        rw [hmh, hpw]
        rfl
      have hcY : charAt (P ++ (mh :: w).takeWhile isTChar)
          ((mh :: w).dropWhile isTChar) nX = some mh := by
        cases hT : isTChar mh with
        | true =>
          rw [show (mh :: w).takeWhile isTChar = mh :: w.takeWhile isTChar
              from List.takeWhile_cons_of_pos hT]
          unfold charAt
          rw [show (P ++ mh :: w.takeWhile isTChar).get? nX = some mh from by
            rw [List.get?_append_right (by omega), hnXeq, Nat.sub_self]
            rfl]
        | false =>
          rw [show (mh :: w).takeWhile isTChar = []
              from List.takeWhile_cons_of_neg (by simp [hT]), List.append_nil,
            show (mh :: w).dropWhile isTChar = mh :: w
              from List.dropWhile_cons_of_neg (by simp [hT])]
          unfold charAt
          rw [show P.get? nX = none from List.get?_eq_none.mpr (by omega),
            hnXeq, Nat.sub_self]
          rfl
      rw [hcY, boundaryBetween_wOpt, hdP,
        show wOpt (some dP) = isWordChar dP from rfl, hWdP,
        show wOpt (some mh) = isWordChar mh from rfl, hmhf]
      rfl
  · -- the TLD run stops inside the shared prefix: both searches agree
    obtain ⟨htX, hdX⟩ := takeWhile_append_stop isTChar P ('[' :: z) hstop
    obtain ⟨htY, hdY⟩ := takeWhile_append_stop isTChar P (mh :: w) hstop
    rw [htX, hdX] at hX
    rw [htY, hdY]
    obtain ⟨e0, et, he⟩ : ∃ e0 et, P.dropWhile isTChar = e0 :: et := by
      cases hdd : P.dropWhile isTChar with
      | nil => exact absurd hdd hstop
      | cons e0 et => exact ⟨e0, et, rfl⟩
    have hcg := @tldGo_congr (P.takeWhile isTChar)
      (P.dropWhile isTChar ++ mh :: w)
      (P.dropWhile isTChar ++ '[' :: z)
      (by rw [he]; rfl)
    rw [hcg ((P.takeWhile isTChar).length), hX]
    rfl

/-- Transfer of a successful domain search (dot position and TLD) across
the replacement of the fired-match region by a bracket.  `B` is the shared
part of the string after the `@`. -/
theorem domGo_transfer {B z w : List Char} {mh : Char} {pw0 : Bool} {j nX : Nat}
    (hX : domGo ((B ++ '[' :: z).takeWhile isDChar)
      ((B ++ '[' :: z).dropWhile isDChar)
      ((B ++ '[' :: z).takeWhile isDChar).length = some (j, nX))
    (hBlast : ∀ d, B.getLast? = some d → isWordChar d = pw0)
    (hmh : isWordChar mh = !pw0) :
    (domGo ((B ++ mh :: w).takeWhile isDChar)
      ((B ++ mh :: w).dropWhile isDChar)
      ((B ++ mh :: w).takeWhile isDChar).length).isSome = true := by
  obtain ⟨htryX, hjf⟩ := domGo_some_try hX
  obtain ⟨-, hdot, hj1⟩ := domTry_some htryX
  have htldX := domTry_tldGo htryX
  by_cases hstopD : B.dropWhile isDChar = []
  · -- `B` is all domain material; the bracket ends the domain run exactly
    -- where the fired match began
    obtain ⟨htX, hdX⟩ := takeWhile_append_all isDChar B ('[' :: z) hstopD
    rw [show ('[' :: z).takeWhile isDChar = []
        from List.takeWhile_cons_of_neg (by decide), List.append_nil] at htX
    rw [show ('[' :: z).dropWhile isDChar = '[' :: z
        from List.dropWhile_cons_of_neg (by decide)] at hdX
    rw [htX] at hdot hjf htldX
    rw [hdX] at htldX
    have hPlast : ∀ d, (B.drop (j + 1)).getLast? = some d → isWordChar d = pw0 := by
      intro d hPd
      have hBne : B.drop (j + 1) ≠ [] := by
        intro hnil
        rw [hnil] at hPd
        exact absurd hPd (by simp)
      refine hBlast d ?_
      conv_lhs => rw [← List.take_append_drop (j + 1) B]
      rw [List.getLast?_append_of_ne_nil _ hBne]
      exact hPd
    cases hDmh : isDChar mh with
    | false =>
      obtain ⟨htY, hdY⟩ := takeWhile_append_all isDChar B (mh :: w) hstopD
      rw [show (mh :: w).takeWhile isDChar = []
          from List.takeWhile_cons_of_neg (by simp [hDmh]), List.append_nil] at htY
      rw [show (mh :: w).dropWhile isDChar = mh :: w
          from List.dropWhile_cons_of_neg (by simp [hDmh])] at hdY
      rw [htY, hdY]
      have htldY : (tldGo ((tldPart B (mh :: w) j).takeWhile isTChar)
          ((tldPart B (mh :: w) j).dropWhile isTChar)
          ((tldPart B (mh :: w) j).takeWhile isTChar).length).isSome = true := by
        have hPY : tldPart B (mh :: w) j = B.drop (j + 1) ++ mh :: w := rfl
        have hPX : tldPart B ('[' :: z) j = B.drop (j + 1) ++ '[' :: z := rfl
        rw [hPX] at htldX
        rw [hPY]
        exact tldGo_transfer htldX hPlast hmh
      obtain ⟨nY, hnY⟩ := Option.isSome_iff_exists.mp htldY
      have htryY : domTry B (mh :: w) j = some (j, nY) := by
        unfold domTry
        rw [if_pos (by rw [hdot]; simp [hj1]), hnY]
      exact domGo_isSome_of_try htryY hjf
    | true =>
      obtain ⟨htY, hdY⟩ := takeWhile_append_all isDChar B (mh :: w) hstopD
      rw [show (mh :: w).takeWhile isDChar = mh :: w.takeWhile isDChar
          from List.takeWhile_cons_of_pos hDmh] at htY
      rw [show (mh :: w).dropWhile isDChar = w.dropWhile isDChar
          from List.dropWhile_cons_of_pos hDmh] at hdY
      rw [htY, hdY]
      have hjB : j + 1 ≤ B.length := hjf
      have htldY : (tldGo ((tldPart (B ++ mh :: w.takeWhile isDChar)
            (w.dropWhile isDChar) j).takeWhile isTChar)
          ((tldPart (B ++ mh :: w.takeWhile isDChar)
            (w.dropWhile isDChar) j).dropWhile isTChar)
          ((tldPart (B ++ mh :: w.takeWhile isDChar)
            (w.dropWhile isDChar) j).takeWhile isTChar).length).isSome = true := by
        have hPY : tldPart (B ++ mh :: w.takeWhile isDChar)
            (w.dropWhile isDChar) j = B.drop (j + 1) ++ mh :: w := by
          unfold tldPart
          rw [List.drop_append_of_le_length hjB, List.append_assoc]
          simp only [List.cons_append]
          rw [List.takeWhile_append_dropWhile]
        have hPX : tldPart B ('[' :: z) j = B.drop (j + 1) ++ '[' :: z := rfl
        rw [hPX] at htldX
        rw [hPY]
        exact tldGo_transfer htldX hPlast hmh
      obtain ⟨nY, hnY⟩ := Option.isSome_iff_exists.mp htldY
      have htryY : domTry (B ++ mh :: w.takeWhile isDChar)
          (w.dropWhile isDChar) j = some (j, nY) := by
        unfold domTry
        rw [if_pos (by rw [List.get?_append (by omega), hdot]; simp [hj1]), hnY]
      refine domGo_isSome_of_try htryY ?_
      rw [List.length_append]
      omega
  · -- the domain run stops inside `B`: the dot candidates agree, and the
    -- TLD search after the shared dot transfers
    obtain ⟨htX, hdX⟩ := takeWhile_append_stop isDChar B ('[' :: z) hstopD
    obtain ⟨htY, hdY⟩ := takeWhile_append_stop isDChar B (mh :: w) hstopD
    rw [htX] at hdot hjf htldX
    rw [hdX] at htldX
    rw [htY, hdY]
    obtain ⟨e0, et, he⟩ : ∃ e0 et, B.dropWhile isDChar = e0 :: et := by
      cases hdd : B.dropWhile isDChar with
      | nil => exact absurd hdd hstopD
      | cons e0 et => exact ⟨e0, et, rfl⟩
    have hPlast : ∀ d, ((B.takeWhile isDChar).drop (j + 1)
        ++ B.dropWhile isDChar).getLast? = some d → isWordChar d = pw0 := by
      intro d hPd
      rw [List.getLast?_append_of_ne_nil _ hstopD] at hPd
      refine hBlast d ?_
      conv_lhs => rw [← List.takeWhile_append_dropWhile isDChar B]
      rw [List.getLast?_append_of_ne_nil _ hstopD]
      exact hPd
    have htldY : (tldGo ((tldPart (B.takeWhile isDChar)
          (B.dropWhile isDChar ++ mh :: w) j).takeWhile isTChar)
        ((tldPart (B.takeWhile isDChar)
          (B.dropWhile isDChar ++ mh :: w) j).dropWhile isTChar)
        ((tldPart (B.takeWhile isDChar)
          (B.dropWhile isDChar ++ mh :: w) j).takeWhile isTChar).length).isSome
        = true := by
      have hPY : tldPart (B.takeWhile isDChar) (B.dropWhile isDChar ++ mh :: w) j
          = ((B.takeWhile isDChar).drop (j + 1) ++ B.dropWhile isDChar)
            ++ mh :: w := by
        unfold tldPart
        rw [List.append_assoc]
      have hPX : tldPart (B.takeWhile isDChar) (B.dropWhile isDChar ++ '[' :: z) j
          = ((B.takeWhile isDChar).drop (j + 1) ++ B.dropWhile isDChar)
            ++ '[' :: z := by
        unfold tldPart
        rw [List.append_assoc]
      rw [hPX] at htldX
      rw [hPY]
      exact tldGo_transfer htldX hPlast hmh
    obtain ⟨nY, hnY⟩ := Option.isSome_iff_exists.mp htldY
    have htryY : domTry (B.takeWhile isDChar)
        (B.dropWhile isDChar ++ mh :: w) j = some (j, nY) := by
      unfold domTry
      rw [if_pos (by rw [hdot]; simp [hj1]), hnY]
    exact domGo_isSome_of_try htryY hjf

/-- Forward evaluation of `emailTry` from its intermediate pieces. -/
theorem emailTry_eq_of_pieces {b : Bool} {c : Char} {cs rest2 : List Char}
    {j n : Nat}
    (hb : (b == isWordChar c) = false)
    (hLc : isLChar c = true)
    (hdrop : (c :: cs).dropWhile isLChar = '@' :: rest2)
    (hdom : domGo (rest2.takeWhile isDChar) (rest2.dropWhile isDChar)
      (rest2.takeWhile isDChar).length = some (j, n)) :
    emailTry b (c :: cs)
      = some ((c :: cs).takeWhile isLChar
            ++ '@' :: ((rest2.takeWhile isDChar).take j
            ++ '.' :: (((tldPart (rest2.takeWhile isDChar)
                (rest2.dropWhile isDChar) j).takeWhile isTChar).take n)),
          ((tldPart (rest2.takeWhile isDChar)
              (rest2.dropWhile isDChar) j).takeWhile isTChar).drop n
            ++ (tldPart (rest2.takeWhile isDChar)
              (rest2.dropWhile isDChar) j).dropWhile isTChar) := by
  simp only [emailTry]
  rw [if_neg (by rw [hb]; exact Bool.false_ne_true)]
  rw [if_neg (by rw [List.takeWhile_cons_of_pos hLc]; simp)]
  rw [hdrop]
  show (match domGo (rest2.takeWhile isDChar) (rest2.dropWhile isDChar)
      (rest2.takeWhile isDChar).length with
    | some (j, n) =>
      some ((c :: cs).takeWhile isLChar
          ++ '@' :: ((rest2.takeWhile isDChar).take j
          ++ '.' :: (((tldPart (rest2.takeWhile isDChar)
              (rest2.dropWhile isDChar) j).takeWhile isTChar).take n)),
        ((tldPart (rest2.takeWhile isDChar)
            (rest2.dropWhile isDChar) j).takeWhile isTChar).drop n
          ++ (tldPart (rest2.takeWhile isDChar)
            (rest2.dropWhile isDChar) j).dropWhile isTChar)
    | none => none) = _
  rw [hdom]

/-- Master lemma for the email pattern: replacing the rest of the string
after a fired email match with a bracketed token cannot create an email
match at an earlier position. -/
theorem emailTry_none_out {b : Bool} {c mh : Char} {pre mt r z : List Char}
    (hin : emailTry b (c :: (pre ++ (mh :: mt) ++ r)) = none)
    (hbd : lastW (isWordChar c) pre ≠ isWordChar mh) :
    emailTry b (c :: (pre ++ '[' :: z)) = none := by
  cases hres : emailTry b (c :: (pre ++ '[' :: z)) with
  | none => rfl
  | some mr =>
    exfalso
    obtain ⟨m2, r2⟩ := mr
    obtain ⟨rest2X, j, nX, hbeq, hLc, hdropX, hdomX, -, -⟩ :=
      emailTry_some_decomp hres
    have hXshape : c :: (pre ++ '[' :: z) = (c :: pre) ++ '[' :: z := rfl
    have hstopL : (c :: pre).dropWhile isLChar ≠ [] := by
      intro hnil
      obtain ⟨-, hd⟩ := takeWhile_append_all isLChar (c :: pre) ('[' :: z) hnil
      rw [hXshape, hd] at hdropX
      rw [show ('[' :: z).dropWhile isLChar = '[' :: z
          from List.dropWhile_cons_of_neg (by decide)] at hdropX
      rw [List.cons.injEq] at hdropX
      exact absurd hdropX.1 (by decide)
    obtain ⟨htA_X, hdA_X⟩ := takeWhile_append_stop isLChar (c :: pre)
      ('[' :: z) hstopL
    obtain ⟨htA_Y, hdA_Y⟩ := takeWhile_append_stop isLChar (c :: pre)
      (mh :: (mt ++ r)) hstopL
    rw [hXshape, hdA_X] at hdropX
    obtain ⟨a0, B, hAB⟩ : ∃ a0 B, (c :: pre).dropWhile isLChar = a0 :: B := by
      cases hdd : (c :: pre).dropWhile isLChar with
      | nil => exact absurd hdd hstopL
      | cons a0 B => exact ⟨a0, B, rfl⟩
    rw [hAB, List.cons_append, List.cons.injEq] at hdropX
    obtain ⟨ha0, hrest2X⟩ := hdropX
    subst ha0
    rw [← hrest2X] at hdomX
    have hmh : isWordChar mh = !(lastW (isWordChar c) pre) := by
      cases hL : lastW (isWordChar c) pre with
      | false =>
        cases hW : isWordChar mh with
        | false =>
          rw [hL, hW] at hbd
          exact absurd rfl hbd
        | true => rfl
      | true =>
        cases hW : isWordChar mh with
        | false => rfl
        | true =>
          rw [hL, hW] at hbd
          exact absurd rfl hbd
    have hBlast : ∀ d, B.getLast? = some d →
        isWordChar d = lastW (isWordChar c) pre := by
      intro d hd
      have hBne : B ≠ [] := by
        intro h0
        rw [h0] at hd
        exact absurd hd (by simp)
      have hAlast : (c :: pre).getLast? = some d := by
        conv_lhs => rw [← List.takeWhile_append_dropWhile isLChar (c :: pre)]
        rw [hAB, List.getLast?_append_of_ne_nil _ (by simp),
          getLast?_cons_ne hBne]
        exact hd
      cases hpre : pre with
      | nil =>
        rw [hpre] at hAlast
        simp only [List.getLast?_singleton, Option.some.injEq] at hAlast
        show isWordChar d = lastW (isWordChar c) []
        show isWordChar d = isWordChar c
        rw [hAlast]
      | cons p ps =>
        rw [hpre] at hAlast
        rw [List.getLast?_cons_cons] at hAlast
        show isWordChar d = lastW (isWordChar c) (p :: ps)
        rw [lastW_nonempty hAlast]
    have hdomY := domGo_transfer (w := mt ++ r) hdomX hBlast hmh
    obtain ⟨⟨jY, nY⟩, hjn⟩ := Option.isSome_iff_exists.mp hdomY
    have hYshape : c :: (pre ++ (mh :: mt) ++ r)
        = (c :: pre) ++ (mh :: (mt ++ r)) := by
      simp [List.append_assoc]
    have hdY : (c :: (pre ++ (mh :: mt) ++ r)).dropWhile isLChar
        = '@' :: (B ++ mh :: (mt ++ r)) := by
      rw [hYshape, hdA_Y, hAB]
      rfl
    have hYeq := emailTry_eq_of_pieces hbeq hLc hdY hjn
    rw [hYeq] at hin
    exact absurd hin (by simp)

/-! The email scanner's output contains no email match. -/

theorem hasEmailOcc_cons_none {b : Bool} {x : Char} {t : List Char}
    (h : emailTry b (x :: t) = none) :
    hasEmailOcc b (x :: t) = hasEmailOcc (isWordChar x) t := by
  rw [hasEmailOcc, h]
  simp

theorem emailTry_none_eq {b : Bool} {c : Char} (cs : List Char)
    (h : b = isWordChar c) : emailTry b (c :: cs) = none := by
  simp only [emailTry]
  rw [if_pos (by rw [h]; simp)]

theorem hasEmailOcc_token (b : Bool) (t : List Char) :
    hasEmailOcc b (EMAIL_TOKEN ++ t) = hasEmailOcc false t := by
  have htok : EMAIL_TOKEN = ['[', 'R', 'E', 'D', 'A', 'C', 'T', 'E', 'D',
    '-', 'E', 'M', 'A', 'I', 'L', ']'] := by decide
  rw [htok]
  simp only [List.cons_append, List.nil_append]
  rw [hasEmailOcc_cons_none (emailTry_none_notL _ _ (by decide))]
  rw [show isWordChar '[' = false from by decide]
  have hR : emailTry false ('R' :: 'E' :: 'D' :: 'A' :: 'C' :: 'T' :: 'E'
      :: 'D' :: '-' :: 'E' :: 'M' :: 'A' :: 'I' :: 'L' :: ']' :: t) = none :=
    emailTry_none_blocked false 'R'
      ['E', 'D', 'A', 'C', 'T', 'E', 'D', '-', 'E', 'M', 'A', 'I', 'L'] t
      (by decide)
  rw [hasEmailOcc_cons_none hR]
  rw [show isWordChar 'R' = true from by decide]
  rw [hasEmailOcc_cons_none (emailTry_none_eq _ (by decide :
    true = isWordChar 'E'))]
  rw [show isWordChar 'E' = true from by decide]
  rw [hasEmailOcc_cons_none (emailTry_none_eq _ (by decide :
    true = isWordChar 'D'))]
  rw [show isWordChar 'D' = true from by decide]
  rw [hasEmailOcc_cons_none (emailTry_none_eq _ (by decide :
    true = isWordChar 'A'))]
  rw [show isWordChar 'A' = true from by decide]
  rw [hasEmailOcc_cons_none (emailTry_none_eq _ (by decide :
    true = isWordChar 'C'))]
  rw [show isWordChar 'C' = true from by decide]
  rw [hasEmailOcc_cons_none (emailTry_none_eq _ (by decide :
    true = isWordChar 'T'))]
  rw [show isWordChar 'T' = true from by decide]
  rw [hasEmailOcc_cons_none (emailTry_none_eq _ (by decide :
    true = isWordChar 'E'))]
  rw [show isWordChar 'E' = true from by decide]
  rw [hasEmailOcc_cons_none (emailTry_none_eq _ (by decide :
    true = isWordChar 'D'))]
  rw [show isWordChar 'D' = true from by decide]
  have hHy : emailTry true ('-' :: 'E' :: 'M' :: 'A' :: 'I' :: 'L'
      :: ']' :: t) = none :=
    emailTry_none_blocked true '-' ['E', 'M', 'A', 'I', 'L'] t (by decide)
  rw [hasEmailOcc_cons_none hHy]
  rw [show isWordChar '-' = false from by decide]
  have hE2 : emailTry false ('E' :: 'M' :: 'A' :: 'I' :: 'L'
      :: ']' :: t) = none :=
    emailTry_none_blocked false 'E' ['M', 'A', 'I', 'L'] t (by decide)
  rw [hasEmailOcc_cons_none hE2]
  rw [show isWordChar 'E' = true from by decide]
  rw [hasEmailOcc_cons_none (emailTry_none_eq _ (by decide :
    true = isWordChar 'M'))]
  rw [show isWordChar 'M' = true from by decide]
  rw [hasEmailOcc_cons_none (emailTry_none_eq _ (by decide :
    true = isWordChar 'A'))]
  rw [show isWordChar 'A' = true from by decide]
  rw [hasEmailOcc_cons_none (emailTry_none_eq _ (by decide :
    true = isWordChar 'I'))]
  rw [show isWordChar 'I' = true from by decide]
  rw [hasEmailOcc_cons_none (emailTry_none_eq _ (by decide :
    true = isWordChar 'L'))]
  rw [show isWordChar 'L' = true from by decide]
  rw [hasEmailOcc_cons_none (emailTry_none_notL _ _ (by decide))]
  rw [show isWordChar ']' = false from by decide]

/-- The email scanner's output contains no email match. -/
theorem hasEmailOcc_emailAux (l : List Char) (b : Bool) :
    hasEmailOcc b (emailAux b l) = false := by
  have main : ∀ (n : Nat) (l : List Char) (b : Bool), l.length ≤ n →
      hasEmailOcc b (emailAux b l) = false := by
    intro n
    induction n with
    | zero =>
      intro l b hl
      rw [List.length_eq_zero.mp (Nat.le_zero.mp hl)]
      simp [emailAux, hasEmailOcc]
    | succ n ihn =>
      intro l b hl
      cases l with
      | nil => simp [emailAux, hasEmailOcc]
      | cons c cs =>
        have hlcs : cs.length ≤ n := by
          simp only [List.length_cons] at hl
          omega
        cases hfire : emailTry b (c :: cs) with
        | none =>
          rw [emailAux_cons_none hfire, hasEmailOcc]
          refine Bool.or_eq_false_iff.mpr ⟨?_, ihn cs (isWordChar c) hlcs⟩
          rcases emailAux_shape cs (isWordChar c) with
            hout | ⟨pre, mt, r, z, mh, h1, h2, h3⟩
          · rw [hout, hfire]
            rfl
          · rw [h2]
            rw [h1] at hfire
            rw [emailTry_none_out hfire h3]
            rfl
        | some mr =>
          obtain ⟨m, r⟩ := mr
          have hmne : m ≠ [] := (emailTry_some hfire).1
          obtain ⟨d, hd⟩ :=
            Option.isSome_iff_exists.mp (List.getLast?_isSome.mpr hmne)
          rw [emailAux_cons_some_last hfire hd, hasEmailOcc_token]
          have hlr : r.length ≤ n := by
            have := emailTry_length hfire
            simp only [List.length_cons] at this hl
            omega
          have ihr := ihn r (isWordChar d) hlr
          cases hwd : isWordChar d with
          | false => rw [hwd] at ihr; exact ihr
          | true =>
            have hbnd := emailTry_some_boundary hfire
            rw [boundaryBetween_wOpt, hd] at hbnd
            have hrh : wOpt r.head? = false := by
              rw [show wOpt (some d) = isWordChar d from rfl, hwd] at hbnd
              revert hbnd
              cases wOpt r.head? <;> simp
            rw [hwd] at ihr
            cases hr' : r with
            | nil => simp [emailAux, hasEmailOcc]
            | cons r0 rs =>
              rw [hr'] at ihr hrh
              have hw0 : isWordChar r0 = false := hrh
              cases hfire2 : emailTry true (r0 :: rs) with
              | none =>
                rw [emailAux_cons_none hfire2] at ihr ⊢
                rw [hasEmailOcc_cons_none (emailTry_none_eq _ (by rw [hw0]))]
                rw [hasEmailOcc, Bool.or_eq_false_iff] at ihr
                exact ihr.2
              | some mr2 =>
                obtain ⟨m2, r2⟩ := mr2
                obtain ⟨w2, hw2⟩ := emailAux_cons_some hfire2
                rw [hw2] at ihr ⊢
                rw [hasEmailOcc_token] at ihr
                rw [hasEmailOcc_token]
                exact ihr
  exact main l.length l b (Nat.le_refl _)

/-! Trimming cannot create matches: dropping all-whitespace stretches at
either end of the string preserves match absence. -/

theorem ws_take_drop (p : Char → Bool) (hp : ∀ c, c.isWhitespace = true → p c = false)
    {w : List Char} (hws : ∀ c ∈ w, c.isWhitespace = true) :
    w.takeWhile p = [] ∧ w.dropWhile p = w := by
  cases w with
  | nil => exact ⟨rfl, rfl⟩
  | cons c0 w0 =>
    have h0 := hp c0 (hws c0 (by simp))
    exact ⟨List.takeWhile_cons_of_neg (by simp [h0]),
      List.dropWhile_cons_of_neg (by simp [h0])⟩

theorem afterBoundary_ws_append {r w : List Char} (hr : afterBoundary r = true)
    (hws : ∀ c ∈ w, c.isWhitespace = true) : afterBoundary (r ++ w) = true := by
  cases r with
  | nil =>
    cases w with
    | nil => rfl
    | cons c0 w0 =>
      show (!isWordChar c0) = true
      rw [wsChar_not_word (hws c0 (by simp))]
      rfl
  | cons r0 rr => exact hr

theorem hasSSNOcc_ws_prior : ∀ (w x : List Char),
    (∀ c ∈ w, c.isWhitespace = true) →
    hasSSNOcc false (w ++ x) = false → hasSSNOcc false x = false
  | [], _ => fun _ h => h
  | d :: w', x => by
    intro hws h
    rw [List.cons_append, hasSSNOcc, Bool.or_eq_false_iff] at h
    have hwd : isWordChar d = false := wsChar_not_word (hws d (by simp))
    rw [hwd] at h
    exact hasSSNOcc_ws_prior w' x (fun c hc => hws c (by simp [hc])) h.2

theorem hasIDOcc_ws_prior : ∀ (w x : List Char),
    (∀ c ∈ w, c.isWhitespace = true) →
    hasIDOcc false (w ++ x) = false → hasIDOcc false x = false
  | [], _ => fun _ h => h
  | d :: w', x => by
    intro hws h
    rw [List.cons_append, hasIDOcc, Bool.or_eq_false_iff] at h
    have hwd : isWordChar d = false := wsChar_not_word (hws d (by simp))
    rw [hwd] at h
    exact hasIDOcc_ws_prior w' x (fun c hc => hws c (by simp [hc])) h.2

theorem hasEmailOcc_ws_prior : ∀ (w x : List Char),
    (∀ c ∈ w, c.isWhitespace = true) →
    hasEmailOcc false (w ++ x) = false → hasEmailOcc false x = false
  | [], _ => fun _ h => h
  | d :: w', x => by
    intro hws h
    rw [List.cons_append, hasEmailOcc, Bool.or_eq_false_iff] at h
    have hwd : isWordChar d = false := wsChar_not_word (hws d (by simp))
    rw [hwd] at h
    exact hasEmailOcc_ws_prior w' x (fun c hc => hws c (by simp [hc])) h.2

theorem hasSSNOcc_ws_append : ∀ (x : List Char) (b : Bool) {w : List Char},
    (∀ c ∈ w, c.isWhitespace = true) →
    hasSSNOcc b (x ++ w) = false → hasSSNOcc b x = false
  | [], _, _ => fun _ _ => rfl
  | c :: x', b, w => by
    intro hws h
    rw [List.cons_append, hasSSNOcc, Bool.or_eq_false_iff] at h
    rw [hasSSNOcc]
    refine Bool.or_eq_false_iff.mpr
      ⟨?_, hasSSNOcc_ws_append x' (isWordChar c) hws h.2⟩
    rcases Bool.eq_false_or_eq_true b with hb | hb
    · rw [hb]
      simp
    · rw [hb]
      cases hss : ssnTry (c :: x') with
      | none => simp
      | some mr =>
        exfalso
        obtain ⟨m, r⟩ := mr
        obtain ⟨heq, hm, hr⟩ := ssnTry_some_parts hss
        have hYeq : ssnTry (c :: (x' ++ w)) = some (m, r ++ w) := by
          have hY : c :: (x' ++ w) = m ++ (r ++ w) := by
            rw [← List.append_assoc, ← heq]
            rfl
          rw [hY]
          exact ssnTry_of_shape hm (afterBoundary_ws_append hr hws)
        rw [hb, hYeq] at h
        simp at h

theorem hasIDOcc_ws_append : ∀ (x : List Char) (b : Bool) {w : List Char},
    (∀ c ∈ w, c.isWhitespace = true) →
    hasIDOcc b (x ++ w) = false → hasIDOcc b x = false
  | [], _, _ => fun _ _ => rfl
  | c :: x', b, w => by
    intro hws h
    rw [List.cons_append, hasIDOcc, Bool.or_eq_false_iff] at h
    rw [hasIDOcc]
    refine Bool.or_eq_false_iff.mpr
      ⟨?_, hasIDOcc_ws_append x' (isWordChar c) hws h.2⟩
    have hinner : (10 ≤ ((c :: (x' ++ w)).takeWhile Char.isDigit).length
        && ((c :: (x' ++ w)).takeWhile Char.isDigit).length ≤ 16
        && afterBoundary ((c :: (x' ++ w)).dropWhile Char.isDigit))
        = (10 ≤ ((c :: x').takeWhile Char.isDigit).length
        && ((c :: x').takeWhile Char.isDigit).length ≤ 16
        && afterBoundary ((c :: x').dropWhile Char.isDigit)) := by
      have hshape : c :: (x' ++ w) = (c :: x') ++ w := rfl
      rw [hshape]
      by_cases hstop : (c :: x').dropWhile Char.isDigit = []
      · obtain ⟨htY, hdY⟩ := takeWhile_append_all Char.isDigit (c :: x') w hstop
        obtain ⟨hwt, hwd⟩ := ws_take_drop Char.isDigit
          (fun c h => wsChar_not_digit h) hws
        refine idInner_eq _ _ ?_ ?_
        · rw [htY, hwt, List.append_nil,
            takeWhile_of_all (dropWhile_nil_all hstop)]
        · rw [hdY, hwd, hstop]
          cases w with
          | nil => rfl
          | cons c0 w0 =>
            show wOpt (some c0) = wOpt none
            show isWordChar c0 = false
            exact wsChar_not_word (hws c0 (by simp))
      · obtain ⟨htY, hdY⟩ := takeWhile_append_stop Char.isDigit (c :: x') w hstop
        obtain ⟨d0, dt, hd0⟩ : ∃ d0 dt,
            (c :: x').dropWhile Char.isDigit = d0 :: dt := by
          cases hdd : (c :: x').dropWhile Char.isDigit with
          | nil => exact absurd hdd hstop
          | cons d0 dt => exact ⟨d0, dt, rfl⟩
        refine idInner_eq _ _ ?_ ?_
        · rw [htY]
        · rw [hdY, hd0]
          rfl
    rw [← hinner]
    exact h.1

theorem tldGo_ws_append {P w : List Char}
    (hws : ∀ c ∈ w, c.isWhitespace = true) :
    tldGo ((P ++ w).takeWhile isTChar) ((P ++ w).dropWhile isTChar)
      ((P ++ w).takeWhile isTChar).length
    = tldGo (P.takeWhile isTChar) (P.dropWhile isTChar)
      (P.takeWhile isTChar).length := by
  by_cases hstop : P.dropWhile isTChar = []
  · obtain ⟨htY, hdY⟩ := takeWhile_append_all isTChar P w hstop
    obtain ⟨hwt, hwd⟩ := ws_take_drop isTChar (fun c h => wsChar_notT h) hws
    rw [htY, hdY, hwt, List.append_nil, hwd,
      takeWhile_of_all (dropWhile_nil_all hstop), hstop]
    refine tldGo_congr ?_ _
    cases hw : w with
    | nil => rfl
    | cons c0 w0 =>
      show wOpt (some c0) = wOpt none
      show isWordChar c0 = false
      exact wsChar_not_word (hws c0 (by rw [hw]; simp))
  · obtain ⟨htY, hdY⟩ := takeWhile_append_stop isTChar P w hstop
    rw [htY, hdY]
    obtain ⟨e0, et, he⟩ : ∃ e0 et, P.dropWhile isTChar = e0 :: et := by
      cases hdd : P.dropWhile isTChar with
      | nil => exact absurd hdd hstop
      | cons e0 et => exact ⟨e0, et, rfl⟩
    refine tldGo_congr ?_ _
    rw [he]
    rfl

theorem domTry_ws_append {drun rest3 w : List Char}
    (hws : ∀ c ∈ w, c.isWhitespace = true) (j : Nat) :
    domTry drun (rest3 ++ w) j = domTry drun rest3 j := by
  unfold domTry
  have hP : tldPart drun (rest3 ++ w) j = (tldPart drun rest3 j) ++ w := by
    unfold tldPart
    rw [List.append_assoc]
  rw [hP, tldGo_ws_append hws]

theorem domGo_ws_append {drun rest3 w : List Char}
    (hws : ∀ c ∈ w, c.isWhitespace = true) :
    ∀ fuel, domGo drun (rest3 ++ w) fuel = domGo drun rest3 fuel
  | 0 => rfl
  | fuel + 1 => by
    rw [domGo, domGo, domTry_ws_append hws, domGo_ws_append hws fuel]

theorem emailTry_ws_some {b : Bool} {c : Char} {cs m r : List Char} {w : List Char}
    (hws : ∀ c ∈ w, c.isWhitespace = true)
    (h : emailTry b (c :: cs) = some (m, r)) :
    (emailTry b (c :: (cs ++ w))).isSome = true := by
  obtain ⟨rest2, j, n, hbeq, hLc, hdrop, hdom, -, -⟩ := emailTry_some_decomp h
  have hstopL : (c :: cs).dropWhile isLChar ≠ [] := by
    rw [hdrop]
    simp
  obtain ⟨htL, hdL⟩ := takeWhile_append_stop isLChar (c :: cs) w hstopL
  have hdropY : (c :: (cs ++ w)).dropWhile isLChar = '@' :: (rest2 ++ w) := by
    rw [show c :: (cs ++ w) = (c :: cs) ++ w from rfl, hdL, hdrop]
    rfl
  have hdomY : domGo ((rest2 ++ w).takeWhile isDChar)
      ((rest2 ++ w).dropWhile isDChar)
      ((rest2 ++ w).takeWhile isDChar).length = some (j, n) := by
    by_cases hstopD : rest2.dropWhile isDChar = []
    · obtain ⟨htD, hdD⟩ := takeWhile_append_all isDChar rest2 w hstopD
      obtain ⟨hwt, hwd⟩ := ws_take_drop isDChar (fun x hx => wsChar_notD hx) hws
      rw [htD, hdD, hwt, List.append_nil, hwd]
      have hgo := @domGo_ws_append rest2 [] w hws rest2.length
      rw [List.nil_append] at hgo
      rw [hgo]
      rw [takeWhile_of_all (dropWhile_nil_all hstopD), hstopD] at hdom
      exact hdom
    · obtain ⟨htD, hdD⟩ := takeWhile_append_stop isDChar rest2 w hstopD
      rw [htD, hdD, domGo_ws_append hws]
      exact hdom
  have hYeq := emailTry_eq_of_pieces hbeq hLc hdropY hdomY
  rw [hYeq]
  rfl

theorem hasEmailOcc_ws_append : ∀ (x : List Char) (b : Bool) {w : List Char},
    (∀ c ∈ w, c.isWhitespace = true) →
    hasEmailOcc b (x ++ w) = false → hasEmailOcc b x = false
  | [], _, _ => fun _ _ => rfl
  | c :: x', b, w => by
    intro hws h
    rw [List.cons_append, hasEmailOcc, Bool.or_eq_false_iff] at h
    rw [hasEmailOcc]
    refine Bool.or_eq_false_iff.mpr
      ⟨?_, hasEmailOcc_ws_append x' (isWordChar c) hws h.2⟩
    cases hss : emailTry b (c :: x') with
    | none => simp
    | some mr =>
      exfalso
      obtain ⟨m, r⟩ := mr
      have := emailTry_ws_some hws hss
      rw [this] at h
      exact absurd h.1 (by simp)

theorem dropWhile_eq_self_of_head (p : Char → Bool) {l : List Char}
    (h : ∀ c, l.head? = some c → p c = false) : l.dropWhile p = l := by
  cases l with
  | nil => rfl
  | cons c cs => exact List.dropWhile_cons_of_neg (by simp [h c rfl])

theorem trim_decomp (z : List Char) :
    ∃ wpre wsuf, z = wpre ++ trimChars z ++ wsuf
      ∧ (∀ c ∈ wpre, c.isWhitespace = true)
      ∧ (∀ c ∈ wsuf, c.isWhitespace = true) := by
  refine ⟨z.takeWhile Char.isWhitespace,
    ((z.dropWhile Char.isWhitespace).reverse.takeWhile Char.isWhitespace).reverse,
    ?_, ?_, ?_⟩
  · rw [List.append_assoc]
    conv_lhs => rw [← List.takeWhile_append_dropWhile Char.isWhitespace z]
    congr 1
    show z.dropWhile Char.isWhitespace
      = ((z.dropWhile Char.isWhitespace).reverse.dropWhile Char.isWhitespace).reverse
        ++ ((z.dropWhile Char.isWhitespace).reverse.takeWhile Char.isWhitespace).reverse
    rw [← List.reverse_append, List.takeWhile_append_dropWhile,
      List.reverse_reverse]
  · intro c hc
    exact List.mem_takeWhile_imp hc
  · intro c hc
    rw [List.mem_reverse] at hc
    exact List.mem_takeWhile_imp hc

theorem trimChars_idem (z : List Char) : trimChars (trimChars z) = trimChars z := by
  cases hvv : (z.dropWhile Char.isWhitespace).reverse.dropWhile Char.isWhitespace with
  | nil =>
    have htz : trimChars z = [] := by
      unfold trimChars
      rw [hvv]
      rfl
    rw [htz]
    rfl
  | cons v0 vt =>
    have hvhead : ∀ c,
        ((z.dropWhile Char.isWhitespace).reverse.dropWhile
          Char.isWhitespace).head? = some c → c.isWhitespace = false := by
      intro c hc
      exact head?_dropWhile_neg Char.isWhitespace hc
    have hudec : z.dropWhile Char.isWhitespace
        = ((z.dropWhile Char.isWhitespace).reverse.dropWhile
            Char.isWhitespace).reverse
          ++ ((z.dropWhile Char.isWhitespace).reverse.takeWhile
            Char.isWhitespace).reverse := by
      rw [← List.reverse_append, List.takeWhile_append_dropWhile,
        List.reverse_reverse]
    have hvrev_head : ∀ c,
        (((z.dropWhile Char.isWhitespace).reverse.dropWhile
          Char.isWhitespace).reverse).head? = some c → c.isWhitespace = false := by
      intro c hc
      have hne : ((z.dropWhile Char.isWhitespace).reverse.dropWhile
          Char.isWhitespace).reverse ≠ [] := by
        rw [hvv]
        simp
      have huh : (z.dropWhile Char.isWhitespace).head? = some c := by
        rw [hudec, List.head?_append, hc]
        rfl
      exact head?_dropWhile_neg Char.isWhitespace huh
    show trimChars (((z.dropWhile Char.isWhitespace).reverse.dropWhile
      Char.isWhitespace).reverse) = _
    unfold trimChars
    rw [dropWhile_eq_self_of_head Char.isWhitespace hvrev_head,
      List.reverse_reverse,
      dropWhile_eq_self_of_head Char.isWhitespace hvhead]

/-- C7: the per-message sanitization — the three redaction rules applied in
fixed order (`ssnAux`, `idAux`, `emailAux`) followed by trimming — is
idempotent: `sanitizeContent` maps any of its own outputs to itself
unchanged; in particular the tokens `[REDACTED-SSN]`, `[REDACTED-ID]` and
`[REDACTED-EMAIL]` are not themselves matched by any of the three
patterns. -/
theorem C7_sanitize_idempotent :
    (∀ s : String, sanitizeContent (sanitizeContent s) = sanitizeContent s)
    ∧ (hasSSNOcc false SSN_TOKEN = false ∧ hasIDOcc false SSN_TOKEN = false
      ∧ hasEmailOcc false SSN_TOKEN = false)
    ∧ (hasSSNOcc false ID_TOKEN = false ∧ hasIDOcc false ID_TOKEN = false
      ∧ hasEmailOcc false ID_TOKEN = false)
    ∧ (hasSSNOcc false EMAIL_TOKEN = false ∧ hasIDOcc false EMAIL_TOKEN = false
      ∧ hasEmailOcc false EMAIL_TOKEN = false) := by
  refine ⟨?_, by decide, by decide, by decide⟩
  intro s
  have hS : hasSSNOcc false
      (emailAux false (idAux false (ssnAux false s.data))) = false :=
    hasSSNOcc_emailAux _ _ (hasSSNOcc_idAux _ _ (hasSSNOcc_ssnAux s.data false))
  have hI : hasIDOcc false
      (emailAux false (idAux false (ssnAux false s.data))) = false :=
    hasIDOcc_emailAux _ _ (hasIDOcc_idAux (ssnAux false s.data) false)
  have hE : hasEmailOcc false
      (emailAux false (idAux false (ssnAux false s.data))) = false :=
    hasEmailOcc_emailAux (idAux false (ssnAux false s.data)) false
  obtain ⟨wpre, wsuf, hdec, hwpre, hwsuf⟩ :=
    trim_decomp (emailAux false (idAux false (ssnAux false s.data)))
  have hdec' : emailAux false (idAux false (ssnAux false s.data))
      = wpre ++ (trimChars (emailAux false (idAux false (ssnAux false s.data)))
        ++ wsuf) := by
    conv_lhs => rw [hdec]
    rw [List.append_assoc]
  have hS2 : hasSSNOcc false
      (trimChars (emailAux false (idAux false (ssnAux false s.data)))) = false := by
    refine hasSSNOcc_ws_append _ false hwsuf
      (hasSSNOcc_ws_prior wpre _ hwpre ?_)
    rw [← hdec']
    exact hS
  have hI2 : hasIDOcc false
      (trimChars (emailAux false (idAux false (ssnAux false s.data)))) = false := by
    refine hasIDOcc_ws_append _ false hwsuf
      (hasIDOcc_ws_prior wpre _ hwpre ?_)
    rw [← hdec']
    exact hI
  have hE2 : hasEmailOcc false
      (trimChars (emailAux false (idAux false (ssnAux false s.data)))) = false := by
    refine hasEmailOcc_ws_append _ false hwsuf
      (hasEmailOcc_ws_prior wpre _ hwpre ?_)
    rw [← hdec']
    exact hE
  have hss : sanitizeContent s
      = ⟨trimChars (emailAux false (idAux false (ssnAux false s.data)))⟩ := rfl
  rw [hss]
  exact sanitizeContent_id
    ⟨trimChars (emailAux false (idAux false (ssnAux false s.data)))⟩
    hS2 hI2 hE2
    (trimChars_idem (emailAux false (idAux false (ssnAux false s.data))))

end Mentora
